import Mathlib

/-!
# da-slam: the per-timestep pipeline of `slam::SLAM<POSE, POINT>`

A shallow embedding of `include/slam/slam.hxx` (with the members and accessors
of `include/slam/slam.h`) and of the driver loop of `src/slam/slam_g2o_file.cpp`.

* The class is a record `SLAM`; every member function is a function from the
  record to the record after the call, paired with the exception that left the
  call (`none` is a normal return).
* gtsam is an external library: its solver (`isam_`), `Marginals` and the
  data-association policy are parameters (`Gtsam`, `DataAssociation`). A solver
  update returns the solver after the call and the exception it threw, if any.
* `POSE` and `POINT` are the template parameters. `POSE()` is `1`, pose
  composition is `*` and a pose applied to a point is `•`; no law is assumed of
  them, so the results hold for the floating-point operations of gtsam as well.
* `latest_pose_key_` and `latest_landmark_key_` are `unsigned long`. Each
  increment goes with a value stored for the new key in the solver, so a
  counter cannot reach `2^64` in addressable memory; they are natural numbers.
* The record has one ghost field, `log`: the factors added to `graph_`, the
  values inserted in `initial_estimates_`, the calls of the solver and of the
  association policy and the landmark keys allocated, in program order.
-/

namespace slam

/-! ## Keys, values and factors (gtsam) -/

/-- A `gtsam::Symbol`: a tag character and an index. -/
structure Key where
  chr : Char
  index : Nat
  deriving DecidableEq, Repr

/-- The pose key `gtsam::symbol_shorthand::X(j)`. -/
def X (j : Nat) : Key := ⟨'x', j⟩

/-- The landmark key `gtsam::symbol_shorthand::L(j)`. -/
def L (j : Nat) : Key := ⟨'l', j⟩

/-- A value held by `gtsam::Values`: the pipeline stores poses and points. -/
inductive Value (POSE POINT : Type) where
  | pose (p : POSE)
  | point (q : POINT)
  deriving DecidableEq, Repr

/-- The `gtsam::Values` container, as the list of its entries in insertion order. -/
abbrev Values (POSE POINT : Type) := List (Key × Value POSE POINT)

/-- The exceptions of `gtsam::Values`. -/
inductive ValuesException where
  | ValuesKeyAlreadyExists (k : Key)
  | ValuesKeyDoesNotExist (k : Key)
  | ValuesIncorrectType (k : Key)
  deriving DecidableEq, Repr

/-- The keys of a `gtsam::Values`. -/
def Values.keys {POSE POINT : Type} (v : Values POSE POINT) : List Key :=
  v.map Prod.fst

/-- The call `Values::insert(key, value)`: throws when the key is already there. -/
def Values.insert {POSE POINT : Type} (v : Values POSE POINT) (k : Key)
    (x : Value POSE POINT) : Except ValuesException (Values POSE POINT) :=
  if k ∈ Values.keys v then .error (.ValuesKeyAlreadyExists k) else .ok (v ++ [(k, x)])

/-- The call `Values::at<POSE>(key)`. -/
def Values.atPose {POSE POINT : Type} (v : Values POSE POINT) (k : Key) :
    Except ValuesException POSE :=
  match v.lookup k with
  | none => .error (.ValuesKeyDoesNotExist k)
  | some (.pose p) => .ok p
  | some (.point _) => .error (.ValuesIncorrectType k)

/-- The factors the pipeline adds to its graph. -/
inductive Factor (POSE POINT NOISE : Type) where
  | PriorFactor (key : Key) (prior : POSE) (noise : NOISE)
  | BetweenFactor (key1 key2 : Key) (measured : POSE) (noise : NOISE)
  | PoseToPointFactor (key1 key2 : Key) (measured : POINT) (noise : NOISE)
  deriving DecidableEq, Repr

/-- The keys a factor refers to. -/
def Factor.keys {POSE POINT NOISE : Type} : Factor POSE POINT NOISE → List Key
  | .PriorFactor k _ _ => [k]
  | .BetweenFactor k1 k2 _ _ => [k1, k2]
  | .PoseToPointFactor k1 k2 _ _ => [k1, k2]

/-! ## The input types (`slam/types.h`, known from their use in `slam.hxx`) -/

/-- The type `Odometry<POSE>`: the fields `odom` and `noise` read by `addOdom`. -/
structure Odometry (POSE NOISE : Type) where
  odom : POSE
  noise : NOISE
  deriving DecidableEq, Repr

/-- The type `Measurement<POINT>`: the fields `measurement` and `noise`. -/
structure Measurement (POINT NOISE : Type) where
  measurement : POINT
  noise : NOISE
  deriving DecidableEq, Repr

/-- The type `Timestep<POSE, POINT>`: `step` is an `int`, `odom` is passed to
`addOdom` by reference, `measurements` is a vector. -/
structure Timestep (POSE POINT NOISE : Type) where
  step : Int
  odom : Odometry POSE NOISE
  measurements : List (Measurement POINT NOISE)
  deriving DecidableEq, Repr

/-! ## Hypotheses (`data_association/Hypothesis.h`, known from their use) -/

/-- One `da::hypothesis::Association`: `measurement` indexes the measurements of
the timestep, `landmark` is the key it is bound to, if any. -/
structure Association where
  measurement : Nat
  landmark : Option Key
  deriving DecidableEq, Repr

/-- The test `Association::associated()`. -/
def Association.associated (a : Association) : Bool := a.landmark.isSome

/-- The list `Hypothesis::associations()`. -/
abbrev Hypothesis := List Association

/-- The hypothesis `Hypothesis::empty_hypothesis()`. -/
def Hypothesis.empty_hypothesis : Hypothesis := []

/-- Modelled from the spec: `Hypothesis::fill_with_unassociated_measurements` is
declared in `data_association/Hypothesis.h`, which is not among the sources. The
spec has the pipeline "synthesize a Hypothesis where every observation maps to
new", index-aligned: an unbound association is added, in index order, for every
measurement index the hypothesis does not hold yet. -/
def Hypothesis.fill_with_unassociated_measurements (h : Hypothesis) (n : Nat) : Hypothesis :=
  h ++ ((List.range n).filter (fun i => !(h.any (fun a => a.measurement == i)))).map
    (fun i => ⟨i, none⟩)

/-! ## The library surface -/

/-- What leaves `ISAM2::update`: the exception the pipeline catches, or any other. -/
inductive SolverThrow where
  | IndeterminantLinearSystemException (nearbyVariable : Key)
  | other (what : String)
  deriving DecidableEq, Repr

/-- The gtsam surface the pipeline consumes. `σ` is the state of an `ISAM2`
object, `M` is `gtsam::Marginals`. `update` returns the solver after the call
and the exception thrown, if any; `calculateEstimate`, `getFactorsUnsafe` and
the constructor of `Marginals` are taken to return. -/
structure Gtsam (σ M POSE POINT NOISE : Type) where
  ISAM2 : σ
  update : σ → List (Factor POSE POINT NOISE) → Values POSE POINT → σ × Option SolverThrow
  calculateEstimate : σ → Values POSE POINT
  getFactorsUnsafe : σ → List (Factor POSE POINT NOISE)
  Marginals : List (Factor POSE POINT NOISE) → Values POSE POINT → M

/-- The policy `da::DataAssociation<Measurement<POINT>>::associate`. -/
abbrev DataAssociation (M POSE POINT NOISE : Type) :=
  Values POSE POINT → M → List (Measurement POINT NOISE) → Hypothesis

/-! ## The pipeline state -/

/-- The ghost log: one entry per `graph_.add`, per `initial_estimates_.insert`
that returns, per call of `isam_.update` (with what it was handed and what it
threw), per call of `data_association_->associate` (with what it returned) and
per call of `incrementLatestLandmarkKey` (with the key it leaves behind). -/
inductive Event (M POSE POINT NOISE : Type) where
  | add (factor : Factor POSE POINT NOISE)
  | insert (key : Key) (value : Value POSE POINT)
  | update (graph : List (Factor POSE POINT NOISE)) (values : Values POSE POINT)
      (thrown : Option SolverThrow)
  | associate (estimates : Values POSE POINT) (marginals : M)
      (measurements : List (Measurement POINT NOISE)) (returned : Hypothesis)
  | newLandmark (key : Key)
  deriving DecidableEq, Repr

/-- The members of `slam::SLAM<POSE, POINT>`. `isam_` is the solver that
`slam.hxx` drives. `smoother_` and `estimates_` are the members that the
accessors `getGraph()` and `currentEstimates()` of `slam.h` read: `smoother_` is
held through the factors `getFactors()` returns on it, and no member function of
`slam.hxx` calls either of them. The members `lmk_prior_noise_`, `ic_prob_` and
`range_threshold_` are never read or written by `slam.hxx` and are left out. -/
structure SLAM (σ M POSE POINT NOISE : Type) where
  graph_ : List (Factor POSE POINT NOISE)
  isam_ : σ
  smoother_ : List (Factor POSE POINT NOISE)
  estimates_ : Values POSE POINT
  initial_estimates_ : Values POSE POINT
  pose_prior_noise_ : Option NOISE
  data_association_ : Option (DataAssociation M POSE POINT NOISE)
  latest_pose_key_ : Nat
  latest_pose_ : POSE
  latest_landmark_key_ : Nat
  log : List (Event M POSE POINT NOISE)

/-- What leaves a member function of `SLAM` as an exception: the wrapped
failure built by the handlers, an exception of the solver that no handler
caught, an exception of `gtsam::Values`, or undefined behaviour. -/
inductive Thrown (POSE POINT NOISE : Type) where
  | IndeterminantLinearSystemExceptionWithGraphValues (err : SolverThrow)
      (graph : List (Factor POSE POINT NOISE)) (values : Values POSE POINT)
  | solver (e : SolverThrow)
  | values (e : ValuesException)
  | undefinedBehaviour
  deriving DecidableEq, Repr

section Pipeline

variable {σ M POSE POINT NOISE : Type}

/-- The constructor `SLAM::SLAM()`: both counters are 0, `latest_pose_` is
default-constructed, the containers are empty and the default-constructed
`smoother_` holds no factor. -/
def SLAM.new [One POSE] (lib : Gtsam σ M POSE POINT NOISE) : SLAM σ M POSE POINT NOISE where
  graph_ := []
  isam_ := lib.ISAM2
  smoother_ := []
  estimates_ := []
  initial_estimates_ := []
  pose_prior_noise_ := none
  data_association_ := none
  latest_pose_key_ := 0
  latest_pose_ := 1
  latest_landmark_key_ := 0
  log := []

/-- The member `incrementLatestPoseKey`. -/
def incrementLatestPoseKey (s : SLAM σ M POSE POINT NOISE) : SLAM σ M POSE POINT NOISE :=
  { s with latest_pose_key_ := s.latest_pose_key_ + 1 }

/-- The member `incrementLatestLandmarkKey`. The log records the landmark key
that the increment retires, `L(latest_landmark_key_)` before the call. -/
def incrementLatestLandmarkKey (s : SLAM σ M POSE POINT NOISE) : SLAM σ M POSE POINT NOISE :=
  { s with latest_landmark_key_ := s.latest_landmark_key_ + 1
           log := s.log ++ [.newLandmark (L s.latest_landmark_key_)] }

/-- The call `graph_.add(factor)`. -/
def graph_add (s : SLAM σ M POSE POINT NOISE) (factor : Factor POSE POINT NOISE) :
    SLAM σ M POSE POINT NOISE :=
  { s with graph_ := s.graph_ ++ [factor], log := s.log ++ [.add factor] }

/-- The call `initial_estimates_.insert(key, value)`. -/
def initial_estimates_insert (s : SLAM σ M POSE POINT NOISE) (key : Key)
    (value : Value POSE POINT) : Except ValuesException (SLAM σ M POSE POINT NOISE) :=
  match Values.insert s.initial_estimates_ key value with
  | .error e => .error e
  | .ok v => .ok { s with initial_estimates_ := v, log := s.log ++ [.insert key value] }

/-- The accessor `currentEstimates()` of `slam.h`: `return estimates_;`. -/
def currentEstimates (s : SLAM σ M POSE POINT NOISE) : Values POSE POINT :=
  s.estimates_

/-- The accessor `getGraph()` of `slam.h`: `return smoother_.getFactors();`. -/
def getGraph (s : SLAM σ M POSE POINT NOISE) : List (Factor POSE POINT NOISE) :=
  s.smoother_

/-- The member `getTrajectory()`: the loop `for (int i = 0; i < latest_pose_key_; i++)`
pushes `estimates.at<POSE>(X(i))` onto the trajectory; `at` throws on a key
that has no pose, which ends the call. The `int` index follows the counter as
long as the counter is below `2^31`, and every pose key below the counter was
handed to the solver with a value, so the counter does not get there. -/
def getTrajectory (s : SLAM σ M POSE POINT NOISE) : Except ValuesException (List POSE) :=
  let estimates := currentEstimates s
  (List.range s.latest_pose_key_).foldlM (fun trajectory i =>
    match Values.atPose estimates (X i) with
    | .error e => .error e
    | .ok pose => .ok (trajectory ++ [pose])) []

/-- The member `update(graph, initial_estimates)`. It hands the members
`graph_` and `initial_estimates_` to the solver and, when the solver returns,
clears its two reference arguments; every call site passes the two members. -/
def update (lib : Gtsam σ M POSE POINT NOISE) (s : SLAM σ M POSE POINT NOISE) :
    SLAM σ M POSE POINT NOISE × Option SolverThrow :=
  match lib.update s.isam_ s.graph_ s.initial_estimates_ with
  | (isam, some e) =>
    ({ s with isam_ := isam
              log := s.log ++ [.update s.graph_ s.initial_estimates_ (some e)] }, some e)
  | (isam, none) =>
    ({ s with isam_ := isam
              log := s.log ++ [.update s.graph_ s.initial_estimates_ none]
              graph_ := []
              initial_estimates_ := [] }, none)

/-- Modelled from the spec: the overload `update()` without arguments, called by
the loop-closure passes, is not among the sources. The spec calls it a
"no-new-constraint solver update pass": the solver is updated with no factor
and no value. -/
def update0 (lib : Gtsam σ M POSE POINT NOISE) (s : SLAM σ M POSE POINT NOISE) :
    SLAM σ M POSE POINT NOISE × Option SolverThrow :=
  match lib.update s.isam_ [] [] with
  | (isam, e) => ({ s with isam_ := isam, log := s.log ++ [.update [] [] e] }, e)

/-- The handler of every `try` block of `slam.hxx`: an
`IndeterminantLinearSystemException` is caught and rethrown with `getGraph()`
and `currentEstimates()`; any other exception passes through. -/
def rethrow (r : SLAM σ M POSE POINT NOISE × Option SolverThrow) :
    SLAM σ M POSE POINT NOISE × Option (Thrown POSE POINT NOISE) :=
  match r with
  | (s, none) => (s, none)
  | (s, some (.IndeterminantLinearSystemException j)) =>
    (s, some (.IndeterminantLinearSystemExceptionWithGraphValues
      (.IndeterminantLinearSystemException j) (getGraph s) (currentEstimates s)))
  | (s, some (.other w)) => (s, some (.solver (.other w)))

/-- The member `initialize(pose_prior_noise, data_association)`. -/
def initializeSLAM [One POSE] (lib : Gtsam σ M POSE POINT NOISE)
    (s : SLAM σ M POSE POINT NOISE) (pose_prior_noise : NOISE)
    (data_association : DataAssociation M POSE POINT NOISE) :
    SLAM σ M POSE POINT NOISE × Option (Thrown POSE POINT NOISE) :=
  let s := { s with pose_prior_noise_ := some pose_prior_noise
                    data_association_ := some data_association }
  let s := graph_add s (.PriorFactor (X s.latest_pose_key_) 1 pose_prior_noise)
  match initial_estimates_insert s (X s.latest_pose_key_) (.pose 1) with
  | .error e => (s, some (.values e))
  | .ok s => rethrow (update lib s)

/-- The member `addOdom(odom)`. -/
def addOdom [Mul POSE] (lib : Gtsam σ M POSE POINT NOISE) (s : SLAM σ M POSE POINT NOISE)
    (odom : Odometry POSE NOISE) :
    SLAM σ M POSE POINT NOISE × Option (Thrown POSE POINT NOISE) :=
  let s := graph_add s
    (.BetweenFactor (X s.latest_pose_key_) (X (s.latest_pose_key_ + 1)) odom.odom odom.noise)
  let this_pose := s.latest_pose_ * odom.odom
  match initial_estimates_insert s (X (s.latest_pose_key_ + 1)) (.pose this_pose) with
  | .error e => (s, some (.values e))
  | .ok s =>
    match rethrow (update lib { s with latest_pose_ := this_pose }) with
    | (s, some t) => (s, some t)
    | (s, none) => (incrementLatestPoseKey s, none)

/-- The hypothesis `h` of `processTimestep`: the policy is asked when a landmark
exists, otherwise every measurement is unassociated. The second component is the
state after the call (the log grows when the policy is asked); `none` is the
dereference of a null `data_association_`. -/
def chooseHypothesis (lib : Gtsam σ M POSE POINT NOISE) (s : SLAM σ M POSE POINT NOISE)
    (measurements : List (Measurement POINT NOISE)) :
    Option (Hypothesis × SLAM σ M POSE POINT NOISE) :=
  let full_graph := lib.getFactorsUnsafe s.isam_
  let estimates := lib.calculateEstimate s.isam_
  let marginals := lib.Marginals full_graph estimates
  if s.latest_landmark_key_ > 0 then
    match s.data_association_ with
    | none => none
    | some da =>
      let h := da estimates marginals measurements
      some (h, { s with log := s.log ++ [.associate estimates marginals measurements h] })
  else
    some (Hypothesis.fill_with_unassociated_measurements Hypothesis.empty_hypothesis
      measurements.length, s)

/-- The body of the loop over `assos` in `processTimestep`. The flag is
`new_loop_closure`. An index outside `timestep.measurements` is undefined
behaviour of `operator[]`; the embedding stops there. The counter
`associated_measurements` is only printed and is left out. -/
def associationBody [SMul POSE POINT] (T_wb : POSE)
    (measurements : List (Measurement POINT NOISE)) (s : SLAM σ M POSE POINT NOISE)
    (new_loop_closure : Bool) (a : Association) :
    SLAM σ M POSE POINT NOISE × Bool × Option (Thrown POSE POINT NOISE) :=
  match measurements[a.measurement]? with
  | none => (s, new_loop_closure, some .undefinedBehaviour)
  | some m =>
    let meas := m.measurement
    let meas_noise := m.noise
    let meas_world := T_wb • meas
    match a.landmark with
    | some landmark =>
      (graph_add s (.PoseToPointFactor (X s.latest_pose_key_) landmark meas meas_noise),
        true, none)
    | none =>
      let s := graph_add s
        (.PoseToPointFactor (X s.latest_pose_key_) (L s.latest_landmark_key_) meas meas_noise)
      match initial_estimates_insert s (L s.latest_landmark_key_) (.point meas_world) with
      | .error e => (s, new_loop_closure, some (.values e))
      | .ok s => (incrementLatestLandmarkKey s, new_loop_closure, none)

/-- The loop `for (int i = 0; i < assos.size(); i++)` of `processTimestep`. -/
def associationLoop [SMul POSE POINT] (T_wb : POSE)
    (measurements : List (Measurement POINT NOISE)) :
    List Association → SLAM σ M POSE POINT NOISE → Bool →
    SLAM σ M POSE POINT NOISE × Bool × Option (Thrown POSE POINT NOISE)
  | [], s, new_loop_closure => (s, new_loop_closure, none)
  | a :: assos, s, new_loop_closure =>
    match associationBody T_wb measurements s new_loop_closure a with
    | (s, flag, some t) => (s, flag, some t)
    | (s, flag, none) => associationLoop T_wb measurements assos s flag

/-- The loop `for (int i = 0; i < 20; i++) update();` inside its `try` block,
for a bound `n`. -/
def extraUpdates (lib : Gtsam σ M POSE POINT NOISE) :
    Nat → SLAM σ M POSE POINT NOISE →
    SLAM σ M POSE POINT NOISE × Option (Thrown POSE POINT NOISE)
  | 0, s => (s, none)
  | n + 1, s =>
    match rethrow (update0 lib s) with
    | (s, some t) => (s, some t)
    | (s, none) => extraUpdates lib n s

/-- The part of `processTimestep` after the early return on an empty
measurement list. -/
def processMeasurements [SMul POSE POINT] (lib : Gtsam σ M POSE POINT NOISE)
    (s : SLAM σ M POSE POINT NOISE) (timestep : Timestep POSE POINT NOISE) :
    SLAM σ M POSE POINT NOISE × Option (Thrown POSE POINT NOISE) :=
  let estimates := lib.calculateEstimate s.isam_
  match chooseHypothesis lib s timestep.measurements with
  | none => (s, some .undefinedBehaviour)
  | some (h, s) =>
    match Values.atPose estimates (X s.latest_pose_key_) with
    | .error e => (s, some (.values e))
    | .ok T_wb =>
      match associationLoop T_wb timestep.measurements h s false with
      | (s, _, some t) => (s, some t)
      | (s, new_loop_closure, none) =>
        match rethrow (update lib s) with
        | (s, some t) => (s, some t)
        | (s, none) => if new_loop_closure then extraUpdates lib 20 s else (s, none)

/-- The member `processTimestep(timestep)`. -/
def processTimestep [Mul POSE] [SMul POSE POINT] (lib : Gtsam σ M POSE POINT NOISE)
    (s : SLAM σ M POSE POINT NOISE) (timestep : Timestep POSE POINT NOISE) :
    SLAM σ M POSE POINT NOISE × Option (Thrown POSE POINT NOISE) :=
  match (if timestep.step > 0 then addOdom lib s timestep.odom else (s, none)) with
  | (s, some t) => (s, some t)
  | (s, none) =>
    if timestep.measurements.length = 0 then (s, none)
    else processMeasurements lib s timestep

/-- The driver loop of `main`: the timesteps are processed in order inside one
`try` block, so the first exception ends the run. -/
def processTimesteps [Mul POSE] [SMul POSE POINT] (lib : Gtsam σ M POSE POINT NOISE) :
    List (Timestep POSE POINT NOISE) → SLAM σ M POSE POINT NOISE →
    SLAM σ M POSE POINT NOISE × Option (Thrown POSE POINT NOISE)
  | [], s => (s, none)
  | timestep :: timesteps, s =>
    match processTimestep lib s timestep with
    | (s, some t) => (s, some t)
    | (s, none) => processTimesteps lib timesteps s

/-- A run of `main`: construct, `initialize`, then the driver loop. -/
def runSLAM [One POSE] [Mul POSE] [SMul POSE POINT] (lib : Gtsam σ M POSE POINT NOISE)
    (pose_prior_noise : NOISE) (data_association : DataAssociation M POSE POINT NOISE)
    (timesteps : List (Timestep POSE POINT NOISE)) :
    SLAM σ M POSE POINT NOISE × Option (Thrown POSE POINT NOISE) :=
  match initializeSLAM lib (SLAM.new lib) pose_prior_noise data_association with
  | (s, some t) => (s, some t)
  | (s, none) => processTimesteps lib timesteps s

end Pipeline

/-! ## Observations on the log -/

section Observations

variable {σ M POSE POINT NOISE : Type}

/-- The calls of `isam_.update` in a log. -/
def updateEvents (log : List (Event M POSE POINT NOISE)) : List (Event M POSE POINT NOISE) :=
  log.filter (fun e => match e with | .update _ _ _ => true | _ => false)

/-- The calls of `data_association_->associate` in a log. -/
def associateEvents (log : List (Event M POSE POINT NOISE)) : List (Event M POSE POINT NOISE) :=
  log.filter (fun e => match e with | .associate _ _ _ _ => true | _ => false)

/-- The landmark keys allocated in a log, in allocation order. -/
def newLandmarkKeys (log : List (Event M POSE POINT NOISE)) : List Key :=
  log.filterMap (fun e => match e with | .newLandmark k => some k | _ => none)

/-- The factors added to `graph_` in a log, in order. -/
def addedFactors (log : List (Event M POSE POINT NOISE)) : List (Factor POSE POINT NOISE) :=
  log.filterMap (fun e => match e with | .add f => some f | _ => none)

/-- The entries inserted in `initial_estimates_` in a log, in order. -/
def insertedValues (log : List (Event M POSE POINT NOISE)) : Values POSE POINT :=
  log.filterMap (fun e => match e with | .insert k v => some (k, v) | _ => none)

/-- A log entry other than a solver update that threw. -/
def Event.succeeded : Event M POSE POINT NOISE → Bool
  | .update _ _ (some _) => false
  | _ => true

/-- The factors handed to the solver in a log, call after call. -/
def handedFactors (log : List (Event M POSE POINT NOISE)) : List (Factor POSE POINT NOISE) :=
  log.flatMap (fun e => match e with | .update g _ _ => g | _ => [])

/-- The initial values handed to the solver in a log, call after call. -/
def handedValues (log : List (Event M POSE POINT NOISE)) : Values POSE POINT :=
  log.flatMap (fun e => match e with | .update _ v _ => v | _ => [])

/-- The log entries of one landmark allocation: the factor between the pose key
and the landmark key `L(p.1)`, the initial value of the landmark (the pose
`T_wb` applied to the local point of the measurement `p.2`) and the allocation. -/
def landmarkEvents (M : Type) [SMul POSE POINT] (T_wb : POSE) (pose_key : Nat)
    (p : Nat × Measurement POINT NOISE) : List (Event M POSE POINT NOISE) :=
  [.add (.PoseToPointFactor (X pose_key) (L p.1) p.2.measurement p.2.noise),
    .insert (L p.1) (.point (T_wb • p.2.measurement)), .newLandmark (L p.1)]

/-- What the association loop appends to the log when every index of the
hypothesis is inside the measurements: for a bound association the factor to
the bound key, for an unbound one the entries of a landmark allocation under
the next landmark key. `c` is the landmark counter. -/
def loopEvents (M : Type) [SMul POSE POINT] (T_wb : POSE) (pose_key : Nat)
    (measurements : List (Measurement POINT NOISE)) :
    Nat → Hypothesis → List (Event M POSE POINT NOISE)
  | _, [] => []
  | c, a :: assos =>
    match measurements[a.measurement]?, a.landmark with
    | some m, some landmark =>
      .add (.PoseToPointFactor (X pose_key) landmark m.measurement m.noise) ::
        loopEvents M T_wb pose_key measurements c assos
    | some m, none =>
      landmarkEvents M T_wb pose_key (c, m) ++
        loopEvents M T_wb pose_key measurements (c + 1) assos
    | none, _ => []

/-- What a call has appended to the log: the log of the state after, without
the log of the state before. -/
def logSince (s s' : SLAM σ M POSE POINT NOISE) : List (Event M POSE POINT NOISE) :=
  s'.log.drop s.log.length

/-- The state in which `processTimestep` reaches its test of the measurements. -/
def afterOdom [Mul POSE] (lib : Gtsam σ M POSE POINT NOISE) (s : SLAM σ M POSE POINT NOISE)
    (timestep : Timestep POSE POINT NOISE) : SLAM σ M POSE POINT NOISE :=
  if timestep.step > 0 then (addOdom lib s timestep.odom).1 else s

/-- The hypothesis `processTimestep` works with for a timestep, when it gets that far. -/
def hypothesisUsed [Mul POSE] (lib : Gtsam σ M POSE POINT NOISE)
    (s : SLAM σ M POSE POINT NOISE) (timestep : Timestep POSE POINT NOISE) :
    Option Hypothesis :=
  (chooseHypothesis lib (afterOdom lib s timestep) timestep.measurements).map Prod.fst

end Observations

/-! ## A concrete instance

Poses and points of the integer plane (translations only), a unit noise model
and a solver that stores what it is handed and raises
`IndeterminantLinearSystemException` at the calls picked by a schedule. -/

namespace Toy

/-- A translation of the integer plane. -/
structure Pose2 where
  x : Int
  y : Int
  deriving DecidableEq, Repr

/-- A point of the integer plane. -/
structure Point2 where
  x : Int
  y : Int
  deriving DecidableEq, Repr

instance : One Pose2 := ⟨⟨0, 0⟩⟩

instance : Mul Pose2 := ⟨fun a b => ⟨a.x + b.x, a.y + b.y⟩⟩

instance : SMul Pose2 Point2 := ⟨fun a q => ⟨a.x + q.x, a.y + q.y⟩⟩

/-- The state of the stored-values solver: what it holds and how often it was called. -/
structure Isam where
  factors : List (Factor Pose2 Point2 Unit)
  theta : Values Pose2 Point2
  calls : Nat
  deriving DecidableEq, Repr

/-- The stored-values solver: the call with index `n` raises when `fails n`,
every other call stores the new factors and values. -/
def lib (fails : Nat → Bool) : Gtsam Isam Unit Pose2 Point2 Unit where
  ISAM2 := ⟨[], [], 0⟩
  update := fun i g v =>
    if fails i.calls then
      ({ i with calls := i.calls + 1 }, some (.IndeterminantLinearSystemException (X 0)))
    else (⟨i.factors ++ g, i.theta ++ v, i.calls + 1⟩, none)
  calculateEstimate := fun i => i.theta
  getFactorsUnsafe := fun i => i.factors
  Marginals := fun _ _ => ()

/-- The solver that never raises. -/
def sound : Gtsam Isam Unit Pose2 Point2 Unit := lib (fun _ => false)

/-- A policy that binds the first measurement to `L(0)` and leaves the others new. -/
def bindFirst : DataAssociation Unit Pose2 Point2 Unit :=
  fun _ _ measurements =>
    (List.range measurements.length).map (fun i => ⟨i, if i = 0 then some (L 0) else none⟩)

/-- A policy that answers with the index 0 for every measurement, unbound: for
two measurements or more the hypothesis repeats an index and misses the others. -/
def repeatFirst : DataAssociation Unit Pose2 Point2 Unit :=
  fun _ _ measurements => measurements.map (fun _ => ⟨0, none⟩)

/-- A policy that binds the first measurement to `L(7)`, a key never created. -/
def bindUnknown : DataAssociation Unit Pose2 Point2 Unit :=
  fun _ _ _ => [⟨0, some (L 7)⟩]

/-- A policy that leaves every measurement new. -/
def allNew : DataAssociation Unit Pose2 Point2 Unit :=
  fun _ _ measurements => (List.range measurements.length).map (fun i => ⟨i, none⟩)

/-- A measurement of the point `(x, y)` in the local frame. -/
def meas (x y : Int) : Measurement Point2 Unit := ⟨⟨x, y⟩, ()⟩

/-- A timestep. -/
def timestep (step : Int) (dx dy : Int) (ms : List (Measurement Point2 Unit)) :
    Timestep Pose2 Point2 Unit :=
  ⟨step, ⟨⟨dx, dy⟩, ()⟩, ms⟩

/-- The pipeline after `initialize` and a first timestep, without odometry, whose
one measurement at the local point `(1, 0)` has created `L(0)`. -/
def seenOne (fails : Nat → Bool) (da : DataAssociation Unit Pose2 Point2 Unit) :
    SLAM Isam Unit Pose2 Point2 Unit :=
  (runSLAM (lib fails) () da [timestep 0 0 0 [meas 1 0]]).1

/-- A second timestep: one step along `x`, and the landmark seen again. -/
def revisit : Timestep Pose2 Point2 Unit := timestep 1 1 0 [meas 0 0]

/-- The pipeline after `initialize`, with a solver that never raises. -/
def initialized : SLAM Isam Unit Pose2 Point2 Unit :=
  (initializeSLAM sound (SLAM.new sound) () allNew).1

/-- The log entry of a solver update that was handed nothing and returned. -/
def pass : Event Unit Pose2 Point2 Unit := .update [] [] none

/-- The estimate after one observation factor is taken in: when the factor
observes, from a pose, a landmark that has a value, the pose is moved to where
the observation puts it (the landmark minus the measurement). -/
def moved (theta : Values Pose2 Point2) : Factor Pose2 Point2 Unit → Values Pose2 Point2
  | .PoseToPointFactor pose_key landmark meas _ =>
    match theta.lookup landmark with
    | some (.point q) =>
      theta.map (fun kv =>
        if kv.1 = pose_key then (kv.1, .pose ⟨q.x - meas.x, q.y - meas.y⟩) else kv)
    | _ => theta
  | _ => theta

/-- A solver that never raises and trusts the observations over the odometry:
it stores what it is handed, then moves every observing pose to where its
observation of the landmark puts it. -/
def closing : Gtsam Isam Unit Pose2 Point2 Unit where
  ISAM2 := ⟨[], [], 0⟩
  update := fun i g v => (⟨i.factors ++ g, g.foldl moved (i.theta ++ v), i.calls + 1⟩, none)
  calculateEstimate := fun i => i.theta
  getFactorsUnsafe := fun i => i.factors
  Marginals := fun _ _ => ()

/-- The pipeline after a loop closure: the landmark `L(0)` is created at `(1, 0)`
from the first pose, then the pipeline moves one step along `x` and sees the
landmark at the same local point `(1, 0)` again. -/
def closedLoop : SLAM Isam Unit Pose2 Point2 Unit :=
  (runSLAM closing () bindFirst [timestep 0 0 0 [meas 1 0], timestep 1 1 0 [meas 1 0]]).1

end Toy

end slam

namespace slam

section Invariants

variable {σ M POSE POINT NOISE : Type}

/-- A property of the pipeline state that the effects of the association loop
keep: a factor added to `graph_`, and a landmark allocated (the value inserted
under `L(latest_landmark_key_)` and the counter incremented). -/
structure LoopStable (P : SLAM σ M POSE POINT NOISE → Prop) : Prop where
  add : ∀ s f, P s → P (graph_add s f)
  newLandmark : ∀ s v s', P s →
    initial_estimates_insert s (L s.latest_landmark_key_) v = .ok s' →
    P (incrementLatestLandmarkKey s')

/-- A property of the pipeline state that every effect of `slam.hxx` keeps: such
a property is kept by every member function, whatever it throws. -/
structure Stable (lib : Gtsam σ M POSE POINT NOISE)
    (P : SLAM σ M POSE POINT NOISE → Prop) extends LoopStable P : Prop where
  insertPose : ∀ s j p s', P s → initial_estimates_insert s (X j) (.pose p) = .ok s' → P s'
  update : ∀ s, P s → P (update lib s).1
  update0 : ∀ s, P s → P (update0 lib s).1
  incPose : ∀ s, P s → P (incrementLatestPoseKey s)
  setPose : ∀ s p, P s → P { s with latest_pose_ := p }
  asked : ∀ s est m ms h, P s → P { s with log := s.log ++ [.associate est m ms h] }
  configure : ∀ s n da, P s →
    P { s with pose_prior_noise_ := some n, data_association_ := some da }

/-- The landmark keys allocated so far are `L(0)`, ..., `L(latest_landmark_key_ - 1)`,
in this order. -/
def LandmarkLog (s : SLAM σ M POSE POINT NOISE) : Prop :=
  newLandmarkKeys s.log = (List.range s.latest_landmark_key_).map L

/-- No landmark key at or above the counter waits in `initial_estimates_`. -/
def LandmarksBelow (s : SLAM σ M POSE POINT NOISE) : Prop :=
  ∀ j, L j ∈ Values.keys s.initial_estimates_ → j < s.latest_landmark_key_

/-- The accumulated delta is empty: nothing waits in `graph_` or in
`initial_estimates_`. -/
def Flushed (s : SLAM σ M POSE POINT NOISE) : Prop :=
  s.graph_ = [] ∧ s.initial_estimates_ = []

/-- The exception that leaves a handler of `slam.hxx` when the solver has thrown
`e` and the pipeline is in the state `s`. -/
def handler (s : SLAM σ M POSE POINT NOISE) (e : SolverThrow) : Thrown POSE POINT NOISE :=
  match e with
  | .IndeterminantLinearSystemException _ =>
    .IndeterminantLinearSystemExceptionWithGraphValues e (getGraph s) (currentEstimates s)
  | .other _ => .solver e

/-- The state `s1` follows `s0` by log entries none of which is a failed update. -/
def Quiet (s0 s1 : SLAM σ M POSE POINT NOISE) : Prop :=
  ∃ d, s1.log = s0.log ++ d ∧ ∀ ev ∈ d, ev.succeeded = true

/-- The ways a member function called in the state `s0` can end in `x`: either
no solver update has thrown and the call returns or throws an exception that is
not the solver's, or the last log entry is the one solver update that threw, the
solver is as that call left it, and the exception is the one the handler built. -/
def Traced (lib : Gtsam σ M POSE POINT NOISE) (s0 : SLAM σ M POSE POINT NOISE)
    (x : SLAM σ M POSE POINT NOISE × Option (Thrown POSE POINT NOISE)) : Prop :=
  (Quiet s0 x.1 ∧ (x.2 = none ∨ (∃ e, x.2 = some (.values e)) ∨
      x.2 = some .undefinedBehaviour)) ∨
    (∃ s1 g v e i0, Quiet s0 s1 ∧ x.1.log = s1.log ++ [.update g v (some e)] ∧
      lib.update i0 g v = (x.1.isam_, some e) ∧ x.2 = some (handler x.1 e))

/-- The factors and values that wait for the next solver update at the end of a
log, when `pf` and `pv` were waiting at its start: what was added and inserted
since the last solver update in the log. -/
def pendingFrom (pf : List (Factor POSE POINT NOISE)) (pv : Values POSE POINT) :
    List (Event M POSE POINT NOISE) → List (Factor POSE POINT NOISE) × Values POSE POINT
  | [] => (pf, pv)
  | .add f :: l => pendingFrom (pf ++ [f]) pv l
  | .insert k v :: l => pendingFrom pf (pv ++ [(k, v)]) l
  | .update _ _ _ :: l => pendingFrom [] [] l
  | .associate _ _ _ _ :: l => pendingFrom pf pv l
  | .newLandmark _ :: l => pendingFrom pf pv l

/-- Every solver update of the log is handed exactly the factors added and the
values inserted since the solver update before it (`pf` and `pv` at the start):
nothing is handed twice and nothing is left out. -/
def handedOnceFrom (pf : List (Factor POSE POINT NOISE)) (pv : Values POSE POINT) :
    List (Event M POSE POINT NOISE) → Prop
  | [] => True
  | .add f :: l => handedOnceFrom (pf ++ [f]) pv l
  | .insert k v :: l => handedOnceFrom pf (pv ++ [(k, v)]) l
  | .update g v _ :: l => g = pf ∧ v = pv ∧ handedOnceFrom [] [] l
  | .associate _ _ _ _ :: l => handedOnceFrom pf pv l
  | .newLandmark _ :: l => handedOnceFrom pf pv l

/-- Every solver update of the log is handed what was added and inserted since
the solver update before it. -/
def HandedOnce (log : List (Event M POSE POINT NOISE)) : Prop :=
  handedOnceFrom [] [] log

/-- The accumulator holds what the log says is waiting, and no solver update so
far was handed anything twice. -/
def Sync (s : SLAM σ M POSE POINT NOISE) : Prop :=
  HandedOnce s.log ∧ pendingFrom [] [] s.log = (s.graph_, s.initial_estimates_)

/-- When the last log entry is a solver update that threw, the accumulator still
holds what that update was handed. -/
def KeepsDelta (s : SLAM σ M POSE POINT NOISE) : Prop :=
  ∀ l g v e, s.log = l ++ [.update g v (some e)] → s.graph_ = g ∧ s.initial_estimates_ = v

/-- A pair of properties of the pipeline state: `P` is kept by every effect of
`slam.hxx` as long as no solver update throws, and `Q` holds after a solver
update that throws (and wherever `P` holds). The loop-closure passes are only
issued with an empty accumulator. -/
structure Guarded (lib : Gtsam σ M POSE POINT NOISE)
    (P Q : SLAM σ M POSE POINT NOISE → Prop) extends LoopStable P : Prop where
  weaken : ∀ s, P s → Q s
  insertPose : ∀ s j p s', P s → initial_estimates_insert s (X j) (.pose p) = .ok s' → P s'
  update_ok : ∀ s, P s → (update lib s).2 = none → P (update lib s).1
  update_thrown : ∀ s, P s → (update lib s).2 ≠ none → Q (update lib s).1
  update0_ok : ∀ s, P s → Flushed s → (update0 lib s).2 = none → P (update0 lib s).1
  update0_thrown : ∀ s, P s → Flushed s → (update0 lib s).2 ≠ none → Q (update0 lib s).1
  incPose : ∀ s, P s → P (incrementLatestPoseKey s)
  setPose : ∀ s p, P s → P { s with latest_pose_ := p }
  asked : ∀ s est m ms h, P s → P { s with log := s.log ++ [.associate est m ms h] }
  configure : ∀ s n da, P s →
    P { s with pose_prior_noise_ := some n, data_association_ := some da }

/-- The keys that were given an initial value in a solver update that returned. -/
def solvedKeys (log : List (Event M POSE POINT NOISE)) : List Key :=
  log.flatMap (fun e => match e with | .update _ v none => Values.keys v | _ => [])

/-- The keys that were handed to the solver with an initial value, in any
solver update of the log. -/
def handedKeys (log : List (Event M POSE POINT NOISE)) : List Key :=
  Values.keys (handedValues log)

/-- Every solver update of the log is referentially closed: each key of each
factor it is handed has its initial value in the same update, or had it in an
earlier update that returned (`solved` at the start of the log). -/
def closedFrom (solved : List Key) : List (Event M POSE POINT NOISE) → Prop
  | [] => True
  | .update g v none :: l =>
    (∀ f ∈ g, ∀ key ∈ f.keys, key ∈ solved ∨ key ∈ Values.keys v) ∧
      closedFrom (solved ++ Values.keys v) l
  | .update g v (some _) :: l =>
    (∀ f ∈ g, ∀ key ∈ f.keys, key ∈ solved ∨ key ∈ Values.keys v) ∧ closedFrom solved l
  | .add _ :: l => closedFrom solved l
  | .insert _ _ :: l => closedFrom solved l
  | .associate _ _ _ _ :: l => closedFrom solved l
  | .newLandmark _ :: l => closedFrom solved l

/-- Every answer of the association policy in the log respects its contract:
the indices are inside the measurements it was given, and the keys it binds are
landmark keys allocated before the call (`created` at the start of the log). -/
def contractFrom (created : List Key) : List (Event M POSE POINT NOISE) → Prop
  | [] => True
  | .associate _ _ ms h :: l =>
    (∀ a ∈ h, a.measurement < ms.length ∧ ∀ key, a.landmark = some key → key ∈ created) ∧
      contractFrom created l
  | .newLandmark k :: l => contractFrom (created ++ [k]) l
  | .add _ :: l => contractFrom created l
  | .insert _ _ :: l => contractFrom created l
  | .update _ _ _ :: l => contractFrom created l

/-- Every solver update of the log was handed a referentially closed delta, and
no key was handed an initial value twice. -/
def ClosedDeltas (log : List (Event M POSE POINT NOISE)) : Prop :=
  closedFrom [] log ∧ (handedKeys log).Nodup

/-- The invariant of a run between two calls: the accumulator is empty, the
landmark keys allocated are `L(0)`, ..., every solver update so far was closed,
no key was handed an initial value twice, and the keys with a solved initial
value are exactly the pose keys up to `latest_pose_key_` and the landmark keys
below `latest_landmark_key_`. -/
def RunInv (s : SLAM σ M POSE POINT NOISE) : Prop :=
  Flushed s ∧ LandmarkLog s ∧ closedFrom [] s.log ∧ (handedKeys s.log).Nodup ∧
    (∀ key, key ∈ handedKeys s.log → key ∈ solvedKeys s.log) ∧
    (∀ key, key ∈ solvedKeys s.log ↔
      (∃ i, i ≤ s.latest_pose_key_ ∧ key = X i) ∨
        (∃ j, j < s.latest_landmark_key_ ∧ key = L j))

/-- The number of unbound associations of a hypothesis. -/
def unbound (h : Hypothesis) : Nat := (h.filter (fun a => !a.associated)).length

end Invariants

end slam

namespace slam

section Lemmas

variable {σ M POSE POINT NOISE : Type}

/-! ## The log only grows -/

@[simp] theorem updateEvents_append (l₁ l₂ : List (Event M POSE POINT NOISE)) :
    updateEvents (l₁ ++ l₂) = updateEvents l₁ ++ updateEvents l₂ := by
  simp [updateEvents]

@[simp] theorem updateEvents_nil : updateEvents ([] : List (Event M POSE POINT NOISE)) = [] := rfl

@[simp] theorem updateEvents_cons_add (f : Factor POSE POINT NOISE)
    (l : List (Event M POSE POINT NOISE)) :
    updateEvents (.add f :: l) = updateEvents l := rfl

@[simp] theorem updateEvents_cons_insert (k : Key) (v : Value POSE POINT)
    (l : List (Event M POSE POINT NOISE)) :
    updateEvents (.insert k v :: l) = updateEvents l := rfl

@[simp] theorem updateEvents_cons_update (g : List (Factor POSE POINT NOISE))
    (v : Values POSE POINT) (e : Option SolverThrow) (l : List (Event M POSE POINT NOISE)) :
    updateEvents (.update g v e :: l) = .update g v e :: updateEvents l := rfl

@[simp] theorem updateEvents_cons_associate (est : Values POSE POINT) (m : M)
    (ms : List (Measurement POINT NOISE)) (h : Hypothesis)
    (l : List (Event M POSE POINT NOISE)) :
    updateEvents (.associate est m ms h :: l) = updateEvents l := rfl

@[simp] theorem updateEvents_cons_newLandmark (k : Key) (l : List (Event M POSE POINT NOISE)) :
    updateEvents (.newLandmark k :: l) = updateEvents l := rfl

@[simp] theorem associateEvents_append (l₁ l₂ : List (Event M POSE POINT NOISE)) :
    associateEvents (l₁ ++ l₂) = associateEvents l₁ ++ associateEvents l₂ := by
  simp [associateEvents]

@[simp] theorem associateEvents_nil :
    associateEvents ([] : List (Event M POSE POINT NOISE)) = [] := rfl

@[simp] theorem associateEvents_cons_add (f : Factor POSE POINT NOISE)
    (l : List (Event M POSE POINT NOISE)) :
    associateEvents (.add f :: l) = associateEvents l := rfl

@[simp] theorem associateEvents_cons_insert (k : Key) (v : Value POSE POINT)
    (l : List (Event M POSE POINT NOISE)) :
    associateEvents (.insert k v :: l) = associateEvents l := rfl

@[simp] theorem associateEvents_cons_update (g : List (Factor POSE POINT NOISE))
    (v : Values POSE POINT) (e : Option SolverThrow) (l : List (Event M POSE POINT NOISE)) :
    associateEvents (.update g v e :: l) = associateEvents l := rfl

@[simp] theorem associateEvents_cons_associate (est : Values POSE POINT) (m : M)
    (ms : List (Measurement POINT NOISE)) (h : Hypothesis)
    (l : List (Event M POSE POINT NOISE)) :
    associateEvents (.associate est m ms h :: l) = .associate est m ms h :: associateEvents l :=
  rfl

@[simp] theorem associateEvents_cons_newLandmark (k : Key)
    (l : List (Event M POSE POINT NOISE)) :
    associateEvents (.newLandmark k :: l) = associateEvents l := rfl

@[simp] theorem newLandmarkKeys_append (l₁ l₂ : List (Event M POSE POINT NOISE)) :
    newLandmarkKeys (l₁ ++ l₂) = newLandmarkKeys l₁ ++ newLandmarkKeys l₂ := by
  simp [newLandmarkKeys]

@[simp] theorem newLandmarkKeys_nil :
    newLandmarkKeys ([] : List (Event M POSE POINT NOISE)) = [] := rfl

@[simp] theorem newLandmarkKeys_cons_add (f : Factor POSE POINT NOISE)
    (l : List (Event M POSE POINT NOISE)) :
    newLandmarkKeys (.add f :: l) = newLandmarkKeys l := rfl

@[simp] theorem newLandmarkKeys_cons_insert (k : Key) (v : Value POSE POINT)
    (l : List (Event M POSE POINT NOISE)) :
    newLandmarkKeys (.insert k v :: l) = newLandmarkKeys l := rfl

@[simp] theorem newLandmarkKeys_cons_update (g : List (Factor POSE POINT NOISE))
    (v : Values POSE POINT) (e : Option SolverThrow) (l : List (Event M POSE POINT NOISE)) :
    newLandmarkKeys (.update g v e :: l) = newLandmarkKeys l := rfl

@[simp] theorem newLandmarkKeys_cons_associate (est : Values POSE POINT) (m : M)
    (ms : List (Measurement POINT NOISE)) (h : Hypothesis)
    (l : List (Event M POSE POINT NOISE)) :
    newLandmarkKeys (.associate est m ms h :: l) = newLandmarkKeys l := rfl

@[simp] theorem newLandmarkKeys_cons_newLandmark (k : Key)
    (l : List (Event M POSE POINT NOISE)) :
    newLandmarkKeys (.newLandmark k :: l) = k :: newLandmarkKeys l := rfl

@[simp] theorem addedFactors_append (l₁ l₂ : List (Event M POSE POINT NOISE)) :
    addedFactors (l₁ ++ l₂) = addedFactors l₁ ++ addedFactors l₂ := by
  simp [addedFactors]

@[simp] theorem addedFactors_nil :
    addedFactors ([] : List (Event M POSE POINT NOISE)) = [] := rfl

@[simp] theorem addedFactors_cons_add (f : Factor POSE POINT NOISE)
    (l : List (Event M POSE POINT NOISE)) :
    addedFactors (.add f :: l) = f :: addedFactors l := rfl

@[simp] theorem addedFactors_cons_insert (k : Key) (v : Value POSE POINT)
    (l : List (Event M POSE POINT NOISE)) :
    addedFactors (.insert k v :: l) = addedFactors l := rfl

@[simp] theorem addedFactors_cons_update (g : List (Factor POSE POINT NOISE))
    (v : Values POSE POINT) (e : Option SolverThrow) (l : List (Event M POSE POINT NOISE)) :
    addedFactors (.update g v e :: l) = addedFactors l := rfl

@[simp] theorem addedFactors_cons_associate (est : Values POSE POINT) (m : M)
    (ms : List (Measurement POINT NOISE)) (h : Hypothesis)
    (l : List (Event M POSE POINT NOISE)) :
    addedFactors (.associate est m ms h :: l) = addedFactors l := rfl

@[simp] theorem addedFactors_cons_newLandmark (k : Key)
    (l : List (Event M POSE POINT NOISE)) :
    addedFactors (.newLandmark k :: l) = addedFactors l := rfl

@[simp] theorem insertedValues_append (l₁ l₂ : List (Event M POSE POINT NOISE)) :
    insertedValues (l₁ ++ l₂) = insertedValues l₁ ++ insertedValues l₂ := by
  simp [insertedValues]

@[simp] theorem insertedValues_nil :
    insertedValues ([] : List (Event M POSE POINT NOISE)) = [] := rfl

@[simp] theorem insertedValues_cons_add (f : Factor POSE POINT NOISE)
    (l : List (Event M POSE POINT NOISE)) :
    insertedValues (.add f :: l) = insertedValues l := rfl

@[simp] theorem insertedValues_cons_insert (k : Key) (v : Value POSE POINT)
    (l : List (Event M POSE POINT NOISE)) :
    insertedValues (.insert k v :: l) = (k, v) :: insertedValues l := rfl

@[simp] theorem insertedValues_cons_update (g : List (Factor POSE POINT NOISE))
    (v : Values POSE POINT) (e : Option SolverThrow) (l : List (Event M POSE POINT NOISE)) :
    insertedValues (.update g v e :: l) = insertedValues l := rfl

@[simp] theorem insertedValues_cons_associate (est : Values POSE POINT) (m : M)
    (ms : List (Measurement POINT NOISE)) (h : Hypothesis)
    (l : List (Event M POSE POINT NOISE)) :
    insertedValues (.associate est m ms h :: l) = insertedValues l := rfl

@[simp] theorem insertedValues_cons_newLandmark (k : Key)
    (l : List (Event M POSE POINT NOISE)) :
    insertedValues (.newLandmark k :: l) = insertedValues l := rfl

@[simp] theorem handedValues_append (l₁ l₂ : List (Event M POSE POINT NOISE)) :
    handedValues (l₁ ++ l₂) = handedValues l₁ ++ handedValues l₂ := by
  simp [handedValues]

@[simp] theorem handedValues_nil :
    handedValues ([] : List (Event M POSE POINT NOISE)) = [] := rfl

@[simp] theorem handedValues_cons_add (f : Factor POSE POINT NOISE)
    (l : List (Event M POSE POINT NOISE)) :
    handedValues (.add f :: l) = handedValues l := rfl

@[simp] theorem handedValues_cons_insert (k : Key) (v : Value POSE POINT)
    (l : List (Event M POSE POINT NOISE)) :
    handedValues (.insert k v :: l) = handedValues l := rfl

@[simp] theorem handedValues_cons_update (g : List (Factor POSE POINT NOISE))
    (v : Values POSE POINT) (e : Option SolverThrow) (l : List (Event M POSE POINT NOISE)) :
    handedValues (.update g v e :: l) = v ++ handedValues l := rfl

@[simp] theorem handedValues_cons_associate (est : Values POSE POINT) (m : M)
    (ms : List (Measurement POINT NOISE)) (h : Hypothesis)
    (l : List (Event M POSE POINT NOISE)) :
    handedValues (.associate est m ms h :: l) = handedValues l := rfl

@[simp] theorem handedValues_cons_newLandmark (k : Key)
    (l : List (Event M POSE POINT NOISE)) :
    handedValues (.newLandmark k :: l) = handedValues l := rfl

@[simp] theorem handedFactors_append (l₁ l₂ : List (Event M POSE POINT NOISE)) :
    handedFactors (l₁ ++ l₂) = handedFactors l₁ ++ handedFactors l₂ := by
  simp [handedFactors]

@[simp] theorem handedFactors_nil :
    handedFactors ([] : List (Event M POSE POINT NOISE)) = [] := rfl

@[simp] theorem handedFactors_cons_add (f : Factor POSE POINT NOISE)
    (l : List (Event M POSE POINT NOISE)) :
    handedFactors (.add f :: l) = handedFactors l := rfl

@[simp] theorem handedFactors_cons_insert (k : Key) (v : Value POSE POINT)
    (l : List (Event M POSE POINT NOISE)) :
    handedFactors (.insert k v :: l) = handedFactors l := rfl

@[simp] theorem handedFactors_cons_update (g : List (Factor POSE POINT NOISE))
    (v : Values POSE POINT) (e : Option SolverThrow) (l : List (Event M POSE POINT NOISE)) :
    handedFactors (.update g v e :: l) = g ++ handedFactors l := rfl

@[simp] theorem handedFactors_cons_associate (est : Values POSE POINT) (m : M)
    (ms : List (Measurement POINT NOISE)) (h : Hypothesis)
    (l : List (Event M POSE POINT NOISE)) :
    handedFactors (.associate est m ms h :: l) = handedFactors l := rfl

@[simp] theorem handedFactors_cons_newLandmark (k : Key)
    (l : List (Event M POSE POINT NOISE)) :
    handedFactors (.newLandmark k :: l) = handedFactors l := rfl

theorem logSince_of_append {s s' : SLAM σ M POSE POINT NOISE}
    {d : List (Event M POSE POINT NOISE)} (h : s'.log = s.log ++ d) : logSince s s' = d := by
  simp [logSince, h]

theorem update_log (lib : Gtsam σ M POSE POINT NOISE) (s : SLAM σ M POSE POINT NOISE) :
    (update lib s).1.log =
      s.log ++ [.update s.graph_ s.initial_estimates_ (update lib s).2] := by
  unfold update
  split <;> simp_all

theorem update0_log (lib : Gtsam σ M POSE POINT NOISE) (s : SLAM σ M POSE POINT NOISE) :
    (update0 lib s).1.log = s.log ++ [.update [] [] (update0 lib s).2] := by
  simp [update0]

theorem rethrow_fst (r : SLAM σ M POSE POINT NOISE × Option SolverThrow) :
    (rethrow r).1 = r.1 := by
  unfold rethrow
  split <;> rfl

theorem rethrow_eq_none (r : SLAM σ M POSE POINT NOISE × Option SolverThrow) :
    (rethrow r).2 = none ↔ r.2 = none := by
  unfold rethrow
  split <;> simp

end Lemmas

end slam

namespace slam

section Lemmas2

variable {σ M POSE POINT NOISE : Type}

theorem extraUpdates_log (lib : Gtsam σ M POSE POINT NOISE) (n : Nat)
    (s : SLAM σ M POSE POINT NOISE) :
    ∃ k tail, k ≤ n ∧
      (extraUpdates lib n s).1.log = s.log ++ List.replicate k (.update [] [] none) ++ tail ∧
      ((extraUpdates lib n s).2 = none → k = n ∧ tail = []) ∧
      ((extraUpdates lib n s).2 ≠ none → k < n ∧ ∃ e, tail = [.update [] [] (some e)]) := by
  induction n generalizing s with
  | zero => exact ⟨0, [], le_refl _, by simp [extraUpdates], by simp [extraUpdates], by simp [extraUpdates]⟩
  | succ n ih =>
    have hlog := update0_log lib s
    have hfst := rethrow_fst (update0 lib s)
    have hnone := rethrow_eq_none (update0 lib s)
    unfold extraUpdates
    rcases hr : rethrow (update0 lib s) with ⟨s1, _ | t⟩
    · rw [hr] at hfst hnone
      simp only [true_iff] at hnone
      simp only at hfst
      subst hfst
      obtain ⟨k, tail, hk, hl, h1, h2⟩ := ih (update0 lib s).1
      refine ⟨k + 1, tail, Nat.succ_le_succ hk, ?_, ?_, ?_⟩
      · simp only [hl, hlog, hnone, List.replicate_succ]
        simp
      · intro h
        obtain ⟨a, b⟩ := h1 h
        exact ⟨by omega, b⟩
      · intro h
        obtain ⟨a, b⟩ := h2 h
        exact ⟨by omega, b⟩
    · rw [hr] at hfst hnone
      simp only [reduceCtorEq, false_iff] at hnone
      simp only at hfst
      subst hfst
      obtain ⟨e, he⟩ := Option.ne_none_iff_exists'.mp hnone
      refine ⟨0, [.update [] [] (some e)], Nat.zero_le _, ?_, by simp, ?_⟩
      · simp [hlog, he]
      · intro _
        exact ⟨Nat.succ_pos _, e, rfl⟩

theorem associationBody_stable [SMul POSE POINT]
    {P : SLAM σ M POSE POINT NOISE → Prop} (hP : LoopStable P) (T_wb : POSE)
    (ms : List (Measurement POINT NOISE)) (s : SLAM σ M POSE POINT NOISE) (flag : Bool)
    (a : Association) (h : P s) : P (associationBody T_wb ms s flag a).1 := by
  unfold associationBody
  split
  · exact h
  · split
    · exact hP.add _ _ h
    · simp only
      split
      · exact hP.add _ _ h
      · next s' hs' => exact hP.newLandmark _ _ _ (hP.add _ _ h) hs'

theorem associationLoop_stable [SMul POSE POINT]
    {P : SLAM σ M POSE POINT NOISE → Prop} (hP : LoopStable P) (T_wb : POSE)
    (ms : List (Measurement POINT NOISE)) (assos : List Association)
    (s : SLAM σ M POSE POINT NOISE) (flag : Bool) (h : P s) :
    P (associationLoop T_wb ms assos s flag).1 := by
  induction assos generalizing s flag with
  | nil => exact h
  | cons a assos ih =>
    have hb := associationBody_stable hP T_wb ms s flag a h
    unfold associationLoop
    rcases hr : associationBody T_wb ms s flag a with ⟨s1, f1, _ | t⟩
    · rw [hr] at hb
      exact ih s1 f1 hb
    · rw [hr] at hb
      exact hb

theorem extraUpdates_stable {lib : Gtsam σ M POSE POINT NOISE}
    {P : SLAM σ M POSE POINT NOISE → Prop} (hP : ∀ s, P s → P (update0 lib s).1) (n : Nat)
    (s : SLAM σ M POSE POINT NOISE) (h : P s) : P (extraUpdates lib n s).1 := by
  induction n generalizing s with
  | zero => exact h
  | succ n ih =>
    have hu := hP s h
    have hfst := rethrow_fst (update0 lib s)
    unfold extraUpdates
    rcases hr : rethrow (update0 lib s) with ⟨s1, _ | t⟩
    · rw [hr] at hfst
      simp only at hfst
      subst hfst
      exact ih _ hu
    · rw [hr] at hfst
      simp only at hfst
      subst hfst
      exact hu

theorem associationLoop_flag [SMul POSE POINT] (T_wb : POSE)
    (ms : List (Measurement POINT NOISE)) (assos : List Association)
    (s : SLAM σ M POSE POINT NOISE) (flag : Bool)
    (h : (associationLoop T_wb ms assos s flag).2.2 = none) :
    (associationLoop T_wb ms assos s flag).2.1 = (flag || assos.any Association.associated) := by
  induction assos generalizing s flag with
  | nil => simp [associationLoop]
  | cons a assos ih =>
    unfold associationLoop at h ⊢
    rcases hr : associationBody T_wb ms s flag a with ⟨s1, f1, _ | t⟩
    · rw [hr] at h
      simp only at h ⊢
      rw [ih s1 f1 h]
      unfold associationBody at hr
      split at hr
      · simp at hr
      · split at hr
        · next l hl =>
          simp only [Prod.mk.injEq] at hr
          simp [← hr.2.1, Association.associated, hl]
        · next hl =>
          simp only at hr
          split at hr
          · simp at hr
          · simp only [Prod.mk.injEq] at hr
            simp [← hr.2.1, Association.associated, hl]
    · rw [hr] at h
      simp at h

/-- The association loop calls no solver update and only appends to the log. -/
theorem associationLoop_log [SMul POSE POINT] (T_wb : POSE)
    (ms : List (Measurement POINT NOISE)) (assos : List Association)
    (s : SLAM σ M POSE POINT NOISE) (flag : Bool) :
    ∃ d, (associationLoop T_wb ms assos s flag).1.log = s.log ++ d ∧ updateEvents d = [] ∧
      associateEvents d = [] := by
  refine associationLoop_stable (P := fun s' => ∃ d, s'.log = s.log ++ d ∧ updateEvents d = [] ∧
      associateEvents d = []) ⟨?_, ?_⟩ T_wb ms assos s flag ⟨[], by simp, rfl, rfl⟩
  · rintro s1 f ⟨d, hd, hu, ha⟩
    exact ⟨d ++ [.add f], by simp [graph_add, hd], by simp [hu], by simp [ha]⟩
  · rintro s1 v s2 ⟨d, hd, hu, ha⟩ h
    unfold initial_estimates_insert at h
    split at h
    · simp at h
    · simp only [Except.ok.injEq] at h
      subst h
      exact ⟨d ++ [.insert (L s1.latest_landmark_key_) v, .newLandmark (L s1.latest_landmark_key_)],
        by simp [incrementLatestLandmarkKey, hd], by simp [hu], by simp [ha]⟩

end Lemmas2

end slam

namespace slam

section Lemmas3

variable {σ M POSE POINT NOISE : Type}

theorem initial_estimates_insert_ok {s s' : SLAM σ M POSE POINT NOISE} {k : Key}
    {v : Value POSE POINT} (h : initial_estimates_insert s k v = .ok s') :
    k ∉ Values.keys s.initial_estimates_ ∧
      s' = { s with initial_estimates_ := s.initial_estimates_ ++ [(k, v)]
                    log := s.log ++ [.insert k v] } := by
  unfold initial_estimates_insert Values.insert at h
  split at h
  · simp at h
  · next v' hv =>
    split at hv
    · simp at hv
    · next hk =>
      simp only [Except.ok.injEq] at hv h
      subst hv
      exact ⟨hk, h.symm⟩

theorem initial_estimates_insert_error {s : SLAM σ M POSE POINT NOISE} {k : Key}
    {v : Value POSE POINT} {e : ValuesException} (h : initial_estimates_insert s k v = .error e) :
    k ∈ Values.keys s.initial_estimates_ := by
  unfold initial_estimates_insert Values.insert at h
  split at h
  · next hv =>
    split at hv
    · next hk => exact hk
    · simp at hv
  · simp at h

theorem initial_estimates_insert_fresh (s : SLAM σ M POSE POINT NOISE) (k : Key)
    (v : Value POSE POINT) (hk : k ∉ Values.keys s.initial_estimates_) :
    initial_estimates_insert s k v =
      .ok { s with initial_estimates_ := s.initial_estimates_ ++ [(k, v)]
                   log := s.log ++ [.insert k v] } := by
  simp [initial_estimates_insert, Values.insert, hk]

/-- The wrapped failure built by the handlers of `slam.hxx`. -/
theorem rethrow_update_cases (lib : Gtsam σ M POSE POINT NOISE)
    (s : SLAM σ M POSE POINT NOISE) :
    (∃ i, lib.update s.isam_ s.graph_ s.initial_estimates_ = (i, none) ∧
      rethrow (update lib s) =
        ({ s with isam_ := i
                  log := s.log ++ [.update s.graph_ s.initial_estimates_ none]
                  graph_ := []
                  initial_estimates_ := [] }, none)) ∨
    (∃ i e t, lib.update s.isam_ s.graph_ s.initial_estimates_ = (i, some e) ∧
      rethrow (update lib s) =
        ({ s with isam_ := i
                  log := s.log ++ [.update s.graph_ s.initial_estimates_ (some e)] }, some t) ∧
      ((∃ j, e = .IndeterminantLinearSystemException j ∧
          t = .IndeterminantLinearSystemExceptionWithGraphValues e (getGraph s)
            (currentEstimates s)) ∨
        (∃ w, e = .other w ∧ t = .solver e))) := by
  rcases h : lib.update s.isam_ s.graph_ s.initial_estimates_ with ⟨i, _ | e⟩
  · exact Or.inl ⟨i, rfl, by simp [update, h, rethrow]⟩
  · cases e with
    | IndeterminantLinearSystemException j =>
      exact Or.inr ⟨i, _, _, rfl, by simp only [update, h, rethrow, getGraph, currentEstimates],
        Or.inl ⟨j, rfl, rfl⟩⟩
    | other w =>
      exact Or.inr ⟨i, _, _, rfl, by simp only [update, h, rethrow], Or.inr ⟨w, rfl, rfl⟩⟩

theorem addOdom_of_fresh [Mul POSE] (lib : Gtsam σ M POSE POINT NOISE)
    (s : SLAM σ M POSE POINT NOISE) (o : Odometry POSE NOISE)
    (hk : X (s.latest_pose_key_ + 1) ∉ Values.keys s.initial_estimates_) :
    addOdom lib s o =
      match rethrow (update lib
        { s with graph_ := s.graph_ ++ [.BetweenFactor (X s.latest_pose_key_)
                   (X (s.latest_pose_key_ + 1)) o.odom o.noise]
                 initial_estimates_ := s.initial_estimates_ ++
                   [(X (s.latest_pose_key_ + 1), .pose (s.latest_pose_ * o.odom))]
                 latest_pose_ := s.latest_pose_ * o.odom
                 log := s.log ++ [.add (.BetweenFactor (X s.latest_pose_key_)
                   (X (s.latest_pose_key_ + 1)) o.odom o.noise),
                   .insert (X (s.latest_pose_key_ + 1)) (.pose (s.latest_pose_ * o.odom))] }) with
      | (s, some t) => (s, some t)
      | (s, none) => (incrementLatestPoseKey s, none) := by
  unfold addOdom
  simp only
  rw [initial_estimates_insert_fresh _ _ _ (by simpa [graph_add] using hk)]
  simp [graph_add]

theorem addOdom_of_stale [Mul POSE] (lib : Gtsam σ M POSE POINT NOISE)
    (s : SLAM σ M POSE POINT NOISE) (o : Odometry POSE NOISE)
    (hk : X (s.latest_pose_key_ + 1) ∈ Values.keys s.initial_estimates_) :
    addOdom lib s o =
      (graph_add s (.BetweenFactor (X s.latest_pose_key_) (X (s.latest_pose_key_ + 1))
        o.odom o.noise),
        some (.values (.ValuesKeyAlreadyExists (X (s.latest_pose_key_ + 1))))) := by
  unfold addOdom
  simp [initial_estimates_insert, Values.insert, graph_add, hk]

/-- What `addOdom` appends to the log: nothing but the factor when the insert
throws, otherwise the factor, the value and one solver update. -/
theorem addOdom_log [Mul POSE] (lib : Gtsam σ M POSE POINT NOISE)
    (s : SLAM σ M POSE POINT NOISE) (o : Odometry POSE NOISE) :
    ∃ d, (addOdom lib s o).1.log = s.log ++ d ∧ associateEvents d = [] ∧
      newLandmarkKeys d = [] ∧
      ((X (s.latest_pose_key_ + 1) ∈ Values.keys s.initial_estimates_ ∧ updateEvents d = [] ∧
          (addOdom lib s o).2 ≠ none) ∨
        (X (s.latest_pose_key_ + 1) ∉ Values.keys s.initial_estimates_ ∧
          ∃ e, updateEvents d =
            [.update
              (s.graph_ ++ [.BetweenFactor (X s.latest_pose_key_) (X (s.latest_pose_key_ + 1))
                o.odom o.noise])
              (s.initial_estimates_ ++ [(X (s.latest_pose_key_ + 1), .pose (s.latest_pose_ * o.odom))])
              e] ∧
            ((addOdom lib s o).2 = none ↔ e = none))) := by
  by_cases hk : X (s.latest_pose_key_ + 1) ∈ Values.keys s.initial_estimates_
  · rw [addOdom_of_stale lib s o hk]
    exact ⟨[.add _], rfl, rfl, rfl, Or.inl ⟨hk, rfl, by simp⟩⟩
  · rw [addOdom_of_fresh lib s o hk]
    rcases rethrow_update_cases lib
      { s with graph_ := s.graph_ ++ [.BetweenFactor (X s.latest_pose_key_)
                   (X (s.latest_pose_key_ + 1)) o.odom o.noise]
               initial_estimates_ := s.initial_estimates_ ++
                   [(X (s.latest_pose_key_ + 1), .pose (s.latest_pose_ * o.odom))]
               latest_pose_ := s.latest_pose_ * o.odom
               log := s.log ++ [.add (.BetweenFactor (X s.latest_pose_key_)
                   (X (s.latest_pose_key_ + 1)) o.odom o.noise),
                   .insert (X (s.latest_pose_key_ + 1)) (.pose (s.latest_pose_ * o.odom))] }
      with ⟨i, _, hr⟩ | ⟨i, e, t, _, hr, _⟩
    · rw [hr]
      exact ⟨_, by simp only [incrementLatestPoseKey, List.append_assoc]; rfl, by simp,
        by simp, Or.inr ⟨hk, none, by simp, by simp⟩⟩
    · rw [hr]
      exact ⟨_, by simp only [List.append_assoc]; rfl, by simp,
        by simp, Or.inr ⟨hk, some e, by simp, by simp⟩⟩

end Lemmas3

end slam

namespace slam

section Lemmas4

variable {σ M POSE POINT NOISE : Type}

theorem chooseHypothesis_cases (lib : Gtsam σ M POSE POINT NOISE)
    (s : SLAM σ M POSE POINT NOISE) (ms : List (Measurement POINT NOISE)) :
    (s.latest_landmark_key_ = 0 ∧ chooseHypothesis lib s ms =
      some (Hypothesis.fill_with_unassociated_measurements Hypothesis.empty_hypothesis ms.length,
        s)) ∨
    (0 < s.latest_landmark_key_ ∧ s.data_association_ = none ∧
      chooseHypothesis lib s ms = none) ∨
    (0 < s.latest_landmark_key_ ∧ ∃ da, s.data_association_ = some da ∧
      chooseHypothesis lib s ms =
        some (da (lib.calculateEstimate s.isam_)
            (lib.Marginals (lib.getFactorsUnsafe s.isam_) (lib.calculateEstimate s.isam_)) ms,
          { s with log := s.log ++ [.associate (lib.calculateEstimate s.isam_)
            (lib.Marginals (lib.getFactorsUnsafe s.isam_) (lib.calculateEstimate s.isam_)) ms
            (da (lib.calculateEstimate s.isam_)
              (lib.Marginals (lib.getFactorsUnsafe s.isam_) (lib.calculateEstimate s.isam_))
              ms)] })) := by
  unfold chooseHypothesis
  by_cases h0 : 0 < s.latest_landmark_key_
  · right
    cases hda : s.data_association_ with
    | none => exact Or.inl ⟨h0, rfl, by simp [h0]⟩
    | some da => exact Or.inr ⟨h0, da, rfl, by simp [h0]⟩
  · left
    exact ⟨by omega, by simp [h0]⟩

theorem chooseHypothesis_log (lib : Gtsam σ M POSE POINT NOISE)
    (s s1 : SLAM σ M POSE POINT NOISE) (ms : List (Measurement POINT NOISE)) (h : Hypothesis)
    (hc : chooseHypothesis lib s ms = some (h, s1)) :
    ∃ d, s1 = { s with log := s.log ++ d } ∧ updateEvents d = [] ∧ newLandmarkKeys d = [] := by
  rcases chooseHypothesis_cases lib s ms with ⟨_, h1⟩ | ⟨_, _, h1⟩ | ⟨_, da, _, h1⟩
  · rw [h1] at hc
    simp only [Option.some.injEq, Prod.mk.injEq] at hc
    exact ⟨[], by simp [← hc.2], rfl, rfl⟩
  · rw [h1] at hc
    simp at hc
  · rw [h1] at hc
    simp only [Option.some.injEq, Prod.mk.injEq] at hc
    exact ⟨_, hc.2.symm, rfl, rfl⟩

/-- The solver updates of the part of `processTimestep` that handles the
measurements: none when the main update is not reached, otherwise the main
update and, when it succeeds, the loop-closure passes. -/
theorem processMeasurements_updates [SMul POSE POINT] (lib : Gtsam σ M POSE POINT NOISE)
    (s : SLAM σ M POSE POINT NOISE) (t : Timestep POSE POINT NOISE) :
    ∃ d, (processMeasurements lib s t).1.log = s.log ++ d ∧
      ((updateEvents d = [] ∧ (processMeasurements lib s t).2 ≠ none) ∨
        (∃ h s1 g v e extras, chooseHypothesis lib s t.measurements = some (h, s1) ∧
          updateEvents d = .update g v e :: extras ∧
          (e ≠ none → extras = [] ∧ (processMeasurements lib s t).2 ≠ none) ∧
          (e = none → ∃ k tail, extras = List.replicate k (.update [] [] none) ++ tail ∧
            (h.any Association.associated = false →
              k = 0 ∧ tail = [] ∧ (processMeasurements lib s t).2 = none) ∧
            (h.any Association.associated = true → k ≤ 20 ∧
              ((processMeasurements lib s t).2 = none → k = 20 ∧ tail = []) ∧
              ((processMeasurements lib s t).2 ≠ none →
                k < 20 ∧ ∃ e', tail = [.update [] [] (some e')]))))) := by
  unfold processMeasurements
  simp only
  rcases hc : chooseHypothesis lib s t.measurements with _ | ⟨h, s1⟩
  · exact ⟨[], by simp, Or.inl ⟨rfl, by simp⟩⟩
  · obtain ⟨d1, hs1, hu1, -⟩ := chooseHypothesis_log lib s s1 _ h hc
    simp only
    rcases hT : Values.atPose (lib.calculateEstimate s.isam_) (X s1.latest_pose_key_) with e | T_wb
    · exact ⟨d1, by simp [hs1], Or.inl ⟨hu1, by simp⟩⟩
    · simp only
      obtain ⟨d2, hd2, hu2, -⟩ := associationLoop_log T_wb t.measurements h s1 false
      have hflag := associationLoop_flag T_wb t.measurements h s1 false
      rcases hl : associationLoop T_wb t.measurements h s1 false with ⟨s2, flag, _ | thrown⟩
      · rw [hl] at hd2 hflag
        simp only [Bool.false_or, forall_const] at hd2 hflag
        simp only
        rcases rethrow_update_cases lib s2 with ⟨i, _, hr⟩ | ⟨i, e, thrown, _, hr, _⟩
        · rw [hr]
          simp only
          cases flag with
          | false =>
            refine ⟨d1 ++ d2 ++ [.update s2.graph_ s2.initial_estimates_ none], ?_, Or.inr
              ⟨h, s1, s2.graph_, s2.initial_estimates_, none, [], rfl, by simp [hu1, hu2],
                by simp, fun _ => ⟨0, [], ?_⟩⟩⟩
            · simp [hd2, hs1]
            · simp [← hflag]
          | true =>
            obtain ⟨k, tail, hk, hlog, hn, hs⟩ := extraUpdates_log lib 20
              { s2 with isam_ := i
                        log := s2.log ++ [.update s2.graph_ s2.initial_estimates_ none]
                        graph_ := []
                        initial_estimates_ := [] }
            refine ⟨d1 ++ d2 ++ [.update s2.graph_ s2.initial_estimates_ none] ++
              List.replicate k (.update [] [] none) ++ tail, ?_, Or.inr
              ⟨h, s1, s2.graph_, s2.initial_estimates_, none, _, rfl, ?_, by simp,
                fun _ => ⟨k, tail, rfl, ?_, ?_⟩⟩⟩
            · simp only [if_true]
              rw [hlog]
              simp [hd2, hs1]
            · simp only [updateEvents_append, hu1, hu2, updateEvents_cons_update,
                updateEvents_nil, List.nil_append, List.append_assoc, List.singleton_append,
                List.cons.injEq, true_and]
              obtain rfl | ⟨e', rfl⟩ : tail = [] ∨ ∃ e', tail = [.update [] [] (some e')] := by
                by_cases hc' : (extraUpdates lib 20
                  { s2 with isam_ := i
                            log := s2.log ++ [.update s2.graph_ s2.initial_estimates_ none]
                            graph_ := []
                            initial_estimates_ := [] }).2 = none
                · exact Or.inl (hn hc').2
                · exact Or.inr (hs hc').2
              · simp [updateEvents, List.filter_replicate]
              · simp [updateEvents, List.filter_replicate]
            · simp [← hflag]
            · intro _
              exact ⟨hk, by simpa using hn, by simpa using hs⟩
        · rw [hr]
          refine ⟨d1 ++ d2 ++ [.update s2.graph_ s2.initial_estimates_ (some e)], ?_, Or.inr
              ⟨h, s1, s2.graph_, s2.initial_estimates_, some e, [], rfl, by simp [hu1, hu2],
                by simp, by simp⟩⟩
          simp [hd2, hs1]
      · rw [hl] at hd2
        simp only at hd2
        exact ⟨d1 ++ d2, by simp [hd2, hs1], Or.inl ⟨by simp [hu1, hu2], by simp⟩⟩

end Lemmas4

end slam

namespace slam

section Lemmas5

variable {σ M POSE POINT NOISE : Type}

/-- The two ways through `processTimestep`: the odometry stage throws, or it
leaves the state `afterOdom` and the measurements are handled from there. -/
theorem processTimestep_cases [Mul POSE] [SMul POSE POINT] (lib : Gtsam σ M POSE POINT NOISE)
    (s : SLAM σ M POSE POINT NOISE) (t : Timestep POSE POINT NOISE) :
    (t.step > 0 ∧ (addOdom lib s t.odom).2 ≠ none ∧
      processTimestep lib s t = addOdom lib s t.odom) ∨
    ((t.step > 0 → (addOdom lib s t.odom).2 = none) ∧
      processTimestep lib s t =
        if t.measurements.length = 0 then (afterOdom lib s t, none)
        else processMeasurements lib (afterOdom lib s t) t) := by
  unfold processTimestep afterOdom
  by_cases hpos : t.step > 0
  · simp only [hpos, if_true]
    rcases ha : addOdom lib s t.odom with ⟨s1, _ | thrown⟩
    · exact Or.inr ⟨fun _ => rfl, rfl⟩
    · exact Or.inl ⟨trivial, by simp, rfl⟩
  · simp [hpos]

/-- The log of the state in which the measurements are handled. -/
theorem afterOdom_log [Mul POSE] (lib : Gtsam σ M POSE POINT NOISE)
    (s : SLAM σ M POSE POINT NOISE) (t : Timestep POSE POINT NOISE) :
    ∃ d, (afterOdom lib s t).log = s.log ++ d ∧ associateEvents d = [] ∧
      newLandmarkKeys d = [] ∧
      ((updateEvents d).length = if t.step > 0 ∧
        X (s.latest_pose_key_ + 1) ∉ Values.keys s.initial_estimates_ then 1 else 0) := by
  unfold afterOdom
  by_cases hpos : t.step > 0
  · simp only [hpos, if_true, true_and]
    obtain ⟨d, hd, ha, hn, hc⟩ := addOdom_log lib s t.odom
    refine ⟨d, hd, ha, hn, ?_⟩
    rcases hc with ⟨hk, hu, _⟩ | ⟨hk, e, hu, _⟩
    · simp [hk, hu]
    · simp [hk, hu]
  · simp only [hpos, if_false, false_and]
    exact ⟨[], by simp, rfl, rfl, rfl⟩

end Lemmas5

end slam

namespace slam

section StableLemmas

variable {σ M POSE POINT NOISE : Type}

theorem rethrow_update_stable {lib : Gtsam σ M POSE POINT NOISE}
    {P : SLAM σ M POSE POINT NOISE → Prop} (hP : Stable lib P)
    (s : SLAM σ M POSE POINT NOISE) (h : P s) : P (rethrow (update lib s)).1 := by
  rw [rethrow_fst]
  exact hP.update s h

theorem initializeSLAM_stable [One POSE] {lib : Gtsam σ M POSE POINT NOISE}
    {P : SLAM σ M POSE POINT NOISE → Prop} (hP : Stable lib P)
    (s : SLAM σ M POSE POINT NOISE) (n : NOISE) (da : DataAssociation M POSE POINT NOISE)
    (h : P s) : P (initializeSLAM lib s n da).1 := by
  unfold initializeSLAM
  simp only
  split
  · exact hP.add _ _ (hP.configure _ _ _ h)
  · next s1 hs1 =>
    exact rethrow_update_stable hP _ (hP.insertPose _ _ _ _ (hP.add _ _ (hP.configure _ _ _ h)) hs1)

theorem addOdom_stable [Mul POSE] {lib : Gtsam σ M POSE POINT NOISE}
    {P : SLAM σ M POSE POINT NOISE → Prop} (hP : Stable lib P)
    (s : SLAM σ M POSE POINT NOISE) (o : Odometry POSE NOISE) (h : P s) :
    P (addOdom lib s o).1 := by
  unfold addOdom
  simp only
  split
  · exact hP.add _ _ h
  · next s1 hs1 =>
    have h1 := rethrow_update_stable hP _
      (hP.setPose _ ((graph_add s (.BetweenFactor (X s.latest_pose_key_)
        (X (s.latest_pose_key_ + 1)) o.odom o.noise)).latest_pose_ * o.odom)
        (hP.insertPose _ _ _ _ (hP.add _ _ h) hs1))
    split
    · next s2 t hr =>
      rw [hr] at h1
      exact h1
    · next s2 hr =>
      rw [hr] at h1
      exact hP.incPose _ h1

theorem processMeasurements_stable [SMul POSE POINT] {lib : Gtsam σ M POSE POINT NOISE}
    {P : SLAM σ M POSE POINT NOISE → Prop} (hP : Stable lib P)
    (s : SLAM σ M POSE POINT NOISE) (t : Timestep POSE POINT NOISE) (h : P s) :
    P (processMeasurements lib s t).1 := by
  unfold processMeasurements
  simp only
  rcases hch : chooseHypothesis lib s t.measurements with _ | ⟨h', s1⟩
  · exact h
  · have h1 : P s1 := by
      rcases chooseHypothesis_cases lib s t.measurements with ⟨_, hc⟩ | ⟨_, _, hc⟩ | ⟨_, da, _, hc⟩
      · rw [hc] at hch
        simp only [Option.some.injEq, Prod.mk.injEq] at hch
        rw [← hch.2]
        exact h
      · rw [hc] at hch
        simp at hch
      · rw [hc] at hch
        simp only [Option.some.injEq, Prod.mk.injEq] at hch
        rw [← hch.2]
        exact hP.asked _ _ _ _ _ h
    simp only
    split
    · exact h1
    · next T_wb _ =>
      have hl := associationLoop_stable hP.toLoopStable T_wb t.measurements h' s1 false h1
      split
      · next s2 _ thrown hr =>
        rw [hr] at hl
        exact hl
      · next s2 flag hr =>
        rw [hr] at hl
        have hu := rethrow_update_stable hP s2 hl
        split
        · next s3 thrown hr3 =>
          rw [hr3] at hu
          exact hu
        · next s3 hr3 =>
          rw [hr3] at hu
          split
          · exact extraUpdates_stable hP.update0 20 s3 hu
          · exact hu

theorem processTimestep_stable [Mul POSE] [SMul POSE POINT] {lib : Gtsam σ M POSE POINT NOISE}
    {P : SLAM σ M POSE POINT NOISE → Prop} (hP : Stable lib P)
    (s : SLAM σ M POSE POINT NOISE) (t : Timestep POSE POINT NOISE) (h : P s) :
    P (processTimestep lib s t).1 := by
  have ha : P (afterOdom lib s t) := by
    unfold afterOdom
    split
    · exact addOdom_stable hP s t.odom h
    · exact h
  rcases processTimestep_cases lib s t with ⟨_, _, heq⟩ | ⟨_, heq⟩
  · rw [heq]
    exact addOdom_stable hP s t.odom h
  · rw [heq]
    split
    · exact ha
    · exact processMeasurements_stable hP _ t ha

theorem processTimesteps_stable [Mul POSE] [SMul POSE POINT] {lib : Gtsam σ M POSE POINT NOISE}
    {P : SLAM σ M POSE POINT NOISE → Prop} (hP : Stable lib P)
    (ts : List (Timestep POSE POINT NOISE)) (s : SLAM σ M POSE POINT NOISE) (h : P s) :
    P (processTimesteps lib ts s).1 := by
  induction ts generalizing s with
  | nil => exact h
  | cons t ts ih =>
    have h1 := processTimestep_stable hP s t h
    unfold processTimesteps
    split
    · next s1 thrown hr =>
      rw [hr] at h1
      exact h1
    · next s1 hr =>
      rw [hr] at h1
      exact ih s1 h1

theorem runSLAM_stable [One POSE] [Mul POSE] [SMul POSE POINT]
    {lib : Gtsam σ M POSE POINT NOISE} {P : SLAM σ M POSE POINT NOISE → Prop}
    (hP : Stable lib P) (n : NOISE) (da : DataAssociation M POSE POINT NOISE)
    (ts : List (Timestep POSE POINT NOISE)) (h : P (SLAM.new lib)) :
    P (runSLAM lib n da ts).1 := by
  have h1 := initializeSLAM_stable hP (SLAM.new lib) n da h
  unfold runSLAM
  split
  · next s1 thrown hr =>
    rw [hr] at h1
    exact h1
  · next s1 hr =>
    rw [hr] at h1
    exact processTimesteps_stable hP ts s1 h1

end StableLemmas

end slam

namespace slam

section Claim1

variable {σ M POSE POINT NOISE : Type}

/-- C1 (amended): when the main solver update of a timestep succeeds, no further
update is issued if no association of the hypothesis used is bound; if one is
bound, the loop-closure passes follow, each with no factor and no value, 20 of
them when the call returns, and when the call throws, fewer than 20 successful
ones followed by the one that failed. -/
theorem processTimestep_extra_updates [Mul POSE] [SMul POSE POINT]
    (lib : Gtsam σ M POSE POINT NOISE) (s : SLAM σ M POSE POINT NOISE)
    (t : Timestep POSE POINT NOISE) (g : List (Factor POSE POINT NOISE))
    (v : Values POSE POINT) (extras : List (Event M POSE POINT NOISE))
    (hmain : (updateEvents (logSince s (processTimestep lib s t).1)).drop
      (if t.step > 0 then 1 else 0) = .update g v none :: extras) :
    ∃ h, hypothesisUsed lib s t = some h ∧
      (h.any Association.associated = false →
        extras = [] ∧ (processTimestep lib s t).2 = none) ∧
      (h.any Association.associated = true →
        ((processTimestep lib s t).2 = none →
          extras = List.replicate 20 (.update [] [] none)) ∧
        ((processTimestep lib s t).2 ≠ none →
          ∃ k e, k < 20 ∧
            extras = List.replicate k (.update [] [] none) ++ [.update [] [] (some e)])) := by
  obtain ⟨d0, hd0, -, -, hlen⟩ := afterOdom_log lib s t
  rcases processTimestep_cases lib s t with ⟨hpos, hthrown, heq⟩ | ⟨hok, heq⟩
  · -- the odometry stage throws: no main update
    exfalso
    obtain ⟨d, hd, -, -, hc⟩ := addOdom_log lib s t.odom
    rw [heq, logSince_of_append hd] at hmain
    rcases hc with ⟨_, hu, _⟩ | ⟨_, e, hu, _⟩
    · simp [hu] at hmain
    · simp [hu, hpos] at hmain
  · have hlen' : (updateEvents d0).length = if t.step > 0 then 1 else 0 := by
      rw [hlen]
      by_cases hpos : t.step > 0
      · by_cases hk : X (s.latest_pose_key_ + 1) ∈ Values.keys s.initial_estimates_
        · have := hok hpos
          rw [addOdom_of_stale lib s t.odom hk] at this
          simp at this
        · simp [hpos, hk]
      · simp [hpos]
    by_cases hm : t.measurements.length = 0
    · -- no measurement: no main update
      exfalso
      rw [heq, if_pos hm] at hmain
      simp only [logSince_of_append hd0] at hmain
      rw [List.drop_of_length_le (le_of_eq hlen')] at hmain
      simp at hmain
    · rw [heq, if_neg hm] at hmain ⊢
      obtain ⟨d, hd, hc⟩ := processMeasurements_updates lib (afterOdom lib s t) t
      have hlog : (processMeasurements lib (afterOdom lib s t) t).1.log = s.log ++ (d0 ++ d) := by
        rw [hd, hd0, List.append_assoc]
      rw [logSince_of_append hlog, updateEvents_append, ← hlen', List.drop_left'] at hmain
      rcases hc with ⟨hu, hne⟩ | ⟨h, s1, g', v', e, extras', hch, hu, hfail, hsucc⟩
      · rw [hu] at hmain
        simp at hmain
      · refine ⟨h, by simp [hypothesisUsed, hch], ?_⟩
        rw [hu] at hmain
        simp only [List.cons.injEq, Event.update.injEq] at hmain
        obtain ⟨⟨-, -, he⟩, hex⟩ := hmain
        obtain ⟨k, tail, hk, hfalse, htrue⟩ := hsucc he
        subst hex
        refine ⟨fun hb => ?_, fun hb => ⟨fun hr => ?_, fun hr => ?_⟩⟩
        · obtain ⟨rfl, rfl, hr⟩ := hfalse hb
          exact ⟨by simpa using hk, hr⟩
        · obtain ⟨rfl, rfl⟩ := (htrue hb).2.1 hr
          simpa using hk
        · obtain ⟨hlt, e', rfl⟩ := (htrue hb).2.2 hr
          exact ⟨k, e', hlt, hk⟩
      · rfl

/-- C1 (witness): with a solver that never raises, the revisit of `L(0)` is
followed by 20 loop-closure passes. -/
theorem processTimestep_extra_updates_witness :
    (updateEvents (logSince (Toy.seenOne (fun _ => false) Toy.bindFirst)
        (processTimestep Toy.sound (Toy.seenOne (fun _ => false) Toy.bindFirst)
          Toy.revisit).1)).drop (if Toy.revisit.step > 0 then 1 else 0) =
        .update [.PoseToPointFactor (X 1) (L 0) ⟨0, 0⟩ ()] [] none ::
          List.replicate 20 Toy.pass ∧
      ∃ h, hypothesisUsed Toy.sound (Toy.seenOne (fun _ => false) Toy.bindFirst)
          Toy.revisit = some h ∧
        (h.any Association.associated = false →
          List.replicate 20 Toy.pass = [] ∧
            (processTimestep Toy.sound (Toy.seenOne (fun _ => false) Toy.bindFirst)
              Toy.revisit).2 = none) ∧
        (h.any Association.associated = true →
          ((processTimestep Toy.sound (Toy.seenOne (fun _ => false) Toy.bindFirst)
              Toy.revisit).2 = none →
            List.replicate 20 Toy.pass = List.replicate 20 (.update [] [] none)) ∧
          ((processTimestep Toy.sound (Toy.seenOne (fun _ => false) Toy.bindFirst)
              Toy.revisit).2 ≠ none →
            ∃ k e, k < 20 ∧ List.replicate 20 Toy.pass =
              List.replicate k (.update [] [] none) ++ [.update [] [] (some e)])) :=
  ⟨by decide, processTimestep_extra_updates Toy.sound
    (Toy.seenOne (fun _ => false) Toy.bindFirst) Toy.revisit
    [.PoseToPointFactor (X 1) (L 0) ⟨0, 0⟩ ()] [] (List.replicate 20 Toy.pass) (by decide)⟩

/-- C1 (counterexample): `L(0)` exists, the policy binds the measurement of the
second timestep to it and the main update succeeds, but the first loop-closure
pass raises: one additional update is issued, not 20. -/
theorem processTimestep_extra_updates_counterexample :
    ∃ g v, ∃ extras : List (Event Unit Toy.Pose2 Toy.Point2 Unit),
      (updateEvents (logSince (Toy.seenOne (fun n => n == 4) Toy.bindFirst)
        (processTimestep (Toy.lib (fun n => n == 4))
          (Toy.seenOne (fun n => n == 4) Toy.bindFirst) Toy.revisit).1)).drop
          (if Toy.revisit.step > 0 then 1 else 0) = .update g v none :: extras ∧
      (hypothesisUsed (Toy.lib (fun n => n == 4))
        (Toy.seenOne (fun n => n == 4) Toy.bindFirst) Toy.revisit).map
          (fun h => h.any Association.associated) = some true ∧
      extras.length = 1 :=
  ⟨[.PoseToPointFactor (X 1) (L 0) ⟨0, 0⟩ ()], [],
    [.update [] [] (some (.IndeterminantLinearSystemException (X 0)))],
    by decide, by decide, by decide⟩

end Claim1

end slam

namespace slam

section Claim2

variable {σ M POSE POINT NOISE : Type}

/-- The members `addOdom` leaves alone. -/
theorem addOdom_frame [Mul POSE] (lib : Gtsam σ M POSE POINT NOISE)
    (s : SLAM σ M POSE POINT NOISE) (o : Odometry POSE NOISE) :
    (addOdom lib s o).1.latest_landmark_key_ = s.latest_landmark_key_ ∧
      (addOdom lib s o).1.data_association_ = s.data_association_ ∧
      (addOdom lib s o).1.pose_prior_noise_ = s.pose_prior_noise_ := by
  by_cases hk : X (s.latest_pose_key_ + 1) ∈ Values.keys s.initial_estimates_
  · rw [addOdom_of_stale lib s o hk]
    simp [graph_add]
  · rw [addOdom_of_fresh lib s o hk]
    rcases rethrow_update_cases lib
      { s with graph_ := s.graph_ ++ [.BetweenFactor (X s.latest_pose_key_)
                   (X (s.latest_pose_key_ + 1)) o.odom o.noise]
               initial_estimates_ := s.initial_estimates_ ++
                   [(X (s.latest_pose_key_ + 1), .pose (s.latest_pose_ * o.odom))]
               latest_pose_ := s.latest_pose_ * o.odom
               log := s.log ++ [.add (.BetweenFactor (X s.latest_pose_key_)
                   (X (s.latest_pose_key_ + 1)) o.odom o.noise),
                   .insert (X (s.latest_pose_key_ + 1)) (.pose (s.latest_pose_ * o.odom))] }
      with ⟨i, _, hr⟩ | ⟨i, e, t, _, hr, _⟩
    · rw [hr]
      simp [incrementLatestPoseKey]
    · rw [hr]
      simp

/-- C2: a timestep without measurements leaves the landmark count as it is,
allocates no landmark key, does not ask the association policy, and issues one
solver update when its step is positive and none otherwise. The key of the next
pose must not be waiting in `initial_estimates_`, as in every state left by a
normal return. -/
theorem processTimestep_no_measurements [Mul POSE] [SMul POSE POINT]
    (lib : Gtsam σ M POSE POINT NOISE) (s : SLAM σ M POSE POINT NOISE)
    (t : Timestep POSE POINT NOISE) (hm : t.measurements = [])
    (hfresh : X (s.latest_pose_key_ + 1) ∉ Values.keys s.initial_estimates_) :
    (processTimestep lib s t).1.latest_landmark_key_ = s.latest_landmark_key_ ∧
      newLandmarkKeys (logSince s (processTimestep lib s t).1) = [] ∧
      associateEvents (logSince s (processTimestep lib s t).1) = [] ∧
      (updateEvents (logSince s (processTimestep lib s t).1)).length =
        (if t.step > 0 then 1 else 0) := by
  have hfst : (processTimestep lib s t).1 = afterOdom lib s t := by
    rcases processTimestep_cases lib s t with ⟨hpos, -, heq⟩ | ⟨-, heq⟩
    · rw [heq]
      simp [afterOdom, hpos]
    · rw [heq]
      simp [hm]
  rw [hfst]
  obtain ⟨d, hd, ha, hn, hlen⟩ := afterOdom_log lib s t
  rw [logSince_of_append hd]
  refine ⟨?_, hn, ha, by simpa [hfresh] using hlen⟩
  unfold afterOdom
  split
  · exact (addOdom_frame lib s t.odom).1
  · rfl

/-- C2 (witness): after `initialize`, a timestep with a positive step and no
measurement issues the one update of the odometry stage. -/
theorem processTimestep_no_measurements_witness :
    (Toy.timestep 1 1 0 []).measurements = [] ∧
      X ((SLAM.new Toy.sound).latest_pose_key_ + 1) ∉
        Values.keys (initializeSLAM Toy.sound (SLAM.new Toy.sound) ()
          Toy.allNew).1.initial_estimates_ ∧
      (updateEvents (logSince (initializeSLAM Toy.sound (SLAM.new Toy.sound) () Toy.allNew).1
        (processTimestep Toy.sound
          (initializeSLAM Toy.sound (SLAM.new Toy.sound) () Toy.allNew).1
          (Toy.timestep 1 1 0 [])).1)).length = 1 :=
  ⟨rfl, by decide,
    (processTimestep_no_measurements Toy.sound
      (initializeSLAM Toy.sound (SLAM.new Toy.sound) () Toy.allNew).1
      (Toy.timestep 1 1 0 []) rfl (by decide)).2.2.2⟩

end Claim2

end slam

namespace slam

section Claim3

variable {σ M POSE POINT NOISE : Type}

theorem L_injective {i j : Nat} (h : L i = L j) : i = j := by
  simpa [L] using h

theorem X_ne_L (i j : Nat) : X i ≠ L j := by
  simp [X, L]

theorem update_fst_frame (lib : Gtsam σ M POSE POINT NOISE) (s : SLAM σ M POSE POINT NOISE) :
    (update lib s).1.latest_landmark_key_ = s.latest_landmark_key_ ∧
      (update lib s).1.latest_pose_key_ = s.latest_pose_key_ ∧
      (update lib s).1.latest_pose_ = s.latest_pose_ ∧
      (update lib s).1.data_association_ = s.data_association_ := by
  unfold update
  split <;> simp

theorem update_fst_buffers (lib : Gtsam σ M POSE POINT NOISE) (s : SLAM σ M POSE POINT NOISE) :
    ((update lib s).2 = none →
      (update lib s).1.graph_ = [] ∧ (update lib s).1.initial_estimates_ = []) ∧
    ((update lib s).2 ≠ none →
      (update lib s).1.graph_ = s.graph_ ∧
        (update lib s).1.initial_estimates_ = s.initial_estimates_) := by
  unfold update
  split <;> simp

theorem stable_landmarkLog (lib : Gtsam σ M POSE POINT NOISE) :
    Stable lib (fun s : SLAM σ M POSE POINT NOISE => LandmarkLog s) where
  add := fun s f h => by simpa [LandmarkLog, graph_add] using h
  newLandmark := fun s v s' h hs => by
    obtain ⟨-, rfl⟩ := initial_estimates_insert_ok hs
    simp only [LandmarkLog] at h
    simp [LandmarkLog, incrementLatestLandmarkKey, h, List.range_succ]
  insertPose := fun s j p s' h hs => by
    obtain ⟨-, rfl⟩ := initial_estimates_insert_ok hs
    simpa [LandmarkLog] using h
  update := fun s h => by
    simp only [LandmarkLog] at h ⊢
    rw [update_log, (update_fst_frame lib s).1]
    simpa using h
  update0 := fun s h => by simpa [LandmarkLog, update0] using h
  incPose := fun s h => by simpa [LandmarkLog, incrementLatestPoseKey] using h
  setPose := fun s p h => by simpa [LandmarkLog] using h
  asked := fun s est m ms hy h => by simpa [LandmarkLog] using h
  configure := fun s n da h => by simpa [LandmarkLog] using h

theorem stable_count_le (lib : Gtsam σ M POSE POINT NOISE) (c : Nat) :
    Stable lib (fun s : SLAM σ M POSE POINT NOISE => c ≤ s.latest_landmark_key_) where
  add := fun s f h => by simpa [graph_add] using h
  newLandmark := fun s v s' h hs => by
    obtain ⟨-, rfl⟩ := initial_estimates_insert_ok hs
    simp only [incrementLatestLandmarkKey]
    omega
  insertPose := fun s j p s' h hs => by
    obtain ⟨-, rfl⟩ := initial_estimates_insert_ok hs
    simpa using h
  update := fun s h => by
    rw [(update_fst_frame lib s).1]
    exact h
  update0 := fun s h => by simpa [update0] using h
  incPose := fun s h => by simpa [incrementLatestPoseKey] using h
  setPose := fun s p h => by simpa using h
  asked := fun s est m ms hy h => by simpa using h
  configure := fun s n da h => by simpa using h

theorem stable_landmarksBelow (lib : Gtsam σ M POSE POINT NOISE) :
    Stable lib (fun s : SLAM σ M POSE POINT NOISE => LandmarksBelow s) where
  add := fun s f h => by simpa [LandmarksBelow, graph_add] using h
  newLandmark := fun s v s' h hs => by
    obtain ⟨-, rfl⟩ := initial_estimates_insert_ok hs
    intro j hj
    simp only [incrementLatestLandmarkKey, Values.keys, List.map_append, List.map_cons,
      List.map_nil, List.mem_append, List.mem_singleton] at hj ⊢
    rcases hj with hj | hj
    · exact Nat.lt_succ_of_lt (h j hj)
    · rw [L_injective hj]
      exact Nat.lt_succ_self _
  insertPose := fun s j p s' h hs => by
    obtain ⟨-, rfl⟩ := initial_estimates_insert_ok hs
    intro i hi
    simp only [Values.keys, List.map_append, List.map_cons, List.map_nil, List.mem_append,
      List.mem_singleton] at hi
    rcases hi with hi | hi
    · exact h i hi
    · exact absurd hi.symm (X_ne_L j i)
  update := fun s h => by
    intro j hj
    rw [(update_fst_frame lib s).1]
    by_cases hn : (update lib s).2 = none
    · rw [((update_fst_buffers lib s).1 hn).2] at hj
      simp [Values.keys] at hj
    · rw [((update_fst_buffers lib s).2 hn).2] at hj
      exact h j hj
  update0 := fun s h => by simpa [LandmarksBelow, update0] using h
  incPose := fun s h => by simpa [LandmarksBelow, incrementLatestPoseKey] using h
  setPose := fun s p h => by simpa [LandmarksBelow] using h
  asked := fun s est m ms hy h => by simpa [LandmarksBelow] using h
  configure := fun s n da h => by simpa [LandmarksBelow] using h

theorem unbound_cons (a : Association) (h : Hypothesis) :
    unbound (a :: h) = (if a.associated then 0 else 1) + unbound h := by
  unfold unbound
  by_cases ha : a.associated <;> simp [ha, Nat.add_comm]

/-- The association loop, when every index is inside the measurements and no
landmark key at or above the counter waits in `initial_estimates_`: it returns,
and it has appended `loopEvents` to the log, the factors of `loopEvents` to
`graph_` and its values to `initial_estimates_`, and advanced the counter by the
number of unbound associations. -/
theorem associationLoop_of_inRange [SMul POSE POINT] (T_wb : POSE)
    (ms : List (Measurement POINT NOISE)) (h : Hypothesis) (s : SLAM σ M POSE POINT NOISE)
    (flag : Bool) (hb : LandmarksBelow s) (hr : ∀ a ∈ h, a.measurement < ms.length) :
    associationLoop T_wb ms h s flag =
      ({ s with
          graph_ := s.graph_ ++
            addedFactors (loopEvents M T_wb s.latest_pose_key_ ms s.latest_landmark_key_ h)
          initial_estimates_ := s.initial_estimates_ ++
            insertedValues (loopEvents M T_wb s.latest_pose_key_ ms s.latest_landmark_key_ h)
          latest_landmark_key_ := s.latest_landmark_key_ + unbound h
          log := s.log ++ loopEvents M T_wb s.latest_pose_key_ ms s.latest_landmark_key_ h },
        flag || h.any Association.associated, none) := by
  induction h generalizing s flag with
  | nil => simp [associationLoop, loopEvents, unbound]
  | cons a h ih =>
    have ha : a.measurement < ms.length := hr a (List.mem_cons_self _ _)
    have hr' : ∀ b ∈ h, b.measurement < ms.length := fun b hb => hr b (List.mem_cons_of_mem _ hb)
    obtain ⟨m, hm⟩ : ∃ m, ms[a.measurement]? = some m := ⟨ms[a.measurement], by simp [ha]⟩
    unfold associationLoop associationBody
    cases hl : a.landmark with
    | some l =>
      simp only [hm, hl]
      rw [ih _ _ (by simpa [LandmarksBelow, graph_add] using hb) hr']
      simp [graph_add, loopEvents, hm, hl, unbound_cons, Association.associated]
    | none =>
      have hfresh : L s.latest_landmark_key_ ∉ Values.keys s.initial_estimates_ :=
        fun hmem => Nat.lt_irrefl _ (hb _ hmem)
      simp only [hm, hl]
      rw [initial_estimates_insert_fresh _ _ _ (by simpa [graph_add] using hfresh)]
      simp only
      rw [ih _ _ ?_ hr']
      · simp [graph_add, incrementLatestLandmarkKey, loopEvents, landmarkEvents, hm, hl,
          unbound_cons, Association.associated, Nat.add_assoc, Nat.add_comm 1]
      · intro j hj
        simp only [incrementLatestLandmarkKey, graph_add, Values.keys, List.map_append,
          List.map_cons, List.map_nil, List.mem_append, List.mem_singleton] at hj ⊢
        rcases hj with hj | hj
        · exact Nat.lt_succ_of_lt (hb j hj)
        · rw [L_injective hj]
          exact Nat.lt_succ_self _

end Claim3

end slam

namespace slam

section Claim3b

variable {σ M POSE POINT NOISE : Type}

/-- The state in which the association loop leaves the pipeline. -/
theorem processMeasurements_of_inRange [SMul POSE POINT] (lib : Gtsam σ M POSE POINT NOISE)
    (s s1 : SLAM σ M POSE POINT NOISE) (t : Timestep POSE POINT NOISE) (h : Hypothesis)
    (T_wb : POSE) (hc : chooseHypothesis lib s t.measurements = some (h, s1))
    (hT : Values.atPose (lib.calculateEstimate s.isam_) (X s.latest_pose_key_) = .ok T_wb)
    (hb : LandmarksBelow s) (hr : ∀ a ∈ h, a.measurement < t.measurements.length) :
    processMeasurements lib s t =
      match rethrow (update lib
        { s1 with
          graph_ := s.graph_ ++ addedFactors (loopEvents M T_wb s.latest_pose_key_
            t.measurements s.latest_landmark_key_ h)
          initial_estimates_ := s.initial_estimates_ ++ insertedValues (loopEvents M T_wb
            s.latest_pose_key_ t.measurements s.latest_landmark_key_ h)
          latest_landmark_key_ := s.latest_landmark_key_ + unbound h
          log := s1.log ++
            loopEvents M T_wb s.latest_pose_key_ t.measurements s.latest_landmark_key_ h }) with
      | (s3, some thrown) => (s3, some thrown)
      | (s3, none) =>
        if h.any Association.associated then extraUpdates lib 20 s3 else (s3, none) := by
  obtain ⟨d, hs1, -, -⟩ := chooseHypothesis_log lib s s1 _ h hc
  have hb1 : LandmarksBelow s1 := by
    rw [hs1]
    exact hb
  unfold processMeasurements
  simp only [hc]
  have hk : s1.latest_pose_key_ = s.latest_pose_key_ := by rw [hs1]
  rw [hk, hT]
  simp only
  rw [associationLoop_of_inRange T_wb t.measurements h s1 false hb1 hr]
  simp only [Bool.false_or]
  have e1 : s1.graph_ = s.graph_ := by rw [hs1]
  have e2 : s1.initial_estimates_ = s.initial_estimates_ := by rw [hs1]
  have e3 : s1.latest_landmark_key_ = s.latest_landmark_key_ := by rw [hs1]
  rw [e1, e2, e3, hk]

theorem extraUpdates_frame (lib : Gtsam σ M POSE POINT NOISE) (n : Nat)
    (s : SLAM σ M POSE POINT NOISE) :
    (extraUpdates lib n s).1.latest_landmark_key_ = s.latest_landmark_key_ ∧
      (extraUpdates lib n s).1.latest_pose_key_ = s.latest_pose_key_ ∧
      (extraUpdates lib n s).1.latest_pose_ = s.latest_pose_ ∧
      (extraUpdates lib n s).1.graph_ = s.graph_ ∧
      (extraUpdates lib n s).1.initial_estimates_ = s.initial_estimates_ := by
  refine extraUpdates_stable (P := fun s' => s'.latest_landmark_key_ = s.latest_landmark_key_ ∧
    s'.latest_pose_key_ = s.latest_pose_key_ ∧ s'.latest_pose_ = s.latest_pose_ ∧
    s'.graph_ = s.graph_ ∧ s'.initial_estimates_ = s.initial_estimates_) ?_ n s
    ⟨rfl, rfl, rfl, rfl, rfl⟩
  intro s' h
  simpa [update0] using h

/-- The landmark counter after the measurements of a timestep are handled. -/
theorem processMeasurements_count [SMul POSE POINT] (lib : Gtsam σ M POSE POINT NOISE)
    (s s1 : SLAM σ M POSE POINT NOISE) (t : Timestep POSE POINT NOISE) (h : Hypothesis)
    (T_wb : POSE) (hc : chooseHypothesis lib s t.measurements = some (h, s1))
    (hT : Values.atPose (lib.calculateEstimate s.isam_) (X s.latest_pose_key_) = .ok T_wb)
    (hb : LandmarksBelow s) (hr : ∀ a ∈ h, a.measurement < t.measurements.length) :
    (processMeasurements lib s t).1.latest_landmark_key_ =
      s.latest_landmark_key_ + unbound h := by
  rw [processMeasurements_of_inRange lib s s1 t h T_wb hc hT hb hr]
  have hf := rethrow_fst (update lib
        { s1 with
          graph_ := s.graph_ ++ addedFactors (loopEvents M T_wb s.latest_pose_key_
            t.measurements s.latest_landmark_key_ h)
          initial_estimates_ := s.initial_estimates_ ++ insertedValues (loopEvents M T_wb
            s.latest_pose_key_ t.measurements s.latest_landmark_key_ h)
          latest_landmark_key_ := s.latest_landmark_key_ + unbound h
          log := s1.log ++
            loopEvents M T_wb s.latest_pose_key_ t.measurements s.latest_landmark_key_ h })
  have hu := (update_fst_frame lib
        { s1 with
          graph_ := s.graph_ ++ addedFactors (loopEvents M T_wb s.latest_pose_key_
            t.measurements s.latest_landmark_key_ h)
          initial_estimates_ := s.initial_estimates_ ++ insertedValues (loopEvents M T_wb
            s.latest_pose_key_ t.measurements s.latest_landmark_key_ h)
          latest_landmark_key_ := s.latest_landmark_key_ + unbound h
          log := s1.log ++
            loopEvents M T_wb s.latest_pose_key_ t.measurements s.latest_landmark_key_ h }).1
  rw [← hf] at hu
  split
  · next s3 thrown hr3 =>
    rw [hr3] at hu
    exact hu
  · next s3 hr3 =>
    rw [hr3] at hu
    split
    · rw [(extraUpdates_frame lib 20 s3).1]
      exact hu
    · exact hu

end Claim3b

end slam

namespace slam

section Claim3c

variable {σ M POSE POINT NOISE : Type}

theorem afterOdom_frame [Mul POSE] (lib : Gtsam σ M POSE POINT NOISE)
    (s : SLAM σ M POSE POINT NOISE) (t : Timestep POSE POINT NOISE) :
    (afterOdom lib s t).latest_landmark_key_ = s.latest_landmark_key_ ∧
      (afterOdom lib s t).data_association_ = s.data_association_ ∧
      (afterOdom lib s t).pose_prior_noise_ = s.pose_prior_noise_ := by
  unfold afterOdom
  split
  · exact addOdom_frame lib s t.odom
  · exact ⟨rfl, rfl, rfl⟩

theorem afterOdom_stable [Mul POSE] {lib : Gtsam σ M POSE POINT NOISE}
    {P : SLAM σ M POSE POINT NOISE → Prop} (hP : Stable lib P)
    (s : SLAM σ M POSE POINT NOISE) (t : Timestep POSE POINT NOISE) (h : P s) :
    P (afterOdom lib s t) := by
  unfold afterOdom
  split
  · exact addOdom_stable hP s t.odom h
  · exact h

/-- The landmark counter after a timestep that gets through its association loop. -/
theorem processTimestep_count [Mul POSE] [SMul POSE POINT] (lib : Gtsam σ M POSE POINT NOISE)
    (s : SLAM σ M POSE POINT NOISE) (t : Timestep POSE POINT NOISE) (h : Hypothesis)
    (T_wb : POSE) (hb : LandmarksBelow s) (hh : hypothesisUsed lib s t = some h)
    (hr : ∀ a ∈ h, a.measurement < t.measurements.length)
    (hodom : t.step > 0 → (addOdom lib s t.odom).2 = none)
    (hT : Values.atPose (lib.calculateEstimate (afterOdom lib s t).isam_)
      (X (afterOdom lib s t).latest_pose_key_) = .ok T_wb) :
    (processTimestep lib s t).1.latest_landmark_key_ = s.latest_landmark_key_ + unbound h := by
  rcases processTimestep_cases lib s t with ⟨hpos, hthrown, -⟩ | ⟨-, heq⟩
  · exact absurd (hodom hpos) hthrown
  · rw [heq]
    by_cases hm : t.measurements.length = 0
    · rw [if_pos hm]
      have : h = [] := by
        cases h with
        | nil => rfl
        | cons a h =>
          have := hr a (List.mem_cons_self _ _)
          omega
      rw [this]
      simpa [unbound] using (afterOdom_frame lib s t).1
    · rw [if_neg hm]
      unfold hypothesisUsed at hh
      obtain ⟨⟨h', s1⟩, hc, hh'⟩ := Option.map_eq_some'.mp hh
      simp only at hh'
      subst hh'
      rw [processMeasurements_count lib _ s1 t h' T_wb hc hT
        (afterOdom_stable (stable_landmarksBelow lib) s t hb) hr, (afterOdom_frame lib s t).1]

/-- C3: in any run (construct, `initialize`, any timesteps, up to the first
exception) the landmark keys allocated are `L(0)`, `L(1)`, ... in allocation
order, as many as the counter says, so the j-th allocation gets `L(j)` and the
keys strictly increase; no call of `initialize` or `processTimestep` lowers the
counter; and a timestep processed after the run whose hypothesis has `m` unbound
associations (indices inside the measurements, odometry stage and pose lookup
returning) advances the counter by exactly `m`. -/
theorem landmark_key_allocation [One POSE] [Mul POSE] [SMul POSE POINT]
    (lib : Gtsam σ M POSE POINT NOISE) (pose_prior_noise : NOISE)
    (da : DataAssociation M POSE POINT NOISE) (ts : List (Timestep POSE POINT NOISE)) :
    newLandmarkKeys (runSLAM lib pose_prior_noise da ts).1.log =
        (List.range (runSLAM lib pose_prior_noise da ts).1.latest_landmark_key_).map L ∧
      (newLandmarkKeys (runSLAM lib pose_prior_noise da ts).1.log).Pairwise
        (fun a b => a.index < b.index) ∧
      (∀ (s : SLAM σ M POSE POINT NOISE) (n : NOISE) (d : DataAssociation M POSE POINT NOISE),
        s.latest_landmark_key_ ≤ (initializeSLAM lib s n d).1.latest_landmark_key_) ∧
      (∀ (s : SLAM σ M POSE POINT NOISE) (t : Timestep POSE POINT NOISE),
        s.latest_landmark_key_ ≤ (processTimestep lib s t).1.latest_landmark_key_) ∧
      (∀ (t : Timestep POSE POINT NOISE) (h : Hypothesis) (T_wb : POSE),
        hypothesisUsed lib (runSLAM lib pose_prior_noise da ts).1 t = some h →
        (∀ a ∈ h, a.measurement < t.measurements.length) →
        (t.step > 0 → (addOdom lib (runSLAM lib pose_prior_noise da ts).1 t.odom).2 = none) →
        Values.atPose
          (lib.calculateEstimate (afterOdom lib (runSLAM lib pose_prior_noise da ts).1 t).isam_)
          (X (afterOdom lib (runSLAM lib pose_prior_noise da ts).1 t).latest_pose_key_) =
            .ok T_wb →
        (processTimestep lib (runSLAM lib pose_prior_noise da ts).1 t).1.latest_landmark_key_ =
          (runSLAM lib pose_prior_noise da ts).1.latest_landmark_key_ + unbound h) := by
  have hlog : LandmarkLog (runSLAM lib pose_prior_noise da ts).1 :=
    runSLAM_stable (stable_landmarkLog lib) pose_prior_noise da ts rfl
  have hbelow : LandmarksBelow (runSLAM lib pose_prior_noise da ts).1 :=
    runSLAM_stable (stable_landmarksBelow lib) pose_prior_noise da ts
      (fun j hj => by simp [SLAM.new, Values.keys] at hj)
  refine ⟨hlog, ?_, ?_, ?_, ?_⟩
  · rw [hlog, List.pairwise_map]
    exact (List.pairwise_lt_range _).imp (fun h => by simpa [L] using h)
  · intro s n d
    exact initializeSLAM_stable (stable_count_le lib s.latest_landmark_key_) s n d (le_refl _)
  · intro s t
    exact processTimestep_stable (stable_count_le lib s.latest_landmark_key_) s t (le_refl _)
  · intro t h T_wb hh hr hodom hT
    exact processTimestep_count lib _ t h T_wb hbelow hh hr hodom hT

/-- C3 (witness): after a run that has created `L(0)`, a timestep with two
measurements that the policy leaves unbound advances the counter from 1 to 3. -/
theorem landmark_key_allocation_witness :
    (processTimestep Toy.sound
        (runSLAM Toy.sound () Toy.allNew [Toy.timestep 0 0 0 [Toy.meas 1 0]]).1
        (Toy.timestep 1 1 0 [Toy.meas 2 0, Toy.meas 0 2])).1.latest_landmark_key_ =
      (runSLAM Toy.sound () Toy.allNew
        [Toy.timestep 0 0 0 [Toy.meas 1 0]]).1.latest_landmark_key_ +
        unbound [⟨0, none⟩, ⟨1, none⟩] :=
  (landmark_key_allocation Toy.sound () Toy.allNew
    [Toy.timestep 0 0 0 [Toy.meas 1 0]]).2.2.2.2
    (Toy.timestep 1 1 0 [Toy.meas 2 0, Toy.meas 0 2]) [⟨0, none⟩, ⟨1, none⟩] ⟨1, 0⟩
    (by decide) (by decide) (by decide) rfl

end Claim3c

end slam

namespace slam

section Claim4

variable {σ M POSE POINT NOISE : Type}

theorem fill_empty (n : Nat) :
    Hypothesis.fill_with_unassociated_measurements Hypothesis.empty_hypothesis n =
      (List.range' 0 n).map (fun i => ⟨i, none⟩) := by
  simp [Hypothesis.fill_with_unassociated_measurements, Hypothesis.empty_hypothesis,
    List.range_eq_range']

/-- The events of the association loop on the all-new hypothesis over the
measurements `suf` that follow `pre`. -/
theorem loopEvents_allNew [SMul POSE POINT] (T_wb : POSE) (pose_key : Nat)
    (pre suf : List (Measurement POINT NOISE)) (c : Nat) :
    loopEvents M T_wb pose_key (pre ++ suf) c
        ((List.range' pre.length suf.length).map (fun i => ⟨i, none⟩)) =
      (suf.enumFrom c).flatMap (landmarkEvents M T_wb pose_key) := by
  induction suf generalizing pre c with
  | nil => simp [loopEvents]
  | cons m suf ih =>
    have h1 : pre ++ m :: suf = (pre ++ [m]) ++ suf := by simp
    have h2 : (pre ++ m :: suf)[pre.length]? = some m := by
      rw [List.getElem?_append_right (le_refl _)]
      simp
    have h3 := ih (pre ++ [m]) (c + 1)
    simp only [List.length_append, List.length_singleton] at h3
    simp only [List.length_cons, List.range'_succ, List.map_cons, loopEvents, h2,
      List.enumFrom_cons, List.flatMap_cons]
    rw [h1, h3]

theorem unbound_allNew (l : List Nat) :
    unbound (l.map (fun i => (⟨i, none⟩ : Association))) = l.length := by
  induction l with
  | nil => rfl
  | cons a l ih => simp [unbound_cons, ih, Association.associated, Nat.add_comm]

theorem any_associated_allNew (l : List Nat) :
    (l.map (fun i => (⟨i, none⟩ : Association))).any Association.associated = false := by
  induction l with
  | nil => rfl
  | cons a l ih => simp [Association.associated]

theorem addOdom_flushed [Mul POSE] (lib : Gtsam σ M POSE POINT NOISE)
    (s : SLAM σ M POSE POINT NOISE) (o : Odometry POSE NOISE)
    (h : (addOdom lib s o).2 = none) : Flushed (addOdom lib s o).1 := by
  by_cases hk : X (s.latest_pose_key_ + 1) ∈ Values.keys s.initial_estimates_
  · rw [addOdom_of_stale lib s o hk] at h
    simp at h
  · rw [addOdom_of_fresh lib s o hk] at h ⊢
    rcases rethrow_update_cases lib
      { s with graph_ := s.graph_ ++ [.BetweenFactor (X s.latest_pose_key_)
                   (X (s.latest_pose_key_ + 1)) o.odom o.noise]
               initial_estimates_ := s.initial_estimates_ ++
                   [(X (s.latest_pose_key_ + 1), .pose (s.latest_pose_ * o.odom))]
               latest_pose_ := s.latest_pose_ * o.odom
               log := s.log ++ [.add (.BetweenFactor (X s.latest_pose_key_)
                   (X (s.latest_pose_key_ + 1)) o.odom o.noise),
                   .insert (X (s.latest_pose_key_ + 1)) (.pose (s.latest_pose_ * o.odom))] }
      with ⟨i, _, hr⟩ | ⟨i, e, t, _, hr, _⟩
    · rw [hr]
      exact ⟨rfl, rfl⟩
    · rw [hr] at h
      simp at h

theorem afterOdom_flushed [Mul POSE] (lib : Gtsam σ M POSE POINT NOISE)
    (s : SLAM σ M POSE POINT NOISE) (t : Timestep POSE POINT NOISE) (hf : Flushed s)
    (hodom : t.step > 0 → (addOdom lib s t.odom).2 = none) : Flushed (afterOdom lib s t) := by
  unfold afterOdom
  split
  · next hpos => exact addOdom_flushed lib s t.odom (hodom hpos)
  · exact hf

theorem landmarksBelow_of_flushed {s : SLAM σ M POSE POINT NOISE} (hf : Flushed s) :
    LandmarksBelow s := by
  intro j hj
  rw [hf.2] at hj
  simp [Values.keys] at hj

theorem observers_landmarkEvents [SMul POSE POINT] (T_wb : POSE) (pose_key : Nat)
    (l : List (Nat × Measurement POINT NOISE)) :
    addedFactors (l.flatMap (landmarkEvents M T_wb pose_key)) =
        l.map (fun p => .PoseToPointFactor (X pose_key) (L p.1) p.2.measurement p.2.noise) ∧
      insertedValues (l.flatMap (landmarkEvents M T_wb pose_key)) =
        l.map (fun p => (L p.1, .point (T_wb • p.2.measurement))) ∧
      newLandmarkKeys (l.flatMap (landmarkEvents M T_wb pose_key)) = l.map (fun p => L p.1) ∧
      updateEvents (l.flatMap (landmarkEvents M T_wb pose_key)) = [] ∧
      associateEvents (l.flatMap (landmarkEvents M T_wb pose_key)) = [] := by
  induction l with
  | nil => simp
  | cons p l ih =>
    obtain ⟨h1, h2, h3, h4, h5⟩ := ih
    simp [List.flatMap_cons, landmarkEvents, h1, h2, h3, h4, h5]

/-- C4: in a state with nothing in the accumulator and no landmark yet, a
timestep with at least one measurement (whose odometry stage and pose lookup
return) is handled without asking the association policy: the landmark keys
`L(0)`, ..., `L(k-1)` are allocated in measurement order, and after the odometry
stage the one solver update issued is the main one, handed for each measurement
`i` the factor between the current pose key and `L(i)` and, under `L(i)`, the
current pose estimate applied to its local point; no loop-closure pass follows. -/
theorem processTimestep_first_landmarks [Mul POSE] [SMul POSE POINT]
    (lib : Gtsam σ M POSE POINT NOISE) (s : SLAM σ M POSE POINT NOISE)
    (t : Timestep POSE POINT NOISE) (T_wb : POSE) (hf : Flushed s)
    (h0 : s.latest_landmark_key_ = 0) (hm : t.measurements ≠ [])
    (hodom : t.step > 0 → (addOdom lib s t.odom).2 = none)
    (hT : Values.atPose (lib.calculateEstimate (afterOdom lib s t).isam_)
      (X (afterOdom lib s t).latest_pose_key_) = .ok T_wb) :
    associateEvents (logSince s (processTimestep lib s t).1) = [] ∧
      newLandmarkKeys (logSince s (processTimestep lib s t).1) =
        (List.range t.measurements.length).map L ∧
      (processTimestep lib s t).1.latest_landmark_key_ = t.measurements.length ∧
      ∃ thrown, updateEvents (logSince (afterOdom lib s t) (processTimestep lib s t).1) =
          [.update
            (t.measurements.enum.map (fun p => .PoseToPointFactor
              (X (afterOdom lib s t).latest_pose_key_) (L p.1) p.2.measurement p.2.noise))
            (t.measurements.enum.map (fun p => (L p.1, .point (T_wb • p.2.measurement))))
            thrown] ∧
        ((processTimestep lib s t).2 = none ↔ thrown = none) := by
  obtain ⟨d0, hd0, ha0, hn0, -⟩ := afterOdom_log lib s t
  have hf1 := afterOdom_flushed lib s t hf hodom
  have hc0 : (afterOdom lib s t).latest_landmark_key_ = 0 := by
    rw [(afterOdom_frame lib s t).1, h0]
  have hlen : t.measurements.length ≠ 0 := by
    simpa [List.length_eq_zero] using hm
  have hch : chooseHypothesis lib (afterOdom lib s t) t.measurements =
      some ((List.range' 0 t.measurements.length).map (fun i => ⟨i, none⟩),
        afterOdom lib s t) := by
    rcases chooseHypothesis_cases lib (afterOdom lib s t) t.measurements with
      ⟨_, hc⟩ | ⟨hpos, _⟩ | ⟨hpos, _⟩
    · rw [hc, fill_empty]
    · omega
    · omega
  have hr : ∀ a ∈ (List.range' 0 t.measurements.length).map
      (fun i => (⟨i, none⟩ : Association)), a.measurement < t.measurements.length := by
    intro a ha
    obtain ⟨i, hi, rfl⟩ := List.mem_map.mp ha
    simpa using (List.mem_range'_1.mp hi).2
  have hE := loopEvents_allNew (M := M) T_wb (afterOdom lib s t).latest_pose_key_ []
    t.measurements 0
  simp only [List.nil_append, List.length_nil] at hE
  obtain ⟨o1, o2, o3, o4, o5⟩ := observers_landmarkEvents (M := M) T_wb
    (afterOdom lib s t).latest_pose_key_ (t.measurements.enumFrom 0)
  have key : ∃ thrown, (processTimestep lib s t).1.log = (afterOdom lib s t).log ++
      ((t.measurements.enumFrom 0).flatMap
          (landmarkEvents M T_wb (afterOdom lib s t).latest_pose_key_) ++
        [.update
          ((t.measurements.enumFrom 0).map (fun p => .PoseToPointFactor
            (X (afterOdom lib s t).latest_pose_key_) (L p.1) p.2.measurement p.2.noise))
          ((t.measurements.enumFrom 0).map (fun p => (L p.1, .point (T_wb • p.2.measurement))))
          thrown]) ∧
      (processTimestep lib s t).1.latest_landmark_key_ = t.measurements.length ∧
      ((processTimestep lib s t).2 = none ↔ thrown = none) := by
    rcases processTimestep_cases lib s t with ⟨hpos, hthrown, -⟩ | ⟨-, heq⟩
    · exact absurd (hodom hpos) hthrown
    · rw [heq, if_neg hlen,
        processMeasurements_of_inRange lib _ _ t _ T_wb hch hT (landmarksBelow_of_flushed hf1) hr]
      simp only [hc0, hE, o1, o2, hf1.1, hf1.2, List.nil_append, any_associated_allNew,
        unbound_allNew, List.length_range', Nat.zero_add]
      rcases rethrow_update_cases lib
        { afterOdom lib s t with
          graph_ := (t.measurements.enumFrom 0).map (fun p => .PoseToPointFactor
            (X (afterOdom lib s t).latest_pose_key_) (L p.1) p.2.measurement p.2.noise)
          initial_estimates_ := (t.measurements.enumFrom 0).map
            (fun p => (L p.1, .point (T_wb • p.2.measurement)))
          latest_landmark_key_ := t.measurements.length
          log := (afterOdom lib s t).log ++ (t.measurements.enumFrom 0).flatMap
            (landmarkEvents M T_wb (afterOdom lib s t).latest_pose_key_) }
        with ⟨i, _, hr3⟩ | ⟨i, e, thrown, _, hr3, _⟩
      · rw [hr3]
        exact ⟨none, by simp, by simp, by simp⟩
      · rw [hr3]
        exact ⟨some e, by simp, by simp, by simp⟩
  obtain ⟨thrown, hlog, hcount, hiff⟩ := key
  have hlog' : (processTimestep lib s t).1.log = s.log ++ (d0 ++
      ((t.measurements.enumFrom 0).flatMap
          (landmarkEvents M T_wb (afterOdom lib s t).latest_pose_key_) ++
        [.update
          ((t.measurements.enumFrom 0).map (fun p => .PoseToPointFactor
            (X (afterOdom lib s t).latest_pose_key_) (L p.1) p.2.measurement p.2.noise))
          ((t.measurements.enumFrom 0).map (fun p => (L p.1, .point (T_wb • p.2.measurement))))
          thrown])) := by
    rw [hlog, hd0, List.append_assoc]
  refine ⟨?_, ?_, hcount, thrown, ?_, hiff⟩
  · rw [logSince_of_append hlog']
    simp [ha0, o5]
  · rw [logSince_of_append hlog']
    simp only [newLandmarkKeys_append, hn0, o3, List.nil_append, newLandmarkKeys_cons_update,
      newLandmarkKeys_nil, List.append_nil]
    rw [← List.enum_map_fst, List.map_map]
    rfl
  · rw [logSince_of_append hlog]
    simp [o4, List.enum]

/-- C4 (witness): after `initialize` the pose `X(0)` is the identity; a first
timestep with one measurement at the local point `(1, 0)` hands the solver one
factor between `X(0)` and `L(0)` and the initial value `(1, 0)` for `L(0)`. -/
theorem processTimestep_first_landmarks_witness :
    ∃ thrown, updateEvents (logSince (afterOdom Toy.sound Toy.initialized
          (Toy.timestep 0 0 0 [Toy.meas 1 0]))
        (processTimestep Toy.sound Toy.initialized (Toy.timestep 0 0 0 [Toy.meas 1 0])).1) =
        [.update [.PoseToPointFactor (X 0) (L 0) ⟨1, 0⟩ ()] [(L 0, .point ⟨1, 0⟩)] thrown] ∧
      ((processTimestep Toy.sound Toy.initialized
        (Toy.timestep 0 0 0 [Toy.meas 1 0])).2 = none ↔ thrown = none) :=
  (processTimestep_first_landmarks Toy.sound Toy.initialized
    (Toy.timestep 0 0 0 [Toy.meas 1 0]) 1 ⟨rfl, rfl⟩ rfl (by decide) (by decide) rfl).2.2.2

end Claim4

end slam

namespace slam

section Claim5

variable {σ M POSE POINT NOISE : Type}

/-- A timestep with a positive step and no measurement is its odometry stage. -/
theorem processTimestep_odom_only [Mul POSE] [SMul POSE POINT]
    (lib : Gtsam σ M POSE POINT NOISE) (s : SLAM σ M POSE POINT NOISE)
    (t : Timestep POSE POINT NOISE) (hpos : t.step > 0) (hm : t.measurements = []) :
    processTimestep lib s t = addOdom lib s t.odom := by
  unfold processTimestep
  simp only [hpos, if_true, hm, List.length_nil]
  rcases addOdom lib s t.odom with ⟨s1, _ | thrown⟩ <;> rfl

/-- A timestep with a step that is not positive and no measurement does nothing. -/
theorem processTimestep_nothing [Mul POSE] [SMul POSE POINT]
    (lib : Gtsam σ M POSE POINT NOISE) (s : SLAM σ M POSE POINT NOISE)
    (t : Timestep POSE POINT NOISE) (hpos : ¬ t.step > 0) (hm : t.measurements = []) :
    processTimestep lib s t = (s, none) := by
  unfold processTimestep
  simp [hpos, hm]

/-- Dead reckoning over timesteps with positive steps and no measurements. -/
theorem processTimesteps_odom_only [Mul POSE] [SMul POSE POINT]
    (lib : Gtsam σ M POSE POINT NOISE) (ts : List (Timestep POSE POINT NOISE))
    (s : SLAM σ M POSE POINT NOISE) (hf : Flushed s)
    (hpos : ∀ t ∈ ts, t.step > 0) (hm : ∀ t ∈ ts, t.measurements = [])
    (hok : ∀ ev ∈ (processTimesteps lib ts s).1.log, ev.succeeded = true) :
    (processTimesteps lib ts s).2 = none ∧
      Flushed (processTimesteps lib ts s).1 ∧
      (processTimesteps lib ts s).1.latest_pose_key_ = s.latest_pose_key_ + ts.length ∧
      (processTimesteps lib ts s).1.latest_pose_ =
        (ts.map (fun t => t.odom.odom)).foldl (· * ·) s.latest_pose_ ∧
      handedValues (processTimesteps lib ts s).1.log = handedValues s.log ++
        (List.range ts.length).map (fun i => (X (s.latest_pose_key_ + 1 + i),
          .pose (((ts.map (fun t => t.odom.odom)).take (i + 1)).foldl (· * ·) s.latest_pose_))) := by
  induction ts generalizing s with
  | nil => exact ⟨rfl, hf, rfl, rfl, by simp [processTimesteps]⟩
  | cons t ts ih =>
    have hfresh : X (s.latest_pose_key_ + 1) ∉ Values.keys s.initial_estimates_ := by
      rw [hf.2]
      simp [Values.keys]
    have hstep := processTimestep_odom_only lib s t (hpos t (List.mem_cons_self _ _))
      (hm t (List.mem_cons_self _ _))
    rw [addOdom_of_fresh lib s t.odom hfresh] at hstep
    unfold processTimesteps at hok ⊢
    rcases rethrow_update_cases lib
      { s with graph_ := s.graph_ ++ [.BetweenFactor (X s.latest_pose_key_)
                   (X (s.latest_pose_key_ + 1)) t.odom.odom t.odom.noise]
               initial_estimates_ := s.initial_estimates_ ++
                   [(X (s.latest_pose_key_ + 1), .pose (s.latest_pose_ * t.odom.odom))]
               latest_pose_ := s.latest_pose_ * t.odom.odom
               log := s.log ++ [.add (.BetweenFactor (X s.latest_pose_key_)
                   (X (s.latest_pose_key_ + 1)) t.odom.odom t.odom.noise),
                   .insert (X (s.latest_pose_key_ + 1)) (.pose (s.latest_pose_ * t.odom.odom))] }
      with ⟨i, _, hr⟩ | ⟨i, e, thrown, _, hr, _⟩
    · rw [hr] at hstep
      simp only at hstep
      rw [hstep] at hok ⊢
      simp only at hok ⊢
      obtain ⟨h1, h2, h3, h4, h5⟩ := ih _ ⟨rfl, rfl⟩
        (fun t' ht' => hpos t' (List.mem_cons_of_mem _ ht'))
        (fun t' ht' => hm t' (List.mem_cons_of_mem _ ht')) hok
      refine ⟨h1, h2, ?_, ?_, ?_⟩
      · rw [h3]
        simp only [incrementLatestPoseKey, List.length_cons]
        omega
      · rw [h4]
        simp [incrementLatestPoseKey]
      · rw [h5]
        simp only [incrementLatestPoseKey, hf.2, List.nil_append, handedValues_append,
          handedValues_cons_add, handedValues_cons_insert, handedValues_cons_update,
          handedValues_nil, List.append_nil, List.length_cons, List.range_succ_eq_map,
          List.map_cons, List.map_map, List.take_succ_cons, List.foldl_cons, List.append_assoc,
          List.singleton_append, Nat.add_zero, List.take_zero, List.foldl_nil]
        congr 2
        apply List.map_congr_left
        intro j _
        simp only [Function.comp_apply, Nat.succ_eq_add_one]
        congr 2
        omega
    · rw [hr] at hstep
      simp only at hstep
      rw [hstep] at hok
      simp only at hok
      have := hok _ (List.mem_append_right _ (List.mem_singleton_self _))
      simp [Event.succeeded] at this

theorem initializeSLAM_of_fresh [One POSE] (lib : Gtsam σ M POSE POINT NOISE)
    (s : SLAM σ M POSE POINT NOISE) (n : NOISE) (da : DataAssociation M POSE POINT NOISE)
    (hk : X s.latest_pose_key_ ∉ Values.keys s.initial_estimates_) :
    initializeSLAM lib s n da =
      rethrow (update lib
        { s with pose_prior_noise_ := some n
                 data_association_ := some da
                 graph_ := s.graph_ ++ [.PriorFactor (X s.latest_pose_key_) 1 n]
                 initial_estimates_ := s.initial_estimates_ ++ [(X s.latest_pose_key_, .pose 1)]
                 log := s.log ++ [.add (.PriorFactor (X s.latest_pose_key_) 1 n),
                   .insert (X s.latest_pose_key_) (.pose 1)] }) := by
  unfold initializeSLAM
  simp only
  rw [initial_estimates_insert_fresh _ _ _ (by simpa [graph_add] using hk)]
  simp [graph_add]

theorem initializeSLAM_of_stale [One POSE] (lib : Gtsam σ M POSE POINT NOISE)
    (s : SLAM σ M POSE POINT NOISE) (n : NOISE) (da : DataAssociation M POSE POINT NOISE)
    (hk : X s.latest_pose_key_ ∈ Values.keys s.initial_estimates_) :
    initializeSLAM lib s n da =
      (graph_add { s with pose_prior_noise_ := some n, data_association_ := some da }
          (.PriorFactor (X s.latest_pose_key_) 1 n),
        some (.values (.ValuesKeyAlreadyExists (X s.latest_pose_key_)))) := by
  unfold initializeSLAM
  simp [initial_estimates_insert, Values.insert, graph_add, hk]

/-- C5: after `initialize`, over timesteps with the steps 0, 1, ..., N and no
measurement, if every solver update of the run succeeds then the run returns,
the pose key is N, the pose the pipeline holds is the composition
`1 * odom_1 * ... * odom_N` taken from the left, and the initial values handed
to the solver are, for every `i` from 0 to N, `X(i)` with the composition of the
first `i` odometry poses; so `X(N)` is handed the pose the pipeline holds. -/
theorem dead_reckoning [One POSE] [Mul POSE] [SMul POSE POINT]
    (lib : Gtsam σ M POSE POINT NOISE) (pose_prior_noise : NOISE)
    (da : DataAssociation M POSE POINT NOISE) (ts : List (Timestep POSE POINT NOISE))
    (hne : ts ≠ [])
    (hsteps : ts.map (fun t => t.step) = (List.range ts.length).map Int.ofNat)
    (hm : ∀ t ∈ ts, t.measurements = [])
    (hok : ∀ ev ∈ (runSLAM lib pose_prior_noise da ts).1.log, ev.succeeded = true) :
    (runSLAM lib pose_prior_noise da ts).2 = none ∧
      (runSLAM lib pose_prior_noise da ts).1.latest_pose_key_ = ts.length - 1 ∧
      (runSLAM lib pose_prior_noise da ts).1.latest_pose_ =
        (ts.tail.map (fun t => t.odom.odom)).foldl (· * ·) 1 ∧
      handedValues (runSLAM lib pose_prior_noise da ts).1.log =
        (List.range ts.length).map (fun i =>
          (X i, .pose (((ts.tail.map (fun t => t.odom.odom)).take i).foldl (· * ·) 1))) ∧
      (X (ts.length - 1), Value.pose ((ts.tail.map (fun t => t.odom.odom)).foldl (· * ·) 1)) ∈
        handedValues (runSLAM lib pose_prior_noise da ts).1.log := by
  obtain ⟨t0, rest, rfl⟩ := List.exists_cons_of_ne_nil hne
  simp only [List.map_cons, List.length_cons, List.range_succ_eq_map, List.cons.injEq,
    List.map_map] at hsteps
  have h0 : t0.step = 0 := by simpa using hsteps.1
  have hrest := hsteps.2
  have hpos : ∀ t ∈ rest, t.step > 0 := by
    intro t ht
    have : t.step ∈ rest.map (fun t => t.step) := List.mem_map_of_mem _ ht
    rw [hrest] at this
    obtain ⟨i, -, hi⟩ := List.mem_map.mp this
    simp only [Function.comp_apply, Nat.succ_eq_add_one, Int.ofNat_eq_coe] at hi
    omega
  have hfresh : X (SLAM.new lib).latest_pose_key_ ∉
      Values.keys (SLAM.new lib).initial_estimates_ := by
    simp [SLAM.new, Values.keys]
  have hinit := initializeSLAM_of_fresh lib (SLAM.new lib) pose_prior_noise da hfresh
  have key : (runSLAM lib pose_prior_noise da (t0 :: rest)).2 = none ∧
      (runSLAM lib pose_prior_noise da (t0 :: rest)).1.latest_pose_key_ = rest.length ∧
      (runSLAM lib pose_prior_noise da (t0 :: rest)).1.latest_pose_ =
        (rest.map (fun t => t.odom.odom)).foldl (· * ·) 1 ∧
      handedValues (runSLAM lib pose_prior_noise da (t0 :: rest)).1.log =
        (X 0, .pose 1) :: (List.range rest.length).map (fun i => (X (0 + 1 + i),
          .pose (((rest.map (fun t => t.odom.odom)).take (i + 1)).foldl (· * ·) 1))) := by
    unfold runSLAM at hok ⊢
    rcases rethrow_update_cases lib
      { SLAM.new lib with
          pose_prior_noise_ := some pose_prior_noise
          data_association_ := some da
          graph_ := (SLAM.new lib).graph_ ++
            [.PriorFactor (X (SLAM.new lib).latest_pose_key_) 1 pose_prior_noise]
          initial_estimates_ := (SLAM.new lib).initial_estimates_ ++
            [(X (SLAM.new lib).latest_pose_key_, .pose 1)]
          log := (SLAM.new lib).log ++
            [.add (.PriorFactor (X (SLAM.new lib).latest_pose_key_) 1 pose_prior_noise),
              .insert (X (SLAM.new lib).latest_pose_key_) (.pose 1)] }
      with ⟨i, _, hr⟩ | ⟨i, e, thrown, _, hr, _⟩
    · rw [hr] at hinit
      rw [hinit] at hok ⊢
      simp only at hok ⊢
      unfold processTimesteps at hok ⊢
      rw [processTimestep_nothing lib _ t0 (by omega) (hm t0 (List.mem_cons_self _ _))] at hok ⊢
      simp only at hok ⊢
      obtain ⟨h1, -, h3, h4, h5⟩ := processTimesteps_odom_only lib rest _ ⟨rfl, rfl⟩ hpos
        (fun t ht => hm t (List.mem_cons_of_mem _ ht)) hok
      refine ⟨h1, ?_, ?_, ?_⟩
      · rw [h3]
        simp [SLAM.new]
      · rw [h4]
        simp [SLAM.new]
      · rw [h5]
        simp [SLAM.new]
    · rw [hr] at hinit
      rw [hinit] at hok
      simp only at hok
      have := hok _ (List.mem_append_right _ (List.mem_singleton_self _))
      simp [Event.succeeded] at this
  obtain ⟨k1, k2, k3, k4⟩ := key
  refine ⟨k1, by simpa using k2, by simpa using k3, ?_, ?_⟩
  · rw [k4]
    simp only [List.length_cons, List.range_succ_eq_map, List.map_cons, List.map_map,
      List.tail_cons, List.take_zero, List.foldl_nil, List.cons.injEq, true_and]
    apply List.map_congr_left
    intro j _
    simp only [Function.comp_apply, Nat.succ_eq_add_one]
    congr 2
    omega
  · rw [k4]
    simp only [List.length_cons, Nat.add_sub_cancel, List.tail_cons]
    rcases Nat.eq_zero_or_pos rest.length with hz | hp
    · have : rest = [] := List.eq_nil_of_length_eq_zero hz
      subst this
      simp
    · refine List.mem_cons_of_mem _ (List.mem_map.mpr ⟨rest.length - 1, ?_, ?_⟩)
      · simp only [List.mem_range]
        omega
      · have e1 : 0 + 1 + (rest.length - 1) = rest.length := by omega
        have e2 : rest.length - 1 + 1 = rest.length := by omega
        rw [e1, e2, List.take_of_length_le (by simp)]

/-- C5 (witness): three timesteps without measurements, the second moving by
`(1, 0)` and the third by `(0, 2)`: the pipeline holds the pose `(1, 2)`. -/
theorem dead_reckoning_witness :
    (runSLAM Toy.sound () Toy.allNew
        [Toy.timestep 0 0 0 [], Toy.timestep 1 1 0 [], Toy.timestep 2 0 2 []]).2 = none ∧
      (runSLAM Toy.sound () Toy.allNew
        [Toy.timestep 0 0 0 [], Toy.timestep 1 1 0 [],
          Toy.timestep 2 0 2 []]).1.latest_pose_key_ = 2 ∧
      (runSLAM Toy.sound () Toy.allNew
        [Toy.timestep 0 0 0 [], Toy.timestep 1 1 0 [],
          Toy.timestep 2 0 2 []]).1.latest_pose_ = ⟨1, 2⟩ :=
  have h := dead_reckoning Toy.sound () Toy.allNew
    [Toy.timestep 0 0 0 [], Toy.timestep 1 1 0 [], Toy.timestep 2 0 2 []]
    (by decide) (by decide) (by decide) (by decide)
  ⟨h.1, h.2.1, h.2.2.1⟩

end Claim5

end slam

namespace slam

section Claim6

variable {σ M POSE POINT NOISE : Type}

theorem Quiet.refl (s : SLAM σ M POSE POINT NOISE) : Quiet s s :=
  ⟨[], by simp, by simp⟩

theorem Quiet.trans {s0 s1 s2 : SLAM σ M POSE POINT NOISE} (h1 : Quiet s0 s1)
    (h2 : Quiet s1 s2) : Quiet s0 s2 := by
  obtain ⟨d1, e1, q1⟩ := h1
  obtain ⟨d2, e2, q2⟩ := h2
  refine ⟨d1 ++ d2, by rw [e2, e1, List.append_assoc], ?_⟩
  intro ev hev
  rcases List.mem_append.mp hev with h | h
  · exact q1 ev h
  · exact q2 ev h

theorem Quiet.of_append {s0 s1 : SLAM σ M POSE POINT NOISE}
    {d : List (Event M POSE POINT NOISE)} (h : s1.log = s0.log ++ d)
    (hd : ∀ ev ∈ d, ev.succeeded = true) : Quiet s0 s1 :=
  ⟨d, h, hd⟩

theorem Traced.of_quiet {lib : Gtsam σ M POSE POINT NOISE} {s0 s1 : SLAM σ M POSE POINT NOISE}
    {x : SLAM σ M POSE POINT NOISE × Option (Thrown POSE POINT NOISE)} (h1 : Quiet s0 s1)
    (h2 : Traced lib s1 x) : Traced lib s0 x := by
  rcases h2 with ⟨q, hx⟩ | ⟨s2, g, v, e, i0, q, hl, hu, hx⟩
  · exact Or.inl ⟨h1.trans q, hx⟩
  · exact Or.inr ⟨s2, g, v, e, i0, h1.trans q, hl, hu, hx⟩

theorem rethrow_some (s : SLAM σ M POSE POINT NOISE) (e : SolverThrow) : rethrow (s, some e) = (s, some (handler s e)) := by
  cases e <;> rfl

theorem traced_update (lib : Gtsam σ M POSE POINT NOISE) (s : SLAM σ M POSE POINT NOISE) :
    Traced lib s (rethrow (update lib s)) := by
  rcases h : lib.update s.isam_ s.graph_ s.initial_estimates_ with ⟨i, _ | e⟩
  · left
    simp only [update, h, rethrow]
    exact ⟨⟨[.update s.graph_ s.initial_estimates_ none], rfl, by simp [Event.succeeded]⟩,
      Or.inl trivial⟩
  · right
    simp only [update, h, rethrow_some]
    exact ⟨s, s.graph_, s.initial_estimates_, e, s.isam_, Quiet.refl s, rfl, h, rfl⟩

theorem traced_update0 (lib : Gtsam σ M POSE POINT NOISE) (s : SLAM σ M POSE POINT NOISE) :
    Traced lib s (rethrow (update0 lib s)) := by
  rcases h : lib.update s.isam_ [] [] with ⟨i, _ | e⟩
  · left
    simp only [update0, h, rethrow]
    exact ⟨⟨[.update [] [] none], rfl, by simp [Event.succeeded]⟩, Or.inl trivial⟩
  · right
    simp only [update0, h, rethrow_some]
    exact ⟨s, [], [], e, s.isam_, Quiet.refl s, rfl, h, rfl⟩

theorem traced_extraUpdates (lib : Gtsam σ M POSE POINT NOISE) (n : Nat)
    (s : SLAM σ M POSE POINT NOISE) : Traced lib s (extraUpdates lib n s) := by
  induction n generalizing s with
  | zero => exact Or.inl ⟨Quiet.refl s, Or.inl rfl⟩
  | succ n ih =>
    have h0 := traced_update0 lib s
    unfold extraUpdates
    rcases hr : rethrow (update0 lib s) with ⟨s1, _ | thrown⟩
    · rw [hr] at h0
      rcases h0 with ⟨q, -⟩ | ⟨_, _, _, _, _, _, _, _, hx⟩
      · exact Traced.of_quiet q (ih s1)
      · simp at hx
    · rw [hr] at h0
      exact h0

theorem quiet_graph_add (s : SLAM σ M POSE POINT NOISE) (f : Factor POSE POINT NOISE) :
    Quiet s (graph_add s f) :=
  ⟨[.add f], rfl, by simp [Event.succeeded]⟩

theorem quiet_insert {s s' : SLAM σ M POSE POINT NOISE} {k : Key} {v : Value POSE POINT}
    (h : initial_estimates_insert s k v = .ok s') : Quiet s s' := by
  obtain ⟨-, rfl⟩ := initial_estimates_insert_ok h
  exact ⟨[.insert k v], rfl, by simp [Event.succeeded]⟩

theorem quiet_associationLoop [SMul POSE POINT] (T_wb : POSE)
    (ms : List (Measurement POINT NOISE)) (assos : List Association)
    (s : SLAM σ M POSE POINT NOISE) (flag : Bool) :
    Quiet s (associationLoop T_wb ms assos s flag).1 := by
  refine associationLoop_stable (P := fun s' => Quiet s s') ⟨?_, ?_⟩ T_wb ms assos s flag
    (Quiet.refl s)
  · intro s1 f h
    exact h.trans (quiet_graph_add s1 f)
  · intro s1 v s2 h hs
    refine (h.trans (quiet_insert hs)).trans ⟨[.newLandmark (L s2.latest_landmark_key_)], ?_, ?_⟩
    · simp [incrementLatestLandmarkKey]
    · simp [Event.succeeded]

/-- The association loop throws no exception of the solver. -/
theorem associationLoop_thrown [SMul POSE POINT] (T_wb : POSE)
    (ms : List (Measurement POINT NOISE)) (assos : List Association)
    (s : SLAM σ M POSE POINT NOISE) (flag : Bool) :
    (associationLoop T_wb ms assos s flag).2.2 = none ∨
      (∃ e, (associationLoop T_wb ms assos s flag).2.2 = some (.values e)) ∨
      (associationLoop T_wb ms assos s flag).2.2 = some .undefinedBehaviour := by
  induction assos generalizing s flag with
  | nil => exact Or.inl rfl
  | cons a assos ih =>
    unfold associationLoop
    rcases hr : associationBody T_wb ms s flag a with ⟨s1, f1, _ | thrown⟩
    · exact ih s1 f1
    · simp only
      unfold associationBody at hr
      split at hr
      · simp only [Prod.mk.injEq, Option.some.injEq] at hr
        exact Or.inr (Or.inr (by rw [← hr.2.2]))
      · split at hr
        · simp at hr
        · simp only at hr
          split at hr
          · next e _ =>
            simp only [Prod.mk.injEq, Option.some.injEq] at hr
            exact Or.inr (Or.inl ⟨e, by rw [← hr.2.2]⟩)
          · simp at hr

theorem traced_initializeSLAM [One POSE] (lib : Gtsam σ M POSE POINT NOISE)
    (s : SLAM σ M POSE POINT NOISE) (n : NOISE) (da : DataAssociation M POSE POINT NOISE) :
    Traced lib s (initializeSLAM lib s n da) := by
  by_cases hk : X s.latest_pose_key_ ∈ Values.keys s.initial_estimates_
  · rw [initializeSLAM_of_stale lib s n da hk]
    exact Or.inl ⟨⟨[.add _], rfl, by simp [Event.succeeded]⟩, Or.inr (Or.inl ⟨_, rfl⟩)⟩
  · rw [initializeSLAM_of_fresh lib s n da hk]
    refine Traced.of_quiet ⟨[.add _, .insert _ _], rfl, ?_⟩ (traced_update lib _)
    simp [Event.succeeded]

theorem traced_addOdom [Mul POSE] (lib : Gtsam σ M POSE POINT NOISE)
    (s : SLAM σ M POSE POINT NOISE) (o : Odometry POSE NOISE) :
    Traced lib s (addOdom lib s o) := by
  by_cases hk : X (s.latest_pose_key_ + 1) ∈ Values.keys s.initial_estimates_
  · rw [addOdom_of_stale lib s o hk]
    exact Or.inl ⟨quiet_graph_add s _, Or.inr (Or.inl ⟨_, rfl⟩)⟩
  · rw [addOdom_of_fresh lib s o hk]
    have hq : Quiet s
        { s with graph_ := s.graph_ ++ [.BetweenFactor (X s.latest_pose_key_)
                   (X (s.latest_pose_key_ + 1)) o.odom o.noise]
                 initial_estimates_ := s.initial_estimates_ ++
                   [(X (s.latest_pose_key_ + 1), .pose (s.latest_pose_ * o.odom))]
                 latest_pose_ := s.latest_pose_ * o.odom
                 log := s.log ++ [.add (.BetweenFactor (X s.latest_pose_key_)
                   (X (s.latest_pose_key_ + 1)) o.odom o.noise),
                   .insert (X (s.latest_pose_key_ + 1)) (.pose (s.latest_pose_ * o.odom))] } :=
      ⟨[.add _, .insert _ _], rfl, by simp [Event.succeeded]⟩
    have ht := Traced.of_quiet hq (traced_update lib _)
    split
    · next s2 thrown hr =>
      rw [hr] at ht
      exact ht
    · next s2 hr =>
      rw [hr] at ht
      rcases ht with ⟨q, -⟩ | ⟨_, _, _, _, _, _, _, _, hx⟩
      · exact Or.inl ⟨q, Or.inl rfl⟩
      · simp at hx

theorem quiet_of_traced_none {lib : Gtsam σ M POSE POINT NOISE}
    {s0 : SLAM σ M POSE POINT NOISE}
    {x : SLAM σ M POSE POINT NOISE × Option (Thrown POSE POINT NOISE)}
    (h : Traced lib s0 x) (hx : x.2 = none) : Quiet s0 x.1 := by
  rcases h with ⟨q, -⟩ | ⟨_, _, _, _, _, _, _, _, hx'⟩
  · exact q
  · rw [hx] at hx'
    simp at hx'

theorem traced_processMeasurements [SMul POSE POINT] (lib : Gtsam σ M POSE POINT NOISE)
    (s : SLAM σ M POSE POINT NOISE) (t : Timestep POSE POINT NOISE) :
    Traced lib s (processMeasurements lib s t) := by
  unfold processMeasurements
  simp only
  rcases hch : chooseHypothesis lib s t.measurements with _ | ⟨h', s1⟩
  · exact Or.inl ⟨Quiet.refl s, Or.inr (Or.inr rfl)⟩
  · have q1 : Quiet s s1 := by
      rcases chooseHypothesis_cases lib s t.measurements with ⟨_, hc⟩ | ⟨_, _, hc⟩ | ⟨_, da, _, hc⟩
      · rw [hc] at hch
        simp only [Option.some.injEq, Prod.mk.injEq] at hch
        rw [← hch.2]
        exact Quiet.refl s
      · rw [hc] at hch
        simp at hch
      · rw [hc] at hch
        simp only [Option.some.injEq, Prod.mk.injEq] at hch
        rw [← hch.2]
        exact ⟨[.associate _ _ _ _], rfl, by simp [Event.succeeded]⟩
    simp only
    split
    · next e _ => exact Or.inl ⟨q1, Or.inr (Or.inl ⟨e, rfl⟩)⟩
    · next T_wb _ =>
      have q2 := quiet_associationLoop T_wb t.measurements h' s1 false
      have hth := associationLoop_thrown T_wb t.measurements h' s1 false
      split
      · next s2 _ thrown hr =>
        rw [hr] at q2 hth
        refine Or.inl ⟨q1.trans q2, ?_⟩
        simpa using hth
      · next s2 flag hr =>
        rw [hr] at q2
        have hu := traced_update lib s2
        split
        · next s3 thrown hr3 =>
          rw [hr3] at hu
          exact Traced.of_quiet (q1.trans q2) hu
        · next s3 hr3 =>
          rw [hr3] at hu
          have q3 := quiet_of_traced_none hu rfl
          split
          · exact Traced.of_quiet ((q1.trans q2).trans q3) (traced_extraUpdates lib 20 s3)
          · exact Or.inl ⟨(q1.trans q2).trans q3, Or.inl rfl⟩

theorem traced_processTimestep [Mul POSE] [SMul POSE POINT] (lib : Gtsam σ M POSE POINT NOISE)
    (s : SLAM σ M POSE POINT NOISE) (t : Timestep POSE POINT NOISE) :
    Traced lib s (processTimestep lib s t) := by
  rcases processTimestep_cases lib s t with ⟨_, _, heq⟩ | ⟨hok, heq⟩
  · rw [heq]
    exact traced_addOdom lib s t.odom
  · have q : Quiet s (afterOdom lib s t) := by
      unfold afterOdom
      split
      · next hpos => exact quiet_of_traced_none (traced_addOdom lib s t.odom) (hok hpos)
      · exact Quiet.refl s
    rw [heq]
    split
    · exact Or.inl ⟨q, Or.inl rfl⟩
    · exact Traced.of_quiet q (traced_processMeasurements lib _ t)

/-- A call that has logged a solver update raising
`IndeterminantLinearSystemException` ends there, with the wrapped failure. -/
theorem traced_indeterminant {lib : Gtsam σ M POSE POINT NOISE}
    {s : SLAM σ M POSE POINT NOISE}
    {x : SLAM σ M POSE POINT NOISE × Option (Thrown POSE POINT NOISE)}
    (h : Traced lib s x) (g : List (Factor POSE POINT NOISE)) (v : Values POSE POINT)
    (j : Key)
    (hmem : Event.update g v (some (.IndeterminantLinearSystemException j)) ∈ logSince s x.1) :
    x.2 = some (.IndeterminantLinearSystemExceptionWithGraphValues
        (.IndeterminantLinearSystemException j) (getGraph x.1) (currentEstimates x.1)) ∧
      ∃ d i0, x.1.log = s.log ++ d ++ [.update g v (some (.IndeterminantLinearSystemException j))] ∧
        (∀ ev ∈ d, ev.succeeded = true) ∧
        lib.update i0 g v = (x.1.isam_, some (.IndeterminantLinearSystemException j)) := by
  rcases h with ⟨⟨d, hd, hq⟩, -⟩ | ⟨s1, g', v', e, i0, ⟨d, hd, hq⟩, hl, hu, hx⟩
  · rw [logSince_of_append hd] at hmem
    have := hq _ hmem
    simp [Event.succeeded] at this
  · have hlog : x.1.log = s.log ++ (d ++ [.update g' v' (some e)]) := by
      rw [hl, hd, List.append_assoc]
    rw [logSince_of_append hlog] at hmem
    rcases List.mem_append.mp hmem with hm | hm
    · have := hq _ hm
      simp [Event.succeeded] at this
    · simp only [List.mem_singleton, Event.update.injEq, Option.some.injEq] at hm
      obtain ⟨rfl, rfl, rfl⟩ := hm
      exact ⟨by rw [hx]; rfl, d, i0, by rw [hl, hd], hq, hu⟩

/-- When a solver update issued by `initialize` or by `processTimestep` (the
prior update, the odometry update, the main update or a loop-closure pass)
raises `IndeterminantLinearSystemException`, that update is the last effect of
the call, and the call throws the wrapped failure that carries the exception
raised and what the accessors `getGraph()` and `currentEstimates()` return; it
does not return and does not let the solver's exception through. -/
theorem solver_failure_is_wrapped [One POSE] [Mul POSE] [SMul POSE POINT]
    (lib : Gtsam σ M POSE POINT NOISE) (g : List (Factor POSE POINT NOISE))
    (v : Values POSE POINT) (j : Key) :
    (∀ (s : SLAM σ M POSE POINT NOISE) (n : NOISE) (da : DataAssociation M POSE POINT NOISE),
      Event.update g v (some (.IndeterminantLinearSystemException j)) ∈
        logSince s (initializeSLAM lib s n da).1 →
      (initializeSLAM lib s n da).2 =
          some (.IndeterminantLinearSystemExceptionWithGraphValues
            (.IndeterminantLinearSystemException j)
            (getGraph (initializeSLAM lib s n da).1)
            (currentEstimates (initializeSLAM lib s n da).1)) ∧
        (initializeSLAM lib s n da).2 ≠ none ∧
        (∀ e, (initializeSLAM lib s n da).2 ≠ some (.solver e)) ∧
        ∃ d i0, (initializeSLAM lib s n da).1.log =
            s.log ++ d ++ [.update g v (some (.IndeterminantLinearSystemException j))] ∧
          (∀ ev ∈ d, ev.succeeded = true) ∧
          lib.update i0 g v = ((initializeSLAM lib s n da).1.isam_,
            some (.IndeterminantLinearSystemException j))) ∧
    (∀ (s : SLAM σ M POSE POINT NOISE) (t : Timestep POSE POINT NOISE),
      Event.update g v (some (.IndeterminantLinearSystemException j)) ∈
        logSince s (processTimestep lib s t).1 →
      (processTimestep lib s t).2 =
          some (.IndeterminantLinearSystemExceptionWithGraphValues
            (.IndeterminantLinearSystemException j)
            (getGraph (processTimestep lib s t).1)
            (currentEstimates (processTimestep lib s t).1)) ∧
        (processTimestep lib s t).2 ≠ none ∧
        (∀ e, (processTimestep lib s t).2 ≠ some (.solver e)) ∧
        ∃ d i0, (processTimestep lib s t).1.log =
            s.log ++ d ++ [.update g v (some (.IndeterminantLinearSystemException j))] ∧
          (∀ ev ∈ d, ev.succeeded = true) ∧
          lib.update i0 g v = ((processTimestep lib s t).1.isam_,
            some (.IndeterminantLinearSystemException j))) := by
  constructor
  · intro s n da hmem
    obtain ⟨h1, h2⟩ := traced_indeterminant (traced_initializeSLAM lib s n da) g v j hmem
    exact ⟨h1, by simp [h1], by simp [h1], h2⟩
  · intro s t hmem
    obtain ⟨h1, h2⟩ := traced_indeterminant (traced_processTimestep lib s t) g v j hmem
    exact ⟨h1, by simp [h1], by simp [h1], h2⟩

/-- The members `smoother_` and `estimates_` are assigned by no effect of
`slam.hxx`. -/
theorem stable_unassigned (lib : Gtsam σ M POSE POINT NOISE)
    (g0 : List (Factor POSE POINT NOISE)) (v0 : Values POSE POINT) :
    Stable lib (fun s : SLAM σ M POSE POINT NOISE => s.smoother_ = g0 ∧ s.estimates_ = v0) where
  add := fun s f h => h
  newLandmark := fun s v s' h hs => by
    obtain ⟨-, rfl⟩ := initial_estimates_insert_ok hs
    exact h
  insertPose := fun s j p s' h hs => by
    obtain ⟨-, rfl⟩ := initial_estimates_insert_ok hs
    exact h
  update := fun s h => by
    unfold update
    split <;> exact h
  update0 := fun s h => h
  incPose := fun s h => h
  setPose := fun s p h => h
  asked := fun s est m ms hy h => h
  configure := fun s n da h => h

/-- A wrapped failure that ends a call carries what the two accessors return in
the state the call leaves. -/
theorem wrapped_of_traced {lib : Gtsam σ M POSE POINT NOISE} {s : SLAM σ M POSE POINT NOISE}
    {x : SLAM σ M POSE POINT NOISE × Option (Thrown POSE POINT NOISE)} (h : Traced lib s x)
    {e : SolverThrow} {g : List (Factor POSE POINT NOISE)} {v : Values POSE POINT}
    (hx : x.2 = some (.IndeterminantLinearSystemExceptionWithGraphValues e g v)) :
    g = getGraph x.1 ∧ v = currentEstimates x.1 := by
  rcases h with ⟨-, h | ⟨e', h⟩ | h⟩ | ⟨s1, g', v', e', i0, -, -, -, h⟩
  · rw [h] at hx
    simp at hx
  · rw [h] at hx
    simp at hx
  · rw [h] at hx
    simp at hx
  · rw [h] at hx
    cases e' with
    | IndeterminantLinearSystemException j =>
      simp only [handler, Option.some.injEq,
        Thrown.IndeterminantLinearSystemExceptionWithGraphValues.injEq] at hx
      exact ⟨hx.2.1.symm, hx.2.2.symm⟩
    | other w => simp [handler] at hx

/-- A wrapped failure that ends the driver loop carries what the two accessors
return in the state the loop leaves. -/
theorem processTimesteps_wrapped [Mul POSE] [SMul POSE POINT]
    (lib : Gtsam σ M POSE POINT NOISE) (ts : List (Timestep POSE POINT NOISE))
    (s : SLAM σ M POSE POINT NOISE) (e : SolverThrow) (g : List (Factor POSE POINT NOISE))
    (v : Values POSE POINT)
    (h : (processTimesteps lib ts s).2 =
      some (.IndeterminantLinearSystemExceptionWithGraphValues e g v)) :
    g = getGraph (processTimesteps lib ts s).1 ∧
      v = currentEstimates (processTimesteps lib ts s).1 := by
  induction ts generalizing s with
  | nil => simp [processTimesteps] at h
  | cons t ts ih =>
    have ht := traced_processTimestep lib s t
    unfold processTimesteps at h ⊢
    rcases hr : processTimestep lib s t with ⟨s1, _ | thrown⟩
    · rw [hr] at h
      exact ih s1 h
    · rw [hr] at h ht
      exact wrapped_of_traced ht h

/-- In every run of the driver, a wrapped failure carries no factor and no
value: `smoother_` and `estimates_` are as the constructor left them. -/
theorem runSLAM_wrapped_empty [One POSE] [Mul POSE] [SMul POSE POINT]
    (lib : Gtsam σ M POSE POINT NOISE) (n : NOISE) (da : DataAssociation M POSE POINT NOISE)
    (ts : List (Timestep POSE POINT NOISE)) (e : SolverThrow)
    (g : List (Factor POSE POINT NOISE)) (v : Values POSE POINT)
    (h : (runSLAM lib n da ts).2 =
      some (.IndeterminantLinearSystemExceptionWithGraphValues e g v)) :
    g = [] ∧ v = [] := by
  obtain ⟨hg, hv⟩ := runSLAM_stable (stable_unassigned lib [] []) n da ts ⟨rfl, rfl⟩
  have hw : g = getGraph (runSLAM lib n da ts).1 ∧
      v = currentEstimates (runSLAM lib n da ts).1 := by
    have hi := traced_initializeSLAM lib (SLAM.new lib) n da
    unfold runSLAM at h ⊢
    rcases hr : initializeSLAM lib (SLAM.new lib) n da with ⟨s1, _ | thrown⟩
    · rw [hr] at h
      exact processTimesteps_wrapped lib ts s1 e g v h
    · rw [hr] at h hi
      exact wrapped_of_traced hi h
  rw [getGraph, currentEstimates, hg, hv] at hw
  exact hw

/-- C6: at the failing input, the run that has created `L(0)` followed by a
revisit whose first loop-closure pass raises, `processTimestep` throws the
wrapped failure, and the failure carries no factor and no value, while the
solver holds four factors and an estimate of `X(0)`, `L(0)` and `X(1)`. -/
theorem wrapped_failure_carries_unassigned_members :
    (processTimestep (Toy.lib (fun n => n == 4)) (Toy.seenOne (fun n => n == 4) Toy.bindFirst)
        Toy.revisit).2 =
      some (.IndeterminantLinearSystemExceptionWithGraphValues
        (.IndeterminantLinearSystemException (X 0)) [] []) ∧
      (Toy.lib (fun n => n == 4)).getFactorsUnsafe
        (processTimestep (Toy.lib (fun n => n == 4))
          (Toy.seenOne (fun n => n == 4) Toy.bindFirst) Toy.revisit).1.isam_ =
        [.PriorFactor (X 0) ⟨0, 0⟩ (), .PoseToPointFactor (X 0) (L 0) ⟨1, 0⟩ (),
          .BetweenFactor (X 0) (X 1) ⟨1, 0⟩ (), .PoseToPointFactor (X 1) (L 0) ⟨0, 0⟩ ()] ∧
      (Toy.lib (fun n => n == 4)).calculateEstimate
        (processTimestep (Toy.lib (fun n => n == 4))
          (Toy.seenOne (fun n => n == 4) Toy.bindFirst) Toy.revisit).1.isam_ =
        [(X 0, .pose ⟨0, 0⟩), (L 0, .point ⟨1, 0⟩), (X 1, .pose ⟨1, 0⟩)] :=
  ⟨by decide, by decide, by decide⟩

end Claim6

end slam

namespace slam

section Claim7

variable {σ M POSE POINT NOISE : Type}

/-- The events of the association loop: one factor per association, one value
per unbound association, every bound key in a factor, no solver update. -/
theorem loopEvents_facts [SMul POSE POINT] (T_wb : POSE) (pose_key : Nat)
    (ms : List (Measurement POINT NOISE)) (c : Nat) (h : Hypothesis)
    (hr : ∀ a ∈ h, a.measurement < ms.length) :
    (addedFactors (loopEvents M T_wb pose_key ms c h)).length = h.length ∧
      (insertedValues (loopEvents M T_wb pose_key ms c h)).length = unbound h ∧
      updateEvents (loopEvents M T_wb pose_key ms c h) = [] ∧
      (∀ a ∈ h, ∀ key, a.landmark = some key →
        ∃ f ∈ addedFactors (loopEvents M T_wb pose_key ms c h), key ∈ f.keys) := by
  induction h generalizing c with
  | nil => simp [loopEvents, unbound]
  | cons a h ih =>
    have ha : a.measurement < ms.length := hr a (List.mem_cons_self _ _)
    obtain ⟨m, hm⟩ : ∃ m, ms[a.measurement]? = some m := ⟨ms[a.measurement], by simp [ha]⟩
    have hr' : ∀ b ∈ h, b.measurement < ms.length := fun b hb => hr b (List.mem_cons_of_mem _ hb)
    cases hl : a.landmark with
    | some l =>
      obtain ⟨h1, h2, h3, h4⟩ := ih c hr'
      refine ⟨by simp [loopEvents, hm, hl, h1], ?_, by simp [loopEvents, hm, hl, h3], ?_⟩
      · simp [loopEvents, hm, hl, h2, unbound_cons, Association.associated]
      · intro b hb key hkey
        rcases List.mem_cons.mp hb with rfl | hb
        · rw [hl] at hkey
          simp only [Option.some.injEq] at hkey
          subst hkey
          exact ⟨_, by simp only [loopEvents, hm, hl, addedFactors_cons_add]
                       exact List.mem_cons_self _ _, by simp [Factor.keys]⟩
        · obtain ⟨f, hf, hk⟩ := h4 b hb key hkey
          exact ⟨f, by simp only [loopEvents, hm, hl, addedFactors_cons_add]
                       exact List.mem_cons_of_mem _ hf, hk⟩
    | none =>
      obtain ⟨h1, h2, h3, h4⟩ := ih (c + 1) hr'
      refine ⟨by simp [loopEvents, landmarkEvents, hm, hl, h1], ?_,
        by simp [loopEvents, landmarkEvents, hm, hl, h3], ?_⟩
      · simp [loopEvents, landmarkEvents, hm, hl, h2, unbound_cons, Association.associated,
          Nat.add_comm]
      · intro b hb key hkey
        rcases List.mem_cons.mp hb with rfl | hb
        · rw [hl] at hkey
          simp at hkey
        · obtain ⟨f, hf, hk⟩ := h4 b hb key hkey
          exact ⟨f, by simp only [loopEvents, landmarkEvents, hm, hl, List.cons_append,
                         List.nil_append, addedFactors_cons_add, addedFactors_cons_insert,
                         addedFactors_cons_newLandmark]
                       exact List.mem_cons_of_mem _ hf, hk⟩

/-- From the main update on: the update is handed `graph_` and
`initial_estimates_`, and the call only appends to the log after it. -/
theorem mainUpdate_log (lib : Gtsam σ M POSE POINT NOISE) (s2 : SLAM σ M POSE POINT NOISE)
    (flag : Bool) :
    ∃ thrown d,
      (match rethrow (update lib s2) with
        | (s3, some t) => (s3, some t)
        | (s3, none) => if flag then extraUpdates lib 20 s3 else (s3, none)).1.log =
        s2.log ++ (.update s2.graph_ s2.initial_estimates_ thrown :: d) ∧
      (match rethrow (update lib s2) with
        | (s3, some t) => (s3, some t)
        | (s3, none) => if flag then extraUpdates lib 20 s3 else (s3, none)).1.latest_landmark_key_
        = s2.latest_landmark_key_ := by
  rcases rethrow_update_cases lib s2 with ⟨i, _, hr⟩ | ⟨i, e, t, _, hr, _⟩
  · rw [hr]
    simp only
    cases flag with
    | false => exact ⟨none, [], by simp, rfl⟩
    | true =>
      obtain ⟨k, tail, -, hlog, -, -⟩ := extraUpdates_log lib 20
        { s2 with isam_ := i
                  log := s2.log ++ [.update s2.graph_ s2.initial_estimates_ none]
                  graph_ := []
                  initial_estimates_ := [] }
      refine ⟨none, List.replicate k (.update [] [] none) ++ tail, ?_, ?_⟩
      · simp only [if_true]
        rw [hlog]
        simp
      · simp only [if_true]
        rw [(extraUpdates_frame lib 20 _).1]
  · rw [hr]
    exact ⟨some e, [], by simp, rfl⟩

/-- C7 (amended): `processTimestep` does not check the hypothesis. Whatever
the hypothesis used, as long as its indices are inside the measurements (it may
repeat or miss indices and bind keys never created), in a state with an empty
accumulator the main solver update is issued and handed one factor per
association, the bound keys as given, and one initial value per unbound
association; the landmark counter advances by the number of unbound ones. -/
theorem processTimestep_unchecked_hypothesis [Mul POSE] [SMul POSE POINT]
    (lib : Gtsam σ M POSE POINT NOISE) (s : SLAM σ M POSE POINT NOISE)
    (t : Timestep POSE POINT NOISE) (h : Hypothesis) (T_wb : POSE) (hf : Flushed s)
    (hh : hypothesisUsed lib s t = some h) (hm : t.measurements ≠ [])
    (hr : ∀ a ∈ h, a.measurement < t.measurements.length)
    (hodom : t.step > 0 → (addOdom lib s t.odom).2 = none)
    (hT : Values.atPose (lib.calculateEstimate (afterOdom lib s t).isam_)
      (X (afterOdom lib s t).latest_pose_key_) = .ok T_wb) :
    ∃ thrown extras,
      updateEvents (logSince (afterOdom lib s t) (processTimestep lib s t).1) =
        .update
          (addedFactors (loopEvents M T_wb (afterOdom lib s t).latest_pose_key_ t.measurements
            s.latest_landmark_key_ h))
          (insertedValues (loopEvents M T_wb (afterOdom lib s t).latest_pose_key_ t.measurements
            s.latest_landmark_key_ h))
          thrown :: extras ∧
      (addedFactors (loopEvents M T_wb (afterOdom lib s t).latest_pose_key_ t.measurements
        s.latest_landmark_key_ h)).length = h.length ∧
      (insertedValues (loopEvents M T_wb (afterOdom lib s t).latest_pose_key_ t.measurements
        s.latest_landmark_key_ h)).length = unbound h ∧
      (∀ a ∈ h, ∀ key, a.landmark = some key →
        ∃ f ∈ addedFactors (loopEvents M T_wb (afterOdom lib s t).latest_pose_key_
          t.measurements s.latest_landmark_key_ h), key ∈ f.keys) ∧
      (processTimestep lib s t).1.latest_landmark_key_ =
        s.latest_landmark_key_ + unbound h := by
  have hf1 := afterOdom_flushed lib s t hf hodom
  have hc0 := (afterOdom_frame lib s t).1
  have hlen : t.measurements.length ≠ 0 := by
    simpa [List.length_eq_zero] using hm
  unfold hypothesisUsed at hh
  obtain ⟨⟨h', s1⟩, hch, hh'⟩ := Option.map_eq_some'.mp hh
  simp only at hh'
  subst hh'
  obtain ⟨d1, hs1, hu1, -⟩ := chooseHypothesis_log lib _ s1 _ h' hch
  obtain ⟨f1, f2, f3, f4⟩ := loopEvents_facts (M := M) T_wb (afterOdom lib s t).latest_pose_key_
    t.measurements s.latest_landmark_key_ h' hr
  rcases processTimestep_cases lib s t with ⟨hpos, hthrown, -⟩ | ⟨-, heq⟩
  · exact absurd (hodom hpos) hthrown
  · rw [heq, if_neg hlen,
      processMeasurements_of_inRange lib _ s1 t h' T_wb hch hT (landmarksBelow_of_flushed hf1) hr]
    simp only [hf1.1, hf1.2, List.nil_append, hc0]
    obtain ⟨thrown, d, hlog, hcount⟩ := mainUpdate_log lib
      { s1 with
        graph_ := addedFactors (loopEvents M T_wb (afterOdom lib s t).latest_pose_key_
          t.measurements s.latest_landmark_key_ h')
        initial_estimates_ := insertedValues (loopEvents M T_wb
          (afterOdom lib s t).latest_pose_key_ t.measurements s.latest_landmark_key_ h')
        latest_landmark_key_ := s.latest_landmark_key_ + unbound h'
        log := s1.log ++
          loopEvents M T_wb (afterOdom lib s t).latest_pose_key_ t.measurements
            s.latest_landmark_key_ h' } (h'.any Association.associated)
    refine ⟨thrown, updateEvents d, ?_, f1, f2, f4, hcount⟩
    have hs1log : s1.log = (afterOdom lib s t).log ++ d1 := by rw [hs1]
    rw [logSince_of_append (hlog.trans (by
      simp only [hs1log, List.append_assoc]
      rfl))]
    simp [hu1, f3]

/-- C7 (witness): the policy binds the measurement of the revisit to `L(0)`:
the main update is handed the one factor to `L(0)` and no initial value. -/
theorem processTimestep_unchecked_hypothesis_witness :
    ∃ thrown extras,
      updateEvents (logSince (afterOdom Toy.sound (Toy.seenOne (fun _ => false) Toy.bindFirst)
          Toy.revisit)
        (processTimestep Toy.sound (Toy.seenOne (fun _ => false) Toy.bindFirst)
          Toy.revisit).1) =
        .update [.PoseToPointFactor (X 1) (L 0) ⟨0, 0⟩ ()] [] thrown :: extras :=
  have h := processTimestep_unchecked_hypothesis Toy.sound
    (Toy.seenOne (fun _ => false) Toy.bindFirst) Toy.revisit [⟨0, some (L 0)⟩] ⟨1, 0⟩
    ⟨rfl, rfl⟩ (by decide) (by decide) (by decide) (by decide) rfl
  h.imp fun _ h1 => h1.imp fun _ h2 => h2.1

/-- C7 (counterexample): with two measurements the policy answers the index 0
twice, which misses the index 1, and `processTimestep` returns normally: it has
allocated two landmarks and issued the odometry update and the main update,
the latter with the two factors and two initial values built from the
hypothesis. With one measurement bound to `L(7)`, which was never created, it
returns normally as well, after 22 solver updates, and the factor to `L(7)` is
among the factors handed to the solver. -/
theorem processTimestep_unchecked_hypothesis_counterexample :
    (hypothesisUsed Toy.sound (Toy.seenOne (fun _ => false) Toy.repeatFirst)
        (Toy.timestep 1 1 0 [Toy.meas 2 0, Toy.meas 0 2]) =
        some [⟨0, none⟩, ⟨0, none⟩] ∧
      (processTimestep Toy.sound (Toy.seenOne (fun _ => false) Toy.repeatFirst)
        (Toy.timestep 1 1 0 [Toy.meas 2 0, Toy.meas 0 2])).2 = none ∧
      (Toy.seenOne (fun _ => false) Toy.repeatFirst).latest_landmark_key_ = 1 ∧
      (processTimestep Toy.sound (Toy.seenOne (fun _ => false) Toy.repeatFirst)
        (Toy.timestep 1 1 0 [Toy.meas 2 0, Toy.meas 0 2])).1.latest_landmark_key_ = 3 ∧
      (updateEvents (logSince (Toy.seenOne (fun _ => false) Toy.repeatFirst)
        (processTimestep Toy.sound (Toy.seenOne (fun _ => false) Toy.repeatFirst)
          (Toy.timestep 1 1 0 [Toy.meas 2 0, Toy.meas 0 2])).1)).drop 1 =
        [.update
          [.PoseToPointFactor (X 1) (L 1) ⟨2, 0⟩ (), .PoseToPointFactor (X 1) (L 2) ⟨2, 0⟩ ()]
          [(L 1, .point ⟨3, 0⟩), (L 2, .point ⟨3, 0⟩)] none]) ∧
    (hypothesisUsed Toy.sound (Toy.seenOne (fun _ => false) Toy.bindUnknown) Toy.revisit =
        some [⟨0, some (L 7)⟩] ∧
      (processTimestep Toy.sound (Toy.seenOne (fun _ => false) Toy.bindUnknown)
        Toy.revisit).2 = none ∧
      (updateEvents (logSince (Toy.seenOne (fun _ => false) Toy.bindUnknown)
        (processTimestep Toy.sound (Toy.seenOne (fun _ => false) Toy.bindUnknown)
          Toy.revisit).1)).length = 22 ∧
      Factor.PoseToPointFactor (X 1) (L 7) ⟨0, 0⟩ () ∈
        handedFactors (logSince (Toy.seenOne (fun _ => false) Toy.bindUnknown)
          (processTimestep Toy.sound (Toy.seenOne (fun _ => false) Toy.bindUnknown)
            Toy.revisit).1)) := by
  decide

end Claim7

end slam

namespace slam

section Claim8

variable {σ M POSE POINT NOISE : Type}

theorem processMeasurements_congr [SMul POSE POINT] (lib : Gtsam σ M POSE POINT NOISE)
    (s : SLAM σ M POSE POINT NOISE) (t t' : Timestep POSE POINT NOISE)
    (hm : t.measurements = t'.measurements) :
    processMeasurements lib s t = processMeasurements lib s t' := by
  unfold processMeasurements
  rw [hm]

/-- C8 (amended): `processTimestep` makes no ordering check and reports no
violation; it reads the step only in the test `step > 0` and keeps no record of
the step of the previous timestep. Two timesteps with positive steps, the same
odometry and the same measurements are processed alike in every state, whatever
their steps; and two timesteps whose steps are not positive and whose
measurements are the same are processed alike whatever their odometry, which is
ignored. -/
theorem processTimestep_reads_step_sign_only [Mul POSE] [SMul POSE POINT]
    (lib : Gtsam σ M POSE POINT NOISE) (s : SLAM σ M POSE POINT NOISE)
    (t t' : Timestep POSE POINT NOISE) (hm : t.measurements = t'.measurements) :
    (t.step > 0 → t'.step > 0 → t.odom = t'.odom →
      processTimestep lib s t = processTimestep lib s t') ∧
    (t.step ≤ 0 → t'.step ≤ 0 → processTimestep lib s t = processTimestep lib s t') := by
  constructor
  · intro h1 h2 ho
    unfold processTimestep
    simp only [h1, h2, if_true, ho, hm]
    rcases addOdom lib s t'.odom with ⟨s1, _ | thrown⟩
    · simp only
      rw [processMeasurements_congr lib s1 t t' hm]
    · rfl
  · intro h1 h2
    have h1' : ¬ t.step > 0 := by omega
    have h2' : ¬ t'.step > 0 := by omega
    unfold processTimestep
    simp only [h1', h2', if_false, hm]
    rw [processMeasurements_congr lib s t t' hm]

/-- C8 (witness): after a timestep with step 5, a timestep with step 3 is
processed as a timestep with step 6 would be; and a first timestep with step 0
that carries the odometry `(5, 5)` is processed as one that carries none. -/
theorem processTimestep_reads_step_sign_only_witness :
    processTimestep Toy.sound
        (processTimestep Toy.sound Toy.initialized (Toy.timestep 5 1 0 [])).1
        (Toy.timestep 3 1 0 [Toy.meas 1 0]) =
      processTimestep Toy.sound
        (processTimestep Toy.sound Toy.initialized (Toy.timestep 5 1 0 [])).1
        (Toy.timestep 6 1 0 [Toy.meas 1 0]) ∧
    processTimestep Toy.sound Toy.initialized (Toy.timestep 0 5 5 [Toy.meas 1 0]) =
      processTimestep Toy.sound Toy.initialized (Toy.timestep 0 0 0 [Toy.meas 1 0]) :=
  ⟨(processTimestep_reads_step_sign_only Toy.sound
      (processTimestep Toy.sound Toy.initialized (Toy.timestep 5 1 0 [])).1
      (Toy.timestep 3 1 0 [Toy.meas 1 0]) (Toy.timestep 6 1 0 [Toy.meas 1 0]) rfl).1
      (by decide) (by decide) rfl,
    (processTimestep_reads_step_sign_only Toy.sound Toy.initialized
      (Toy.timestep 0 5 5 [Toy.meas 1 0]) (Toy.timestep 0 0 0 [Toy.meas 1 0]) rfl).2
      (by decide) (by decide)⟩

/-- C8 (counterexample): after `initialize` a timestep with step 1 is processed
twice in a row, and then one with step 0: every call returns normally, the pose
key advances from 0 to 1 and to 2, one `BetweenFactor` is added each time, and
nothing is reported. A first timestep with step 0 that carries the odometry
`(5, 5)` returns normally too and leaves the log as it was. -/
theorem processTimestep_ordering_counterexample :
    (processTimestep Toy.sound Toy.initialized (Toy.timestep 1 1 0 [])).2 = none ∧
      (processTimestep Toy.sound
        (processTimestep Toy.sound Toy.initialized (Toy.timestep 1 1 0 [])).1
        (Toy.timestep 1 1 0 [])).2 = none ∧
      (processTimestep Toy.sound
        (processTimestep Toy.sound Toy.initialized (Toy.timestep 1 1 0 [])).1
        (Toy.timestep 1 1 0 [])).1.latest_pose_key_ = 2 ∧
      addedFactors (logSince Toy.initialized (processTimestep Toy.sound
        (processTimestep Toy.sound Toy.initialized (Toy.timestep 1 1 0 [])).1
        (Toy.timestep 1 1 0 [])).1) =
        [.BetweenFactor (X 0) (X 1) ⟨1, 0⟩ (), .BetweenFactor (X 1) (X 2) ⟨1, 0⟩ ()] ∧
      (processTimestep Toy.sound
        (processTimestep Toy.sound
          (processTimestep Toy.sound Toy.initialized (Toy.timestep 1 1 0 [])).1
          (Toy.timestep 1 1 0 [])).1
        (Toy.timestep 0 0 0 [])).2 = none ∧
      (processTimestep Toy.sound Toy.initialized (Toy.timestep 0 5 5 [])).2 = none ∧
      (processTimestep Toy.sound Toy.initialized (Toy.timestep 0 5 5 [])).1.log =
        Toy.initialized.log := by
  decide

end Claim8

end slam

namespace slam

section Claim9

variable {σ M POSE POINT NOISE : Type}

theorem rethrow_update_guarded {lib : Gtsam σ M POSE POINT NOISE}
    {P Q : SLAM σ M POSE POINT NOISE → Prop} (hG : Guarded lib P Q)
    (s : SLAM σ M POSE POINT NOISE) (h : P s) :
    Q (rethrow (update lib s)).1 ∧
      ((rethrow (update lib s)).2 = none →
        P (rethrow (update lib s)).1 ∧ Flushed (rethrow (update lib s)).1) := by
  rw [rethrow_fst, rethrow_eq_none]
  by_cases hn : (update lib s).2 = none
  · exact ⟨hG.weaken _ (hG.update_ok s h hn),
      fun _ => ⟨hG.update_ok s h hn, (update_fst_buffers lib s).1 hn⟩⟩
  · exact ⟨hG.update_thrown s h hn, fun hn' => absurd hn' hn⟩

theorem extraUpdates_guarded {lib : Gtsam σ M POSE POINT NOISE}
    {P Q : SLAM σ M POSE POINT NOISE → Prop} (hG : Guarded lib P Q) (n : Nat)
    (s : SLAM σ M POSE POINT NOISE) (h : P s) (hf : Flushed s) :
    Q (extraUpdates lib n s).1 ∧
      ((extraUpdates lib n s).2 = none →
        P (extraUpdates lib n s).1 ∧ Flushed (extraUpdates lib n s).1) := by
  induction n generalizing s with
  | zero => exact ⟨hG.weaken s h, fun _ => ⟨h, hf⟩⟩
  | succ n ih =>
    have hfst := rethrow_fst (update0 lib s)
    have hnone := rethrow_eq_none (update0 lib s)
    have hf0 : Flushed (update0 lib s).1 := by simpa [Flushed, update0] using hf
    unfold extraUpdates
    rcases hr : rethrow (update0 lib s) with ⟨s1, _ | thrown⟩
    · rw [hr] at hfst hnone
      simp only [true_iff] at hnone
      simp only at hfst
      subst hfst
      exact ih _ (hG.update0_ok s h hf hnone) hf0
    · rw [hr] at hfst hnone
      simp only [reduceCtorEq, false_iff] at hnone
      simp only at hfst
      subst hfst
      exact ⟨hG.update0_thrown s h hf hnone, by simp⟩

theorem initializeSLAM_guarded [One POSE] {lib : Gtsam σ M POSE POINT NOISE}
    {P Q : SLAM σ M POSE POINT NOISE → Prop} (hG : Guarded lib P Q)
    (s : SLAM σ M POSE POINT NOISE) (n : NOISE) (da : DataAssociation M POSE POINT NOISE)
    (h : P s) :
    Q (initializeSLAM lib s n da).1 ∧
      ((initializeSLAM lib s n da).2 = none →
        P (initializeSLAM lib s n da).1 ∧ Flushed (initializeSLAM lib s n da).1) := by
  unfold initializeSLAM
  simp only
  split
  · exact ⟨hG.weaken _ (hG.add _ _ (hG.configure _ _ _ h)), by simp⟩
  · next s1 hs1 =>
    exact rethrow_update_guarded hG _
      (hG.insertPose _ _ _ _ (hG.add _ _ (hG.configure _ _ _ h)) hs1)

theorem addOdom_guarded [Mul POSE] {lib : Gtsam σ M POSE POINT NOISE}
    {P Q : SLAM σ M POSE POINT NOISE → Prop} (hG : Guarded lib P Q)
    (s : SLAM σ M POSE POINT NOISE) (o : Odometry POSE NOISE) (h : P s) :
    Q (addOdom lib s o).1 ∧
      ((addOdom lib s o).2 = none → P (addOdom lib s o).1 ∧ Flushed (addOdom lib s o).1) := by
  unfold addOdom
  simp only
  split
  · exact ⟨hG.weaken _ (hG.add _ _ h), by simp⟩
  · next s1 hs1 =>
    have h1 := rethrow_update_guarded hG _
      (hG.setPose _ ((graph_add s (.BetweenFactor (X s.latest_pose_key_)
        (X (s.latest_pose_key_ + 1)) o.odom o.noise)).latest_pose_ * o.odom)
        (hG.insertPose _ _ _ _ (hG.add _ _ h) hs1))
    split
    · next s2 t hr =>
      rw [hr] at h1
      exact ⟨h1.1, by simp⟩
    · next s2 hr =>
      rw [hr] at h1
      obtain ⟨hp, hfl⟩ := h1.2 rfl
      exact ⟨hG.weaken _ (hG.incPose _ hp), fun _ => ⟨hG.incPose _ hp, hfl⟩⟩

theorem processMeasurements_guarded [SMul POSE POINT] {lib : Gtsam σ M POSE POINT NOISE}
    {P Q : SLAM σ M POSE POINT NOISE → Prop} (hG : Guarded lib P Q)
    (s : SLAM σ M POSE POINT NOISE) (t : Timestep POSE POINT NOISE) (h : P s) :
    Q (processMeasurements lib s t).1 ∧
      ((processMeasurements lib s t).2 = none →
        P (processMeasurements lib s t).1 ∧ Flushed (processMeasurements lib s t).1) := by
  unfold processMeasurements
  simp only
  rcases hch : chooseHypothesis lib s t.measurements with _ | ⟨h', s1⟩
  · exact ⟨hG.weaken s h, by simp⟩
  · have h1 : P s1 := by
      rcases chooseHypothesis_cases lib s t.measurements with ⟨_, hc⟩ | ⟨_, _, hc⟩ | ⟨_, da, _, hc⟩
      · rw [hc] at hch
        simp only [Option.some.injEq, Prod.mk.injEq] at hch
        rw [← hch.2]
        exact h
      · rw [hc] at hch
        simp at hch
      · rw [hc] at hch
        simp only [Option.some.injEq, Prod.mk.injEq] at hch
        rw [← hch.2]
        exact hG.asked _ _ _ _ _ h
    simp only
    split
    · exact ⟨hG.weaken s1 h1, by simp⟩
    · next T_wb _ =>
      have hl := associationLoop_stable hG.toLoopStable T_wb t.measurements h' s1 false h1
      split
      · next s2 _ thrown hr =>
        rw [hr] at hl
        exact ⟨hG.weaken _ hl, by simp⟩
      · next s2 flag hr =>
        rw [hr] at hl
        have hu := rethrow_update_guarded hG s2 hl
        split
        · next s3 thrown hr3 =>
          rw [hr3] at hu
          exact ⟨hu.1, by simp⟩
        · next s3 hr3 =>
          rw [hr3] at hu
          obtain ⟨hp, hfl⟩ := hu.2 rfl
          split
          · exact extraUpdates_guarded hG 20 s3 hp hfl
          · exact ⟨hu.1, fun _ => ⟨hp, hfl⟩⟩

theorem processTimestep_guarded [Mul POSE] [SMul POSE POINT] {lib : Gtsam σ M POSE POINT NOISE}
    {P Q : SLAM σ M POSE POINT NOISE → Prop} (hG : Guarded lib P Q)
    (s : SLAM σ M POSE POINT NOISE) (t : Timestep POSE POINT NOISE) (h : P s)
    (hf : Flushed s) :
    Q (processTimestep lib s t).1 ∧
      ((processTimestep lib s t).2 = none →
        P (processTimestep lib s t).1 ∧ Flushed (processTimestep lib s t).1) := by
  have ho := addOdom_guarded hG s t.odom h
  rcases processTimestep_cases lib s t with ⟨_, hthrown, heq⟩ | ⟨hok, heq⟩
  · rw [heq]
    exact ⟨ho.1, fun hn => absurd hn hthrown⟩
  · have ha : P (afterOdom lib s t) ∧ Flushed (afterOdom lib s t) := by
      unfold afterOdom
      split
      · next hpos => exact ho.2 (hok hpos)
      · exact ⟨h, hf⟩
    rw [heq]
    split
    · exact ⟨hG.weaken _ ha.1, fun _ => ha⟩
    · exact processMeasurements_guarded hG _ t ha.1

theorem processTimesteps_guarded [Mul POSE] [SMul POSE POINT]
    {lib : Gtsam σ M POSE POINT NOISE} {P Q : SLAM σ M POSE POINT NOISE → Prop}
    (hG : Guarded lib P Q) (ts : List (Timestep POSE POINT NOISE))
    (s : SLAM σ M POSE POINT NOISE) (h : P s) (hf : Flushed s) :
    Q (processTimesteps lib ts s).1 ∧
      ((processTimesteps lib ts s).2 = none →
        P (processTimesteps lib ts s).1 ∧ Flushed (processTimesteps lib ts s).1) := by
  induction ts generalizing s with
  | nil => exact ⟨hG.weaken s h, fun _ => ⟨h, hf⟩⟩
  | cons t ts ih =>
    have h1 := processTimestep_guarded hG s t h hf
    unfold processTimesteps
    split
    · next s1 thrown hr =>
      rw [hr] at h1
      exact ⟨h1.1, by simp⟩
    · next s1 hr =>
      rw [hr] at h1
      obtain ⟨hp, hfl⟩ := h1.2 rfl
      exact ih s1 hp hfl

theorem runSLAM_guarded [One POSE] [Mul POSE] [SMul POSE POINT]
    {lib : Gtsam σ M POSE POINT NOISE} {P Q : SLAM σ M POSE POINT NOISE → Prop}
    (hG : Guarded lib P Q) (n : NOISE) (da : DataAssociation M POSE POINT NOISE)
    (ts : List (Timestep POSE POINT NOISE)) (h : P (SLAM.new lib)) :
    Q (runSLAM lib n da ts).1 ∧
      ((runSLAM lib n da ts).2 = none →
        P (runSLAM lib n da ts).1 ∧ Flushed (runSLAM lib n da ts).1) := by
  have h1 := initializeSLAM_guarded hG (SLAM.new lib) n da h
  unfold runSLAM
  split
  · next s1 thrown hr =>
    rw [hr] at h1
    exact ⟨h1.1, by simp⟩
  · next s1 hr =>
    rw [hr] at h1
    obtain ⟨hp, hfl⟩ := h1.2 rfl
    exact processTimesteps_guarded hG ts s1 hp hfl

end Claim9

end slam

namespace slam

section Claim9b

variable {σ M POSE POINT NOISE : Type}

theorem pendingFrom_append (pf : List (Factor POSE POINT NOISE)) (pv : Values POSE POINT)
    (l : List (Event M POSE POINT NOISE)) (e : Event M POSE POINT NOISE) :
    pendingFrom pf pv (l ++ [e]) =
      pendingFrom (pendingFrom pf pv l).1 (pendingFrom pf pv l).2 [e] := by
  induction l generalizing pf pv with
  | nil => rfl
  | cons a l ih => cases a <;> simp only [List.cons_append, pendingFrom, List.append_eq, ih]

theorem handedOnceFrom_append (pf : List (Factor POSE POINT NOISE)) (pv : Values POSE POINT)
    (l : List (Event M POSE POINT NOISE)) (e : Event M POSE POINT NOISE) :
    handedOnceFrom pf pv (l ++ [e]) ↔
      handedOnceFrom pf pv l ∧
        handedOnceFrom (pendingFrom pf pv l).1 (pendingFrom pf pv l).2 [e] := by
  induction l generalizing pf pv with
  | nil => simp [handedOnceFrom, pendingFrom]
  | cons a l ih =>
    cases a <;>
      simp only [List.cons_append, handedOnceFrom, pendingFrom, List.append_eq, ih, and_assoc]

theorem sync_append_quiet {s s' : SLAM σ M POSE POINT NOISE} {e : Event M POSE POINT NOISE}
    (h : Sync s) (hlog : s'.log = s.log ++ [e])
    (he : handedOnceFrom s.graph_ s.initial_estimates_ [e])
    (hp : pendingFrom s.graph_ s.initial_estimates_ [e] = (s'.graph_, s'.initial_estimates_)) :
    Sync s' := by
  obtain ⟨h1, h2⟩ := h
  unfold Sync HandedOnce at *
  rw [hlog, handedOnceFrom_append, pendingFrom_append, h2]
  exact ⟨⟨h1, he⟩, hp⟩

theorem guarded_sync (lib : Gtsam σ M POSE POINT NOISE) :
    Guarded lib (fun s : SLAM σ M POSE POINT NOISE => Sync s)
      (fun s : SLAM σ M POSE POINT NOISE => HandedOnce s.log) where
  weaken := fun s h => h.1
  add := fun s f h => sync_append_quiet h rfl (by simp [handedOnceFrom]) rfl
  newLandmark := fun s v s' h hs => by
    obtain ⟨-, rfl⟩ := initial_estimates_insert_ok hs
    have h1 : Sync { s with initial_estimates_ := s.initial_estimates_ ++
        [(L s.latest_landmark_key_, v)], log := s.log ++ [.insert (L s.latest_landmark_key_) v] } :=
      sync_append_quiet h rfl (by simp [handedOnceFrom]) rfl
    exact sync_append_quiet h1 rfl (by simp [handedOnceFrom]) rfl
  insertPose := fun s j p s' h hs => by
    obtain ⟨-, rfl⟩ := initial_estimates_insert_ok hs
    exact sync_append_quiet h rfl (by simp [handedOnceFrom]) rfl
  update_ok := fun s h hn => by
    refine sync_append_quiet h (update_log lib s) (by simp [handedOnceFrom]) ?_
    rw [((update_fst_buffers lib s).1 hn).1, ((update_fst_buffers lib s).1 hn).2]
    rfl
  update_thrown := fun s h hn => by
    obtain ⟨h1, h2⟩ := h
    unfold HandedOnce at *
    rw [update_log, handedOnceFrom_append, h2]
    exact ⟨h1, by simp [handedOnceFrom]⟩
  update0_ok := fun s h hf hn => by
    refine sync_append_quiet h (update0_log lib s) ?_ ?_
    · simp [handedOnceFrom, hf.1, hf.2]
    · simp [pendingFrom, update0, hf.1, hf.2]
  update0_thrown := fun s h hf hn => by
    obtain ⟨h1, h2⟩ := h
    unfold HandedOnce at *
    rw [update0_log, handedOnceFrom_append, h2]
    exact ⟨h1, by simp [handedOnceFrom, hf.1, hf.2]⟩
  incPose := fun s h => h
  setPose := fun s p h => h
  asked := fun s est m ms hy h => sync_append_quiet h rfl (by simp [handedOnceFrom]) rfl
  configure := fun s n da h => h

end Claim9b

end slam

namespace slam

section Claim9c

variable {σ M POSE POINT NOISE : Type}

theorem guarded_true (lib : Gtsam σ M POSE POINT NOISE) :
    Guarded lib (fun _ : SLAM σ M POSE POINT NOISE => True)
      (fun _ : SLAM σ M POSE POINT NOISE => True) where
  weaken := fun _ _ => trivial
  add := fun _ _ _ => trivial
  newLandmark := fun _ _ _ _ _ => trivial
  insertPose := fun _ _ _ _ _ _ => trivial
  update_ok := fun _ _ _ => trivial
  update_thrown := fun _ _ _ => trivial
  update0_ok := fun _ _ _ _ => trivial
  update0_thrown := fun _ _ _ _ => trivial
  incPose := fun _ _ => trivial
  setPose := fun _ _ _ => trivial
  asked := fun _ _ _ _ _ _ => trivial
  configure := fun _ _ _ _ => trivial

theorem keepsDelta_of_last {s : SLAM σ M POSE POINT NOISE}
    {l : List (Event M POSE POINT NOISE)} {e : Event M POSE POINT NOISE}
    (hlog : s.log = l ++ [e]) (he : e.succeeded = true) : KeepsDelta s := by
  intro l' g v e' h
  rw [hlog] at h
  have := List.append_inj' h rfl
  simp only [List.cons.injEq, and_true] at this
  rw [this.2] at he
  simp [Event.succeeded] at he

theorem guarded_keepsDelta (lib : Gtsam σ M POSE POINT NOISE) :
    Guarded lib (fun s : SLAM σ M POSE POINT NOISE => KeepsDelta s)
      (fun s : SLAM σ M POSE POINT NOISE => KeepsDelta s) where
  weaken := fun _ h => h
  add := fun s f _ => keepsDelta_of_last (e := .add f) rfl rfl
  newLandmark := fun s v s' _ hs => by
    obtain ⟨-, rfl⟩ := initial_estimates_insert_ok hs
    exact keepsDelta_of_last (e := .newLandmark (L s.latest_landmark_key_)) rfl rfl
  insertPose := fun s j p s' _ hs => by
    obtain ⟨-, rfl⟩ := initial_estimates_insert_ok hs
    exact keepsDelta_of_last (e := .insert (X j) (.pose p)) rfl rfl
  update_ok := fun s _ hn =>
    keepsDelta_of_last (update_log lib s) (by rw [hn]; rfl)
  update_thrown := fun s _ hn => by
    intro l g v e h
    rw [update_log] at h
    have := List.append_inj' h rfl
    simp only [List.cons.injEq, Event.update.injEq, and_true] at this
    obtain ⟨-, rfl, rfl, -⟩ := this
    exact (update_fst_buffers lib s).2 hn
  update0_ok := fun s _ _ hn =>
    keepsDelta_of_last (update0_log lib s) (by rw [hn]; rfl)
  update0_thrown := fun s _ hf hn => by
    intro l g v e h
    rw [update0_log] at h
    have := List.append_inj' h rfl
    simp only [List.cons.injEq, Event.update.injEq, and_true] at this
    obtain ⟨-, rfl, rfl, -⟩ := this
    simpa [update0, Flushed] using hf
  incPose := fun _ h => h
  setPose := fun _ _ h => h
  asked := fun s est m ms hy _ => keepsDelta_of_last (e := .associate est m ms hy) rfl rfl
  configure := fun _ _ _ h => h

/-- C9: the member `update` empties `graph_` and `initial_estimates_` when the
solver returns and leaves both as they were when it throws; the loop-closure
passes are issued with both empty and keep them so. Hence `initialize` returns
with both empty, `processTimestep` called with both empty returns with both
empty, and in any run every solver update is handed exactly what was added and
inserted since the solver update before it, so nothing is handed twice; a run
that returns ends with both empty, and a run that a solver update ended still
holds what that update was handed. -/
theorem delta_cleared_on_success [One POSE] [Mul POSE] [SMul POSE POINT]
    (lib : Gtsam σ M POSE POINT NOISE) :
    (∀ s : SLAM σ M POSE POINT NOISE,
      ((update lib s).2 = none →
        (update lib s).1.graph_ = [] ∧ (update lib s).1.initial_estimates_ = []) ∧
      ((update lib s).2 ≠ none →
        (update lib s).1.graph_ = s.graph_ ∧
          (update lib s).1.initial_estimates_ = s.initial_estimates_)) ∧
    (∀ (n : Nat) (s : SLAM σ M POSE POINT NOISE),
      Flushed s → Flushed (extraUpdates lib n s).1) ∧
    (∀ (s : SLAM σ M POSE POINT NOISE) (n : NOISE) (da : DataAssociation M POSE POINT NOISE),
      (initializeSLAM lib s n da).2 = none → Flushed (initializeSLAM lib s n da).1) ∧
    (∀ (s : SLAM σ M POSE POINT NOISE) (t : Timestep POSE POINT NOISE),
      Flushed s → (processTimestep lib s t).2 = none → Flushed (processTimestep lib s t).1) ∧
    (∀ (n : NOISE) (da : DataAssociation M POSE POINT NOISE)
        (ts : List (Timestep POSE POINT NOISE)),
      ((runSLAM lib n da ts).2 = none → Flushed (runSLAM lib n da ts).1) ∧
        HandedOnce (runSLAM lib n da ts).1.log ∧ KeepsDelta (runSLAM lib n da ts).1) := by
  refine ⟨fun s => update_fst_buffers lib s, ?_, ?_, ?_, ?_⟩
  · intro n s hf
    obtain ⟨_, _, _, h4, h5⟩ := extraUpdates_frame lib n s
    exact ⟨h4.trans hf.1, h5.trans hf.2⟩
  · intro s n da hn
    exact ((initializeSLAM_guarded (guarded_true lib) s n da trivial).2 hn).2
  · intro s t hf hn
    exact ((processTimestep_guarded (guarded_true lib) s t trivial hf).2 hn).2
  · intro n da ts
    have h1 := runSLAM_guarded (guarded_sync lib) n da ts ⟨trivial, rfl⟩
    have h2 := runSLAM_guarded (guarded_keepsDelta lib) n da ts
      (fun l g v e h => by simp [SLAM.new] at h)
    exact ⟨fun hn => (h1.2 hn).2, h1.1, h2.1⟩

/-- C9 (witness): after `initialize` the accumulator is empty, and it is empty
again after a timestep with odometry and a measurement. -/
theorem delta_cleared_on_success_witness :
    Flushed Toy.initialized ∧
      (processTimestep Toy.sound Toy.initialized (Toy.timestep 1 1 0 [Toy.meas 1 0])).2 = none ∧
      Flushed (processTimestep Toy.sound Toy.initialized
        (Toy.timestep 1 1 0 [Toy.meas 1 0])).1 :=
  ⟨⟨rfl, rfl⟩, by decide,
    (delta_cleared_on_success Toy.sound).2.2.2.1 Toy.initialized
      (Toy.timestep 1 1 0 [Toy.meas 1 0]) ⟨rfl, rfl⟩ (by decide)⟩

end Claim9c

end slam

namespace slam

section Claim10

variable {σ M POSE POINT NOISE : Type}

theorem solvedKeys_append (l₁ l₂ : List (Event M POSE POINT NOISE)) :
    solvedKeys (l₁ ++ l₂) = solvedKeys l₁ ++ solvedKeys l₂ := by
  simp [solvedKeys]

theorem solvedKeys_cons_update_none (g : List (Factor POSE POINT NOISE))
    (v : Values POSE POINT) (l : List (Event M POSE POINT NOISE)) :
    solvedKeys (.update g v none :: l) = Values.keys v ++ solvedKeys l := rfl

theorem solvedKeys_cons_update_some (g : List (Factor POSE POINT NOISE))
    (v : Values POSE POINT) (e : SolverThrow) (l : List (Event M POSE POINT NOISE)) :
    solvedKeys (.update g v (some e) :: l) = solvedKeys l := rfl

theorem solvedKeys_cons_add (f : Factor POSE POINT NOISE)
    (l : List (Event M POSE POINT NOISE)) : solvedKeys (.add f :: l) = solvedKeys l := rfl

theorem solvedKeys_cons_insert (k : Key) (v : Value POSE POINT)
    (l : List (Event M POSE POINT NOISE)) : solvedKeys (.insert k v :: l) = solvedKeys l := rfl

theorem solvedKeys_cons_associate (est : Values POSE POINT) (m : M)
    (ms : List (Measurement POINT NOISE)) (h : Hypothesis)
    (l : List (Event M POSE POINT NOISE)) :
    solvedKeys (.associate est m ms h :: l) = solvedKeys l := rfl

theorem solvedKeys_cons_newLandmark (k : Key) (l : List (Event M POSE POINT NOISE)) :
    solvedKeys (.newLandmark k :: l) = solvedKeys l := rfl

theorem handedKeys_append (l₁ l₂ : List (Event M POSE POINT NOISE)) :
    handedKeys (l₁ ++ l₂) = handedKeys l₁ ++ handedKeys l₂ := by
  simp [handedKeys, Values.keys]

theorem closedFrom_append (solved : List Key) (l₁ l₂ : List (Event M POSE POINT NOISE)) :
    closedFrom solved (l₁ ++ l₂) ↔
      closedFrom solved l₁ ∧ closedFrom (solved ++ solvedKeys l₁) l₂ := by
  induction l₁ generalizing solved with
  | nil => simp [closedFrom, solvedKeys]
  | cons a l ih =>
    cases a with
    | update g v r =>
      cases r with
      | none =>
        simp only [List.cons_append, closedFrom, List.append_eq, ih,
          solvedKeys_cons_update_none, List.append_assoc, and_assoc]
      | some e =>
        simp only [List.cons_append, closedFrom, List.append_eq, ih,
          solvedKeys_cons_update_some, and_assoc]
    | _ => simp only [List.cons_append, closedFrom, List.append_eq, ih, solvedKeys_cons_add,
        solvedKeys_cons_insert, solvedKeys_cons_associate, solvedKeys_cons_newLandmark]

theorem contractFrom_append (created : List Key) (l₁ l₂ : List (Event M POSE POINT NOISE)) :
    contractFrom created (l₁ ++ l₂) ↔
      contractFrom created l₁ ∧ contractFrom (created ++ newLandmarkKeys l₁) l₂ := by
  induction l₁ generalizing created with
  | nil => simp [contractFrom]
  | cons a l ih =>
    cases a <;>
      simp only [List.cons_append, contractFrom, List.append_eq, ih, newLandmarkKeys_cons_add,
        newLandmarkKeys_cons_insert, newLandmarkKeys_cons_update,
        newLandmarkKeys_cons_associate, newLandmarkKeys_cons_newLandmark, List.append_assoc,
        List.singleton_append, List.nil_append, and_assoc]

/-- Log entries without a solver update are closed, solve nothing and hand nothing. -/
theorem quiet_observers (l : List (Event M POSE POINT NOISE)) (h : updateEvents l = []) :
    (∀ solved, closedFrom solved l) ∧ solvedKeys l = [] ∧ handedKeys l = [] := by
  induction l with
  | nil => exact ⟨fun _ => trivial, rfl, rfl⟩
  | cons a l ih =>
    cases a with
    | update g v r => simp at h
    | add f =>
      obtain ⟨h1, h2, h3⟩ := ih (by simpa using h)
      exact ⟨fun S => h1 S, by simpa [solvedKeys] using h2, by simpa [handedKeys] using h3⟩
    | insert k v =>
      obtain ⟨h1, h2, h3⟩ := ih (by simpa using h)
      exact ⟨fun S => h1 S, by simpa [solvedKeys] using h2, by simpa [handedKeys] using h3⟩
    | associate e m ms hy =>
      obtain ⟨h1, h2, h3⟩ := ih (by simpa using h)
      exact ⟨fun S => h1 S, by simpa [solvedKeys] using h2, by simpa [handedKeys] using h3⟩
    | newLandmark k =>
      obtain ⟨h1, h2, h3⟩ := ih (by simpa using h)
      exact ⟨fun S => h1 S, by simpa [solvedKeys] using h2, by simpa [handedKeys] using h3⟩

/-- Solver updates that are handed nothing are closed, solve nothing and hand nothing. -/
theorem pass_observers (l : List (Event M POSE POINT NOISE))
    (h : ∀ ev ∈ l, ∃ r, ev = .update [] [] r) :
    (∀ solved, closedFrom solved l) ∧ solvedKeys l = [] ∧ handedKeys l = [] := by
  induction l with
  | nil => exact ⟨fun _ => trivial, rfl, rfl⟩
  | cons a l ih =>
    obtain ⟨r, rfl⟩ := h a (List.mem_cons_self _ _)
    obtain ⟨h1, h2, h3⟩ := ih (fun ev hev => h ev (List.mem_cons_of_mem _ hev))
    refine ⟨fun S => ?_, ?_, ?_⟩
    · cases r with
      | none => simpa [closedFrom, Values.keys] using h1 S
      | some e => simpa [closedFrom] using h1 S
    · cases r <;> simpa [solvedKeys, Values.keys] using h2
    · simpa [handedKeys, Values.keys] using h3

end Claim10

end slam

namespace slam

section Claim10b

variable {σ M POSE POINT NOISE : Type}

theorem X_injective {i j : Nat} (h : X i = X j) : i = j := by
  simpa [X] using h

/-- The keys in the events of the association loop: each factor joins the pose
key to a key bound by the hypothesis or to a key that gets its value in the
loop, and the values are those of the next landmark keys. -/
theorem loopEvents_keys [SMul POSE POINT] (T_wb : POSE) (pose_key : Nat)
    (ms : List (Measurement POINT NOISE)) (c : Nat) (h : Hypothesis)
    (hr : ∀ a ∈ h, a.measurement < ms.length) :
    (∀ f ∈ addedFactors (loopEvents M T_wb pose_key ms c h), ∀ key ∈ f.keys,
        key = X pose_key ∨ (∃ a ∈ h, a.landmark = some key) ∨
          key ∈ Values.keys (insertedValues (loopEvents M T_wb pose_key ms c h))) ∧
      Values.keys (insertedValues (loopEvents M T_wb pose_key ms c h)) =
        (List.range' c (unbound h)).map L := by
  induction h generalizing c with
  | nil => simp [loopEvents, unbound, Values.keys]
  | cons a h ih =>
    have ha : a.measurement < ms.length := hr a (List.mem_cons_self _ _)
    obtain ⟨m, hm⟩ : ∃ m, ms[a.measurement]? = some m := ⟨ms[a.measurement], by simp [ha]⟩
    have hr' : ∀ b ∈ h, b.measurement < ms.length := fun b hb => hr b (List.mem_cons_of_mem _ hb)
    cases hl : a.landmark with
    | some l =>
      obtain ⟨h1, h2⟩ := ih c hr'
      constructor
      · intro f hf key hkey
        simp only [loopEvents, hm, hl, addedFactors_cons_add, List.mem_cons] at hf
        rcases hf with rfl | hf
        · simp only [Factor.keys, List.mem_cons, List.mem_singleton, List.not_mem_nil,
            or_false] at hkey
          rcases hkey with rfl | rfl
          · exact Or.inl rfl
          · exact Or.inr (Or.inl ⟨a, List.mem_cons_self _ _, hl⟩)
        · rcases h1 f hf key hkey with h' | ⟨b, hb, hb'⟩ | h'
          · exact Or.inl h'
          · exact Or.inr (Or.inl ⟨b, List.mem_cons_of_mem _ hb, hb'⟩)
          · exact Or.inr (Or.inr (by simpa [loopEvents, hm, hl] using h'))
      · simp only [loopEvents, hm, hl, insertedValues_cons_add, h2, unbound_cons,
          Association.associated, Option.isSome_some, if_true, Nat.zero_add]
    | none =>
      obtain ⟨h1, h2⟩ := ih (c + 1) hr'
      have hv : Values.keys (insertedValues (loopEvents M T_wb pose_key ms c (a :: h))) =
          L c :: Values.keys (insertedValues (loopEvents M T_wb pose_key ms (c + 1) h)) := by
        simp [loopEvents, landmarkEvents, hm, hl, Values.keys]
      constructor
      · intro f hf key hkey
        simp only [loopEvents, landmarkEvents, hm, hl, List.cons_append, List.nil_append,
          addedFactors_cons_add, addedFactors_cons_insert, addedFactors_cons_newLandmark,
          List.mem_cons] at hf
        rw [hv]
        rcases hf with rfl | hf
        · simp only [Factor.keys, List.mem_cons, List.mem_singleton, List.not_mem_nil,
            or_false] at hkey
          rcases hkey with rfl | rfl
          · exact Or.inl rfl
          · exact Or.inr (Or.inr (List.mem_cons_self _ _))
        · rcases h1 f hf key hkey with h' | ⟨b, hb, hb'⟩ | h'
          · exact Or.inl h'
          · exact Or.inr (Or.inl ⟨b, List.mem_cons_of_mem _ hb, hb'⟩)
          · exact Or.inr (Or.inr (List.mem_cons_of_mem _ h'))
      · rw [hv, h2]
        simp [unbound_cons, Association.associated, hl, Nat.add_comm 1, List.range'_succ]

/-- From the main update on: the update is handed `graph_` and
`initial_estimates_`, only loop-closure passes follow, and a normal return
leaves the accumulator empty. -/
theorem mainUpdate_facts (lib : Gtsam σ M POSE POINT NOISE) (s2 : SLAM σ M POSE POINT NOISE)
    (flag : Bool) :
    ∃ thrown d,
      (match rethrow (update lib s2) with
        | (s3, some t) => (s3, some t)
        | (s3, none) => if flag then extraUpdates lib 20 s3 else (s3, none)).1.log =
        s2.log ++ (.update s2.graph_ s2.initial_estimates_ thrown :: d) ∧
      (∀ ev ∈ d, ∃ r, ev = Event.update [] [] r) ∧
      (match rethrow (update lib s2) with
        | (s3, some t) => (s3, some t)
        | (s3, none) => if flag then extraUpdates lib 20 s3 else (s3, none)).1.latest_landmark_key_
        = s2.latest_landmark_key_ ∧
      (match rethrow (update lib s2) with
        | (s3, some t) => (s3, some t)
        | (s3, none) => if flag then extraUpdates lib 20 s3 else (s3, none)).1.latest_pose_key_
        = s2.latest_pose_key_ ∧
      ((match rethrow (update lib s2) with
        | (s3, some t) => (s3, some t)
        | (s3, none) => if flag then extraUpdates lib 20 s3 else (s3, none)).2 = none →
        thrown = none ∧
        Flushed (match rethrow (update lib s2) with
          | (s3, some t) => (s3, some t)
          | (s3, none) => if flag then extraUpdates lib 20 s3 else (s3, none)).1) := by
  rcases rethrow_update_cases lib s2 with ⟨i, _, hr⟩ | ⟨i, e, t, _, hr, _⟩
  · rw [hr]
    simp only
    cases flag with
    | false => exact ⟨none, [], by simp, by simp, rfl, rfl, fun _ => ⟨rfl, rfl, rfl⟩⟩
    | true =>
      obtain ⟨k, tail, -, hlog, hn, hs⟩ := extraUpdates_log lib 20
        { s2 with isam_ := i
                  log := s2.log ++ [.update s2.graph_ s2.initial_estimates_ none]
                  graph_ := []
                  initial_estimates_ := [] }
      obtain ⟨e1, e2, -, e4, e5⟩ := extraUpdates_frame lib 20
        { s2 with isam_ := i
                  log := s2.log ++ [.update s2.graph_ s2.initial_estimates_ none]
                  graph_ := []
                  initial_estimates_ := [] }
      simp only [if_true]
      refine ⟨none, List.replicate k (.update [] [] none) ++ tail, ?_, ?_, e1, e2,
        fun _ => ⟨rfl, e4, e5⟩⟩
      · rw [hlog]
        simp
      · intro ev hev
        rcases List.mem_append.mp hev with h | h
        · exact ⟨none, (List.mem_replicate.mp h).2⟩
        · by_cases hc : (extraUpdates lib 20
            { s2 with isam_ := i
                      log := s2.log ++ [.update s2.graph_ s2.initial_estimates_ none]
                      graph_ := []
                      initial_estimates_ := [] }).2 = none
          · rw [(hn hc).2] at h
            simp at h
          · obtain ⟨-, e', rfl⟩ := hs hc
            exact ⟨some e', by simpa using h⟩
  · rw [hr]
    exact ⟨some e, [], by simp, by simp, rfl, rfl, by simp⟩

theorem stable_log_extends (lib : Gtsam σ M POSE POINT NOISE) (s0 : SLAM σ M POSE POINT NOISE) :
    Stable lib (fun s : SLAM σ M POSE POINT NOISE => ∃ d, s.log = s0.log ++ d) where
  add := fun s f ⟨d, h⟩ => ⟨d ++ [.add f], by simp [graph_add, h]⟩
  newLandmark := fun s v s' ⟨d, h⟩ hs => by
    obtain ⟨-, rfl⟩ := initial_estimates_insert_ok hs
    exact ⟨d ++ [.insert (L s.latest_landmark_key_) v, .newLandmark (L s.latest_landmark_key_)],
      by simp [incrementLatestLandmarkKey, h]⟩
  insertPose := fun s j p s' ⟨d, h⟩ hs => by
    obtain ⟨-, rfl⟩ := initial_estimates_insert_ok hs
    exact ⟨d ++ [.insert (X j) (.pose p)], by simp [h]⟩
  update := fun s ⟨d, h⟩ => ⟨d ++ [_], by rw [update_log, h, List.append_assoc]⟩
  update0 := fun s ⟨d, h⟩ => ⟨d ++ [_], by rw [update0_log, h, List.append_assoc]⟩
  incPose := fun s h => h
  setPose := fun s p h => h
  asked := fun s est m ms hy ⟨d, h⟩ => ⟨d ++ [.associate est m ms hy], by simp [h]⟩
  configure := fun s n da h => h

theorem contractFrom_left {created : List Key} {l d : List (Event M POSE POINT NOISE)}
    (h : contractFrom created (l ++ d)) : contractFrom created l :=
  ((contractFrom_append created l d).mp h).1

end Claim10b

end slam

namespace slam

section Claim10c

variable {σ M POSE POINT NOISE : Type}

/-- One more solver update after an invariant state: entries without a solver
update, then the update, then loop-closure passes. -/
theorem block_closed {s : SLAM σ M POSE POINT NOISE} (hinv : RunInv s)
    (q d : List (Event M POSE POINT NOISE)) (G : List (Factor POSE POINT NOISE))
    (V : Values POSE POINT) (thrown : Option SolverThrow) (hq : updateEvents q = [])
    (hd : ∀ ev ∈ d, ∃ r, ev = Event.update [] [] r)
    (hG : ∀ f ∈ G, ∀ key ∈ f.keys, key ∈ solvedKeys s.log ∨ key ∈ Values.keys V)
    (hV : (Values.keys V).Nodup) (hfresh : ∀ key ∈ Values.keys V, key ∉ solvedKeys s.log) :
    ClosedDeltas (s.log ++ (q ++ (.update G V thrown :: d))) ∧
      handedKeys (s.log ++ (q ++ (.update G V thrown :: d))) =
        handedKeys s.log ++ Values.keys V ∧
      (thrown = none → solvedKeys (s.log ++ (q ++ (.update G V thrown :: d))) =
        solvedKeys s.log ++ Values.keys V) := by
  obtain ⟨-, -, hclosed, hnodup, hsub, -⟩ := hinv
  obtain ⟨q1, q2, q3⟩ := quiet_observers q hq
  obtain ⟨d1, d2, d3⟩ := pass_observers d hd
  have hhanded : handedKeys (s.log ++ (q ++ (.update G V thrown :: d))) =
      handedKeys s.log ++ Values.keys V := by
    rw [handedKeys_append, handedKeys_append, q3, List.nil_append]
    have : handedKeys (Event.update G V thrown :: d) = Values.keys V ++ handedKeys d := by
      simp [handedKeys, Values.keys]
    rw [this, d3, List.append_nil]
  refine ⟨⟨?_, ?_⟩, hhanded, ?_⟩
  · rw [closedFrom_append, closedFrom_append]
    refine ⟨hclosed, q1 _, ?_⟩
    rw [q2, List.append_nil, List.nil_append]
    cases thrown with
    | none => exact ⟨hG, d1 _⟩
    | some e => exact ⟨hG, d1 _⟩
  · rw [hhanded]
    refine List.nodup_append.mpr ⟨hnodup, hV, ?_⟩
    intro key h1 h2
    exact hfresh key h2 (hsub key h1)
  · intro ht
    subst ht
    rw [solvedKeys_append, solvedKeys_append, q2, List.nil_append, solvedKeys_cons_update_none,
      d2, List.append_nil]

/-- Entries without a solver update after an invariant state. -/
theorem quiet_closed {s : SLAM σ M POSE POINT NOISE} (hinv : RunInv s)
    (q : List (Event M POSE POINT NOISE)) (hq : updateEvents q = []) :
    ClosedDeltas (s.log ++ q) := by
  obtain ⟨-, -, hclosed, hnodup, -, -⟩ := hinv
  obtain ⟨q1, q2, q3⟩ := quiet_observers q hq
  refine ⟨?_, ?_⟩
  · rw [closedFrom_append]
    exact ⟨hclosed, q1 _⟩
  · rw [handedKeys_append, q3, List.append_nil]
    exact hnodup

/-- The odometry stage keeps the invariant of a run and hands a closed delta. -/
theorem addOdom_closed [Mul POSE] (lib : Gtsam σ M POSE POINT NOISE)
    (s : SLAM σ M POSE POINT NOISE) (o : Odometry POSE NOISE) (hinv : RunInv s) :
    ClosedDeltas (addOdom lib s o).1.log ∧
      ((addOdom lib s o).2 = none → RunInv (addOdom lib s o).1) := by
  have hf := hinv.1
  have hK := hinv.2.2.2.2.2
  have hfresh : X (s.latest_pose_key_ + 1) ∉ Values.keys s.initial_estimates_ := by
    rw [hf.2]
    simp [Values.keys]
  have hblock := fun thrown => block_closed hinv
    [.add (.BetweenFactor (X s.latest_pose_key_) (X (s.latest_pose_key_ + 1)) o.odom o.noise),
      .insert (X (s.latest_pose_key_ + 1)) (.pose (s.latest_pose_ * o.odom))] []
    [.BetweenFactor (X s.latest_pose_key_) (X (s.latest_pose_key_ + 1)) o.odom o.noise]
    [(X (s.latest_pose_key_ + 1), .pose (s.latest_pose_ * o.odom))] thrown rfl (by simp)
    (by
      intro f hfm key hkey
      simp only [List.mem_singleton] at hfm
      subst hfm
      simp only [Factor.keys, List.mem_cons, List.mem_singleton, List.not_mem_nil,
        or_false] at hkey
      rcases hkey with rfl | rfl
      · exact Or.inl ((hK _).mpr (Or.inl ⟨_, le_refl _, rfl⟩))
      · exact Or.inr (by simp [Values.keys]))
    (by simp [Values.keys])
    (by
      intro key hkey hs
      simp only [Values.keys, List.map_cons, List.map_nil, List.mem_singleton] at hkey
      subst hkey
      rcases (hK _).mp hs with ⟨i, hi, he⟩ | ⟨j, -, he⟩
      · have := X_injective he
        omega
      · exact X_ne_L _ _ he)
  rw [addOdom_of_fresh lib s o hfresh]
  rcases rethrow_update_cases lib
    { s with graph_ := s.graph_ ++ [.BetweenFactor (X s.latest_pose_key_)
                 (X (s.latest_pose_key_ + 1)) o.odom o.noise]
             initial_estimates_ := s.initial_estimates_ ++
                 [(X (s.latest_pose_key_ + 1), .pose (s.latest_pose_ * o.odom))]
             latest_pose_ := s.latest_pose_ * o.odom
             log := s.log ++ [.add (.BetweenFactor (X s.latest_pose_key_)
                 (X (s.latest_pose_key_ + 1)) o.odom o.noise),
                 .insert (X (s.latest_pose_key_ + 1)) (.pose (s.latest_pose_ * o.odom))] }
    with ⟨i, _, hr⟩ | ⟨i, e, t, _, hr, _⟩
  · rw [hr]
    obtain ⟨⟨c1, c2⟩, c3, c4⟩ := hblock none
    simp only [hf.1, hf.2, List.nil_append, incrementLatestPoseKey, List.append_assoc,
      List.cons_append] at c1 c2 c3 c4 ⊢
    refine ⟨⟨c1, c2⟩, fun _ => ⟨⟨rfl, rfl⟩, ?_, c1, c2, ?_, ?_⟩⟩
    · have := hinv.2.1
      simpa [LandmarkLog] using this
    · intro key hkey
      rw [c3] at hkey
      rw [c4 trivial]
      rcases List.mem_append.mp hkey with h | h
      · exact List.mem_append_left _ (hinv.2.2.2.2.1 key h)
      · exact List.mem_append_right _ h
    · intro key
      rw [c4 trivial]
      simp only [List.mem_append, hK, Values.keys, List.map_cons, List.map_nil,
        List.mem_singleton]
      constructor
      · rintro ((⟨i, hi, rfl⟩ | ⟨j, hj, rfl⟩) | rfl)
        · exact Or.inl ⟨i, by omega, rfl⟩
        · exact Or.inr ⟨j, hj, rfl⟩
        · exact Or.inl ⟨_, le_refl _, rfl⟩
      · rintro (⟨i, hi, rfl⟩ | ⟨j, hj, rfl⟩)
        · rcases Nat.lt_or_ge i (s.latest_pose_key_ + 1) with h | h
          · exact Or.inl (Or.inl ⟨i, by omega, rfl⟩)
          · have : i = s.latest_pose_key_ + 1 := by omega
            subst this
            exact Or.inr rfl
        · exact Or.inl (Or.inr ⟨j, hj, rfl⟩)
  · rw [hr]
    obtain ⟨⟨c1, c2⟩, -, -⟩ := hblock (some e)
    simp only [hf.1, hf.2, List.nil_append, List.append_assoc, List.cons_append] at c1 c2 ⊢
    exact ⟨⟨c1, c2⟩, by simp⟩

/-- The measurement stage keeps the invariant of a run and hands a closed delta,
when the hypothesis it uses is in range and binds solved keys only. -/
theorem processMeasurements_closed [SMul POSE POINT] (lib : Gtsam σ M POSE POINT NOISE)
    (s : SLAM σ M POSE POINT NOISE) (t : Timestep POSE POINT NOISE) (hinv : RunInv s)
    (hh : ∀ h s1, chooseHypothesis lib s t.measurements = some (h, s1) →
      ∀ a ∈ h, a.measurement < t.measurements.length ∧
        ∀ key, a.landmark = some key → key ∈ solvedKeys s.log) :
    ClosedDeltas (processMeasurements lib s t).1.log ∧
      ((processMeasurements lib s t).2 = none → RunInv (processMeasurements lib s t).1) := by
  have hclosed0 : ClosedDeltas s.log := ⟨hinv.2.2.1, hinv.2.2.2.1⟩
  have hf := hinv.1
  have hK := hinv.2.2.2.2.2
  rcases hch : chooseHypothesis lib s t.measurements with _ | ⟨h, s1⟩
  · have hpm : processMeasurements lib s t = (s, some .undefinedBehaviour) := by
      unfold processMeasurements
      simp only [hch]
    rw [hpm]
    exact ⟨hclosed0, by simp⟩
  · obtain ⟨d0, hs1, hq0, -⟩ := chooseHypothesis_log lib s s1 _ h hch
    have hhh := hh h s1 hch
    have hk1 : s1.latest_pose_key_ = s.latest_pose_key_ := by rw [hs1]
    have hl1 : s1.log = s.log ++ d0 := by rw [hs1]
    cases hT : Values.atPose (lib.calculateEstimate s.isam_) (X s.latest_pose_key_) with
    | error e =>
      have hpm : processMeasurements lib s t = (s1, some (.values e)) := by
        unfold processMeasurements
        simp only [hch]
        rw [hk1, hT]
      rw [hpm]
      refine ⟨?_, by simp⟩
      simp only [hl1]
      exact quiet_closed hinv d0 hq0
    | ok T_wb =>
      have hr : ∀ a ∈ h, a.measurement < t.measurements.length := fun a ha => (hhh a ha).1
      have hpm := processMeasurements_of_inRange lib s s1 t h T_wb hch hT
        (landmarksBelow_of_flushed hf) hr
      have hLL : LandmarkLog (processMeasurements lib s t).1 :=
        processMeasurements_stable (stable_landmarkLog lib) s t hinv.2.1
      obtain ⟨hkeys, hvkeys⟩ := loopEvents_keys (M := M) T_wb s.latest_pose_key_ t.measurements
        s.latest_landmark_key_ h hr
      obtain ⟨-, -, hqE, -⟩ := loopEvents_facts (M := M) T_wb s.latest_pose_key_ t.measurements
        s.latest_landmark_key_ h hr
      obtain ⟨s2, e1, e2, e3, e4, e5, hpm'⟩ : ∃ s2 : SLAM σ M POSE POINT NOISE,
          s2.log = s.log ++ (d0 ++
            loopEvents M T_wb s.latest_pose_key_ t.measurements s.latest_landmark_key_ h) ∧
          s2.graph_ = addedFactors
            (loopEvents M T_wb s.latest_pose_key_ t.measurements s.latest_landmark_key_ h) ∧
          s2.initial_estimates_ = insertedValues
            (loopEvents M T_wb s.latest_pose_key_ t.measurements s.latest_landmark_key_ h) ∧
          s2.latest_landmark_key_ = s.latest_landmark_key_ + unbound h ∧
          s2.latest_pose_key_ = s.latest_pose_key_ ∧
          processMeasurements lib s t =
            match rethrow (update lib s2) with
            | (s3, some thrown) => (s3, some thrown)
            | (s3, none) =>
              if h.any Association.associated then extraUpdates lib 20 s3 else (s3, none) := by
        refine ⟨_, ?_, ?_, ?_, ?_, ?_, hpm⟩
        · simp only [hl1, List.append_assoc]
        · simp only [hf.1, List.nil_append]
        · simp only [hf.2, List.nil_append]
        · rfl
        · exact hk1
      obtain ⟨thrown, d, hlog, hd, hc, hk, hnone⟩ :=
        mainUpdate_facts lib s2 (h.any Association.associated)
      rw [← hpm'] at hlog hc hk hnone
      rw [e1, e2, e3] at hlog
      rw [e4] at hc
      rw [e5] at hk
      have hblock := block_closed hinv
        (d0 ++ loopEvents M T_wb s.latest_pose_key_ t.measurements s.latest_landmark_key_ h) d
        (addedFactors
          (loopEvents M T_wb s.latest_pose_key_ t.measurements s.latest_landmark_key_ h))
        (insertedValues
          (loopEvents M T_wb s.latest_pose_key_ t.measurements s.latest_landmark_key_ h))
        thrown (by rw [updateEvents_append, hq0, hqE]; rfl) hd
        (by
          intro f hfm key hkey
          rcases hkeys f hfm key hkey with rfl | ⟨a, ha, hb⟩ | hv
          · exact Or.inl ((hK _).mpr (Or.inl ⟨_, le_refl _, rfl⟩))
          · exact Or.inl ((hhh a ha).2 key hb)
          · exact Or.inr hv)
        (by
          rw [hvkeys]
          exact (List.nodup_range' _ _).map (fun _ _ hij => L_injective hij))
        (by
          intro key hkey hs
          rw [hvkeys] at hkey
          obtain ⟨j, hj, rfl⟩ := List.mem_map.mp hkey
          have hj1 := (List.mem_range'_1.mp hj).1
          rcases (hK _).mp hs with ⟨i, -, he⟩ | ⟨j1, hj1lt, he⟩
          · exact X_ne_L _ _ he.symm
          · have := L_injective he
            omega)
      have hlog1 := hlog.trans (List.append_assoc _ _ _)
      rw [← hlog1] at hblock
      obtain ⟨hcd, hhanded, hsolved⟩ := hblock
      refine ⟨hcd, fun hn => ?_⟩
      obtain ⟨htn, hfl⟩ := hnone hn
      refine ⟨hfl, hLL, hcd.1, hcd.2, ?_, ?_⟩
      · intro key hkey
        rw [hhanded] at hkey
        rw [hsolved htn]
        rcases List.mem_append.mp hkey with h1 | h1
        · exact List.mem_append_left _ (hinv.2.2.2.2.1 key h1)
        · exact List.mem_append_right _ h1
      · intro key
        rw [hsolved htn, hc, hk, hvkeys]
        simp only [List.mem_append, hK, List.mem_map, List.mem_range'_1]
        constructor
        · rintro ((⟨i, hi, rfl⟩ | ⟨j, hj, rfl⟩) | ⟨j, ⟨-, hj⟩, rfl⟩)
          · exact Or.inl ⟨i, hi, rfl⟩
          · exact Or.inr ⟨j, by omega, rfl⟩
          · exact Or.inr ⟨j, hj, rfl⟩
        · rintro (⟨i, hi, rfl⟩ | ⟨j, hj, rfl⟩)
          · exact Or.inl (Or.inl ⟨i, hi, rfl⟩)
          · rcases Nat.lt_or_ge j s.latest_landmark_key_ with h1 | h1
            · exact Or.inl (Or.inr ⟨j, h1, rfl⟩)
            · exact Or.inr ⟨j, ⟨h1, hj⟩, rfl⟩

/-- The log after the measurement stage extends the log in which the
hypothesis was answered. -/
theorem processMeasurements_log_extends [SMul POSE POINT] (lib : Gtsam σ M POSE POINT NOISE)
    (s s1 : SLAM σ M POSE POINT NOISE) (t : Timestep POSE POINT NOISE) (h : Hypothesis)
    (hch : chooseHypothesis lib s t.measurements = some (h, s1)) :
    ∃ d, (processMeasurements lib s t).1.log = s1.log ++ d := by
  have hP := stable_log_extends lib s1
  have h1 : ∃ d, s1.log = s1.log ++ d := ⟨[], by simp⟩
  unfold processMeasurements
  simp only [hch]
  split
  · exact h1
  · next T_wb _ =>
    have hl := associationLoop_stable hP.toLoopStable T_wb t.measurements h s1 false h1
    split
    · next s2 _ thrown hr =>
      rw [hr] at hl
      exact hl
    · next s2 flag hr =>
      rw [hr] at hl
      have hu := rethrow_update_stable hP s2 hl
      split
      · next s3 thrown hr3 =>
        rw [hr3] at hu
        exact hu
      · next s3 hr3 =>
        rw [hr3] at hu
        split
        · exact extraUpdates_stable hP.update0 20 s3 hu
        · exact hu

/-- A hypothesis used by the measurement stage is in range and binds solved
keys only, when the answers in the log respect the association contract. -/
theorem contract_hypothesis (lib : Gtsam σ M POSE POINT NOISE)
    (s s1 : SLAM σ M POSE POINT NOISE) (ms : List (Measurement POINT NOISE)) (h : Hypothesis)
    (hinv : RunInv s) (hch : chooseHypothesis lib s ms = some (h, s1))
    (hcon : contractFrom [] s1.log) :
    ∀ a ∈ h, a.measurement < ms.length ∧
      ∀ key, a.landmark = some key → key ∈ solvedKeys s.log := by
  have hLL := hinv.2.1
  have hK := hinv.2.2.2.2.2
  rcases chooseHypothesis_cases lib s ms with ⟨_, hc⟩ | ⟨_, _, hc⟩ | ⟨_, da, _, hc⟩
  · rw [hc] at hch
    simp only [Option.some.injEq, Prod.mk.injEq] at hch
    rw [← hch.1, fill_empty]
    intro a ha
    obtain ⟨i, hi, rfl⟩ := List.mem_map.mp ha
    have := (List.mem_range'_1.mp hi).2
    exact ⟨by simpa using this, fun key hk => by simp at hk⟩
  · rw [hc] at hch
    simp at hch
  · rw [hc] at hch
    simp only [Option.some.injEq, Prod.mk.injEq] at hch
    obtain ⟨h1, h2⟩ := hch
    rw [← h2] at hcon
    simp only at hcon
    have h3 := ((contractFrom_append [] _ _).mp hcon).2
    rw [h1] at h3
    simp only [contractFrom, List.nil_append, and_true] at h3
    intro a ha
    refine ⟨(h3 a ha).1, fun key hk => ?_⟩
    have h4 := (h3 a ha).2 key hk
    rw [hLL] at h4
    obtain ⟨j, hj, rfl⟩ := List.mem_map.mp h4
    exact (hK _).mpr (Or.inr ⟨j, List.mem_range.mp hj, rfl⟩)

/-- One call of `processTimestep` keeps the invariant of a run and hands closed
deltas, when the answers in its log respect the association contract. -/
theorem processTimestep_closed [Mul POSE] [SMul POSE POINT] (lib : Gtsam σ M POSE POINT NOISE)
    (s : SLAM σ M POSE POINT NOISE) (t : Timestep POSE POINT NOISE) (hinv : RunInv s)
    (hcon : contractFrom [] (processTimestep lib s t).1.log) :
    ClosedDeltas (processTimestep lib s t).1.log ∧
      ((processTimestep lib s t).2 = none → RunInv (processTimestep lib s t).1) := by
  have ha : ClosedDeltas (afterOdom lib s t).log ∧
      ((t.step > 0 → (addOdom lib s t.odom).2 = none) → RunInv (afterOdom lib s t)) := by
    unfold afterOdom
    by_cases hpos : t.step > 0
    · simp only [hpos, if_true, true_implies]
      exact addOdom_closed lib s t.odom hinv
    · simp only [hpos, if_false]
      exact ⟨⟨hinv.2.2.1, hinv.2.2.2.1⟩, fun _ => hinv⟩
  rcases processTimestep_cases lib s t with ⟨_, hne, heq⟩ | ⟨hodom, heq⟩
  · rw [heq]
    exact ⟨(addOdom_closed lib s t.odom hinv).1, fun h => absurd h hne⟩
  · have hinv1 := ha.2 hodom
    by_cases hm : t.measurements.length = 0
    · rw [heq]
      simp only [hm, if_true]
      exact ⟨ha.1, fun _ => hinv1⟩
    · rw [heq] at hcon ⊢
      simp only [hm, if_false] at hcon ⊢
      refine processMeasurements_closed lib _ t hinv1 ?_
      intro h s1 hch
      obtain ⟨d, hd⟩ := processMeasurements_log_extends lib _ s1 t h hch
      rw [hd] at hcon
      exact contract_hypothesis lib _ s1 t.measurements h hinv1 hch (contractFrom_left hcon)

/-- The driver loop keeps handing closed deltas. -/
theorem processTimesteps_closed [Mul POSE] [SMul POSE POINT] (lib : Gtsam σ M POSE POINT NOISE)
    (ts : List (Timestep POSE POINT NOISE)) (s : SLAM σ M POSE POINT NOISE) (hinv : RunInv s)
    (hcon : contractFrom [] (processTimesteps lib ts s).1.log) :
    ClosedDeltas (processTimesteps lib ts s).1.log := by
  induction ts generalizing s with
  | nil => exact ⟨hinv.2.2.1, hinv.2.2.2.1⟩
  | cons t ts ih =>
    have hext : ∃ d, (processTimesteps lib (t :: ts) s).1.log =
        (processTimestep lib s t).1.log ++ d := by
      unfold processTimesteps
      rcases hr : processTimestep lib s t with ⟨s1, _ | thrown⟩
      · exact processTimesteps_stable (stable_log_extends lib s1) ts s1 ⟨[], by simp⟩
      · exact ⟨[], by simp⟩
    obtain ⟨d, hd⟩ := hext
    have hcon1 : contractFrom [] (processTimestep lib s t).1.log := by
      rw [hd] at hcon
      exact contractFrom_left hcon
    have hstep := processTimestep_closed lib s t hinv hcon1
    unfold processTimesteps at hcon ⊢
    rcases hr : processTimestep lib s t with ⟨s1, _ | thrown⟩
    · rw [hr] at hcon hstep
      simp only at hcon hstep ⊢
      exact ih s1 (hstep.2 trivial) hcon
    · rw [hr] at hstep
      exact hstep.1

/-- The pipeline is in an invariant state when `initialize` has returned on a
pipeline just constructed, and the delta it handed to the solver is closed. -/
theorem initializeSLAM_closed [One POSE] (lib : Gtsam σ M POSE POINT NOISE) (n : NOISE)
    (da : DataAssociation M POSE POINT NOISE) :
    ClosedDeltas (initializeSLAM lib (SLAM.new lib) n da).1.log ∧
      ((initializeSLAM lib (SLAM.new lib) n da).2 = none →
        RunInv (initializeSLAM lib (SLAM.new lib) n da).1) := by
  have hfresh : X (SLAM.new lib).latest_pose_key_ ∉
      Values.keys (SLAM.new lib).initial_estimates_ := by
    simp [SLAM.new, Values.keys]
  rw [initializeSLAM_of_fresh lib _ n da hfresh]
  rcases rethrow_update_cases lib
    { SLAM.new lib with
      pose_prior_noise_ := some n
      data_association_ := some da
      graph_ := (SLAM.new lib).graph_ ++ [.PriorFactor (X (SLAM.new lib).latest_pose_key_) 1 n]
      initial_estimates_ := (SLAM.new lib).initial_estimates_ ++
        [(X (SLAM.new lib).latest_pose_key_, .pose 1)]
      log := (SLAM.new lib).log ++ [.add (.PriorFactor (X (SLAM.new lib).latest_pose_key_) 1 n),
        .insert (X (SLAM.new lib).latest_pose_key_) (.pose 1)] }
    with ⟨i, _, hr⟩ | ⟨i, e, t, _, hr, _⟩
  · rw [hr]
    refine ⟨⟨?_, ?_⟩, fun _ => ⟨⟨rfl, rfl⟩, rfl, ?_, ?_, ?_, ?_⟩⟩
    · simp [SLAM.new, closedFrom, Factor.keys, Values.keys]
    · simp [SLAM.new, handedKeys, Values.keys]
    · simp [SLAM.new, closedFrom, Factor.keys, Values.keys]
    · simp [SLAM.new, handedKeys, Values.keys]
    · intro key hkey
      simpa [SLAM.new, handedKeys, solvedKeys, Values.keys] using hkey
    · intro key
      simp [SLAM.new, solvedKeys, Values.keys]
  · rw [hr]
    refine ⟨⟨?_, ?_⟩, by simp⟩
    · simp [SLAM.new, closedFrom, Factor.keys, Values.keys]
    · simp [SLAM.new, handedKeys, Values.keys]

/-- C10: in a run of the driver (construct, `initialize`, then `processTimestep`
on each timestep until the first exception), if every answer of the association
policy recorded in the log has its indices inside the measurements it was given
and binds only landmark keys created before the call, then every delta handed to
the solver is referentially closed: each key of each factor in it has its initial
value in the same delta or had it in an earlier delta whose solver update
returned; and no key is handed an initial value twice. -/
theorem deltas_referentially_closed [One POSE] [Mul POSE] [SMul POSE POINT]
    (lib : Gtsam σ M POSE POINT NOISE) (pose_prior_noise : NOISE)
    (da : DataAssociation M POSE POINT NOISE) (ts : List (Timestep POSE POINT NOISE))
    (hcon : contractFrom [] (runSLAM lib pose_prior_noise da ts).1.log) :
    closedFrom [] (runSLAM lib pose_prior_noise da ts).1.log ∧
      (handedKeys (runSLAM lib pose_prior_noise da ts).1.log).Nodup := by
  have hinit := initializeSLAM_closed lib pose_prior_noise da
  unfold runSLAM at hcon ⊢
  rcases hr : initializeSLAM lib (SLAM.new lib) pose_prior_noise da with ⟨s1, _ | thrown⟩
  · rw [hr] at hcon hinit
    simp only at hcon hinit ⊢
    exact processTimesteps_closed lib ts s1 (hinit.2 trivial) hcon
  · rw [hr] at hinit
    exact hinit.1

theorem deltas_referentially_closed_witness :
    contractFrom []
        (runSLAM Toy.sound () Toy.bindFirst
          [Toy.timestep 0 0 0 [Toy.meas 1 0], Toy.revisit]).1.log ∧
      closedFrom []
        (runSLAM Toy.sound () Toy.bindFirst
          [Toy.timestep 0 0 0 [Toy.meas 1 0], Toy.revisit]).1.log ∧
      (handedKeys
        (runSLAM Toy.sound () Toy.bindFirst
          [Toy.timestep 0 0 0 [Toy.meas 1 0], Toy.revisit]).1.log).Nodup :=
  have hcon : contractFrom []
      (runSLAM Toy.sound () Toy.bindFirst
        [Toy.timestep 0 0 0 [Toy.meas 1 0], Toy.revisit]).1.log := by
    refine ⟨fun a ha => ?_, trivial⟩
    obtain rfl : a = ⟨0, some (L 0)⟩ := List.mem_singleton.mp ha
    exact ⟨by decide, fun key hk => by
      obtain rfl : L 0 = key := Option.some.inj hk
      exact List.mem_singleton.mpr rfl⟩
  ⟨hcon, deltas_referentially_closed Toy.sound () Toy.bindFirst
    [Toy.timestep 0 0 0 [Toy.meas 1 0], Toy.revisit] (by exact hcon)⟩

end Claim10c

end slam

namespace slam

section Claim11

variable {σ M POSE POINT NOISE : Type}

/-- A property kept by the effects of the measurement stage is kept by the
stage, whatever it throws. -/
theorem processMeasurements_keeps [SMul POSE POINT] {lib : Gtsam σ M POSE POINT NOISE}
    {P : SLAM σ M POSE POINT NOISE → Prop} (hL : LoopStable P)
    (hu : ∀ s, P s → P (update lib s).1) (hu0 : ∀ s, P s → P (update0 lib s).1)
    (hask : ∀ s est m ms h, P s → P { s with log := s.log ++ [.associate est m ms h] })
    (s : SLAM σ M POSE POINT NOISE) (t : Timestep POSE POINT NOISE) (h : P s) :
    P (processMeasurements lib s t).1 := by
  unfold processMeasurements
  simp only
  rcases hch : chooseHypothesis lib s t.measurements with _ | ⟨h', s1⟩
  · exact h
  · have h1 : P s1 := by
      rcases chooseHypothesis_cases lib s t.measurements with ⟨_, hc⟩ | ⟨_, _, hc⟩ | ⟨_, da, _, hc⟩
      · rw [hc] at hch
        simp only [Option.some.injEq, Prod.mk.injEq] at hch
        rw [← hch.2]
        exact h
      · rw [hc] at hch
        simp at hch
      · rw [hc] at hch
        simp only [Option.some.injEq, Prod.mk.injEq] at hch
        rw [← hch.2]
        exact hask _ _ _ _ _ h
    simp only
    split
    · exact h1
    · next T_wb _ =>
      have hl := associationLoop_stable hL T_wb t.measurements h' s1 false h1
      split
      · next s2 _ thrown hr =>
        rw [hr] at hl
        exact hl
      · next s2 flag hr =>
        rw [hr] at hl
        have hu1 : P (rethrow (update lib s2)).1 := by
          rw [rethrow_fst]
          exact hu s2 hl
        split
        · next s3 thrown hr3 =>
          rw [hr3] at hu1
          exact hu1
        · next s3 hr3 =>
          rw [hr3] at hu1
          split
          · exact extraUpdates_stable hu0 20 s3 hu1
          · exact hu1

/-- The measurement stage assigns neither `latest_pose_key_` nor `latest_pose_`. -/
theorem processMeasurements_pose [SMul POSE POINT] (lib : Gtsam σ M POSE POINT NOISE)
    (s : SLAM σ M POSE POINT NOISE) (t : Timestep POSE POINT NOISE) :
    (processMeasurements lib s t).1.latest_pose_key_ = s.latest_pose_key_ ∧
      (processMeasurements lib s t).1.latest_pose_ = s.latest_pose_ := by
  refine processMeasurements_keeps
    (P := fun s' : SLAM σ M POSE POINT NOISE =>
      s'.latest_pose_key_ = s.latest_pose_key_ ∧ s'.latest_pose_ = s.latest_pose_)
    ⟨fun s' f h => h, fun s' v s'' h hs => ?_⟩ (fun s' h => ?_) (fun s' h => ?_)
    (fun s' est m ms hy h => h) s t ⟨rfl, rfl⟩
  · obtain ⟨-, rfl⟩ := initial_estimates_insert_ok hs
    exact h
  · show (update lib s').1.latest_pose_key_ = s.latest_pose_key_ ∧
      (update lib s').1.latest_pose_ = s.latest_pose_
    rw [(update_fst_frame lib s').2.1, (update_fst_frame lib s').2.2.1]
    exact h
  · simpa [update0] using h

/-- The odometry stage on a state that does not already hold a value for the
next pose key: what it queues, what it hands to the solver, and the pose key
it leaves. -/
theorem addOdom_guess [Mul POSE] (lib : Gtsam σ M POSE POINT NOISE)
    (s : SLAM σ M POSE POINT NOISE) (o : Odometry POSE NOISE)
    (hfresh : X (s.latest_pose_key_ + 1) ∉ Values.keys s.initial_estimates_) :
    ∃ thrown,
      (addOdom lib s o).1.log = s.log ++
        [.add (.BetweenFactor (X s.latest_pose_key_) (X (s.latest_pose_key_ + 1)) o.odom o.noise),
          .insert (X (s.latest_pose_key_ + 1)) (.pose (s.latest_pose_ * o.odom)),
          .update
            (s.graph_ ++ [.BetweenFactor (X s.latest_pose_key_) (X (s.latest_pose_key_ + 1))
              o.odom o.noise])
            (s.initial_estimates_ ++
              [(X (s.latest_pose_key_ + 1), .pose (s.latest_pose_ * o.odom))]) thrown] ∧
      (addOdom lib s o).1.latest_pose_ = s.latest_pose_ * o.odom ∧
      (thrown = none → (addOdom lib s o).2 = none ∧
        (addOdom lib s o).1.latest_pose_key_ = s.latest_pose_key_ + 1) ∧
      (thrown ≠ none → (addOdom lib s o).2 ≠ none ∧
        (addOdom lib s o).1.latest_pose_key_ = s.latest_pose_key_) := by
  rw [addOdom_of_fresh lib s o hfresh]
  rcases rethrow_update_cases lib
    { s with graph_ := s.graph_ ++ [.BetweenFactor (X s.latest_pose_key_)
                 (X (s.latest_pose_key_ + 1)) o.odom o.noise]
             initial_estimates_ := s.initial_estimates_ ++
                 [(X (s.latest_pose_key_ + 1), .pose (s.latest_pose_ * o.odom))]
             latest_pose_ := s.latest_pose_ * o.odom
             log := s.log ++ [.add (.BetweenFactor (X s.latest_pose_key_)
                 (X (s.latest_pose_key_ + 1)) o.odom o.noise),
                 .insert (X (s.latest_pose_key_ + 1)) (.pose (s.latest_pose_ * o.odom))] }
    with ⟨i, _, hr⟩ | ⟨i, e, th, _, hr, _⟩
  · rw [hr]
    exact ⟨none, by simp [incrementLatestPoseKey], rfl, fun _ => ⟨rfl, rfl⟩,
      fun h => absurd rfl h⟩
  · rw [hr]
    exact ⟨some e, by simp, rfl, fun h => by simp at h, fun _ => ⟨by simp, rfl⟩⟩

/-- C11 (as the code has it): for every timestep with `step > 0`, processed in a
state that does not already hold a value for the next pose key, the log of
`processTimestep` starts with the between-pose factor from `X(latest_pose_key_)`
to `X(latest_pose_key_ + 1)`, the initial value of `X(latest_pose_key_ + 1)`,
which is the member `latest_pose_` composed with the odometry pose (no estimate
of the solver is read), and the solver update that is handed both. The member
`latest_pose_` is left at this guess. The pose key is advanced by one when
that update returned; when it threw, nothing follows in the log, the call throws
and the pose key is unchanged. -/
theorem processTimestep_odometry_guess [Mul POSE] [SMul POSE POINT]
    (lib : Gtsam σ M POSE POINT NOISE) (s : SLAM σ M POSE POINT NOISE)
    (t : Timestep POSE POINT NOISE) (hpos : t.step > 0)
    (hfresh : X (s.latest_pose_key_ + 1) ∉ Values.keys s.initial_estimates_) :
    ∃ thrown rest,
      logSince s (processTimestep lib s t).1 =
        .add (.BetweenFactor (X s.latest_pose_key_) (X (s.latest_pose_key_ + 1))
            t.odom.odom t.odom.noise) ::
          .insert (X (s.latest_pose_key_ + 1)) (.pose (s.latest_pose_ * t.odom.odom)) ::
          .update
            (s.graph_ ++ [.BetweenFactor (X s.latest_pose_key_) (X (s.latest_pose_key_ + 1))
              t.odom.odom t.odom.noise])
            (s.initial_estimates_ ++
              [(X (s.latest_pose_key_ + 1), .pose (s.latest_pose_ * t.odom.odom))]) thrown ::
          rest ∧
      (processTimestep lib s t).1.latest_pose_ = s.latest_pose_ * t.odom.odom ∧
      (thrown = none →
        (processTimestep lib s t).1.latest_pose_key_ = s.latest_pose_key_ + 1) ∧
      (thrown ≠ none → rest = [] ∧ (processTimestep lib s t).2 ≠ none ∧
        (processTimestep lib s t).1.latest_pose_key_ = s.latest_pose_key_) := by
  obtain ⟨thrown, hlog, hpose, hok, hfail⟩ := addOdom_guess lib s t.odom hfresh
  rcases processTimestep_cases lib s t with ⟨_, hne, heq⟩ | ⟨hodom, heq⟩
  · have hth : thrown ≠ none := fun h => hne (hok h).1
    rw [heq]
    exact ⟨thrown, [], logSince_of_append hlog, hpose, fun h => absurd h hth,
      fun _ => ⟨rfl, hne, (hfail hth).2⟩⟩
  · have hth : thrown = none := by
      by_contra h
      exact (hfail h).1 (hodom hpos)
    have haft : afterOdom lib s t = (addOdom lib s t.odom).1 := by
      unfold afterOdom
      simp only [hpos, if_true]
    rw [heq, haft]
    by_cases hm : t.measurements.length = 0
    · simp only [hm, if_true]
      exact ⟨thrown, [], logSince_of_append hlog, hpose, fun _ => (hok hth).2,
        fun h => absurd hth h⟩
    · simp only [hm, if_false]
      obtain ⟨d, hd⟩ := processMeasurements_stable
        (stable_log_extends lib (addOdom lib s t.odom).1) (addOdom lib s t.odom).1 t
        ⟨[], by simp⟩
      obtain ⟨hk, hp⟩ := processMeasurements_pose lib (addOdom lib s t.odom).1 t
      refine ⟨thrown, d, logSince_of_append ?_, ?_, fun _ => ?_, fun h => absurd hth h⟩
      · rw [hd, hlog]
        simp
      · rw [hp, hpose]
      · rw [hk]
        exact (hok hth).2

theorem processTimestep_odometry_guess_witness :
    (Toy.timestep 2 1 0 []).step > 0 ∧
      X (Toy.closedLoop.latest_pose_key_ + 1) ∉ Values.keys Toy.closedLoop.initial_estimates_ ∧
      (processTimestep Toy.closing Toy.closedLoop (Toy.timestep 2 1 0 [])).1.latest_pose_ =
        Toy.closedLoop.latest_pose_ * (Toy.timestep 2 1 0 []).odom.odom :=
  ⟨by decide, by decide,
    match processTimestep_odometry_guess Toy.closing Toy.closedLoop (Toy.timestep 2 1 0 [])
      (by decide) (by decide) with
    | ⟨_, _, _, hp, _⟩ => hp⟩

/-- After a loop closure the solver holds `(0, 0)` for the pose `X(1)` while the
pipeline holds the dead-reckoned `(1, 0)`: the next odometry step of `(1, 0)`
queues `(2, 0)` for `X(2)`, not the solver's estimate composed with the step. -/
theorem processTimestep_odometry_guess_counterexample :
    (Toy.timestep 2 1 0 []).step > 0 ∧
      Values.atPose (Toy.closing.calculateEstimate Toy.closedLoop.isam_)
        (X Toy.closedLoop.latest_pose_key_) = .ok ⟨0, 0⟩ ∧
      insertedValues (logSince Toy.closedLoop
        (processTimestep Toy.closing Toy.closedLoop (Toy.timestep 2 1 0 [])).1) =
        [(X (Toy.closedLoop.latest_pose_key_ + 1), .pose ⟨2, 0⟩)] ∧
      (⟨0, 0⟩ : Toy.Pose2) * (Toy.timestep 2 1 0 []).odom.odom ≠ ⟨2, 0⟩ :=
  ⟨by decide, rfl, by decide, by decide⟩

end Claim11

end slam

namespace slam

section Claim12

variable {σ M POSE POINT NOISE : Type}

/-- The loop of `getTrajectory` from an accumulated trajectory: it returns when
every key it visits has a pose, with these poses appended in the order of the
visit. -/
theorem trajectory_loop (estimates : Values POSE POINT) (l : List Nat)
    (acc tr : List POSE) :
    l.foldlM (fun trajectory i =>
        match Values.atPose estimates (X i) with
        | .error e => Except.error e
        | .ok pose => Except.ok (trajectory ++ [pose])) acc = Except.ok tr ↔
      ∃ ps : List POSE, l.map (fun i => Values.atPose estimates (X i)) = ps.map Except.ok ∧
        tr = acc ++ ps := by
  induction l generalizing acc with
  | nil =>
    simp only [List.foldlM_nil, List.map_nil]
    constructor
    · intro h
      cases h
      exact ⟨[], rfl, by simp⟩
    · rintro ⟨ps, hps, rfl⟩
      cases ps with
      | nil => simp [pure, Except.pure]
      | cons a ps => simp at hps
  | cons i l ih =>
    simp only [List.foldlM_cons, List.map_cons]
    cases hi : Values.atPose estimates (X i) with
    | error e =>
      simp only [bind, Except.bind]
      constructor
      · intro h
        cases h
      · rintro ⟨ps, hps, -⟩
        cases ps with
        | nil => simp at hps
        | cons a ps => simp at hps
    | ok pose =>
      simp only [bind, Except.bind]
      rw [ih]
      constructor
      · rintro ⟨ps, hps, rfl⟩
        exact ⟨pose :: ps, by simp [hps], by simp⟩
      · rintro ⟨ps, hps, rfl⟩
        cases ps with
        | nil => simp at hps
        | cons a ps =>
          simp only [List.map_cons, List.cons.injEq, Except.ok.injEq] at hps
          obtain ⟨rfl, hps⟩ := hps
          exact ⟨ps, hps, by simp⟩

/-- The trajectory `getTrajectory` returns, and when it returns. -/
theorem getTrajectory_eq_ok (s : SLAM σ M POSE POINT NOISE) (tr : List POSE) :
    getTrajectory s = Except.ok tr ↔
      (List.range s.latest_pose_key_).map
        (fun i => Values.atPose (currentEstimates s) (X i)) = tr.map Except.ok := by
  unfold getTrajectory
  simp only
  rw [trajectory_loop]
  constructor
  · rintro ⟨ps, hps, rfl⟩
    simpa using hps
  · intro h
    exact ⟨tr, h, by simp⟩

/-- An odometry stage that returns has advanced the pose key by one and has
handed the solver a value for the new key. -/
theorem addOdom_returns [Mul POSE] (lib : Gtsam σ M POSE POINT NOISE)
    (s : SLAM σ M POSE POINT NOISE) (o : Odometry POSE NOISE)
    (h : (addOdom lib s o).2 = none) :
    (addOdom lib s o).1.latest_pose_key_ = s.latest_pose_key_ + 1 ∧
      X (s.latest_pose_key_ + 1) ∈ handedKeys (addOdom lib s o).1.log ∧
      ∃ d, (addOdom lib s o).1.log = s.log ++ d := by
  by_cases hfresh : X (s.latest_pose_key_ + 1) ∈ Values.keys s.initial_estimates_
  · rw [addOdom_of_stale lib s o hfresh] at h
    simp at h
  · obtain ⟨thrown, hlog, -, hok, hfail⟩ := addOdom_guess lib s o hfresh
    have hth : thrown = none := by
      by_contra hne
      exact (hfail hne).1 h
    subst hth
    refine ⟨(hok rfl).2, ?_, _, hlog⟩
    rw [hlog, handedKeys_append]
    refine List.mem_append_right _ ?_
    simp [handedKeys, Values.keys]

/-- A call of `processTimestep` that returns has advanced the pose key by one
when `step > 0` and has left it otherwise; every pose key up to the counter was
handed to the solver with a value if that was so before the call. -/
theorem processTimestep_returns [Mul POSE] [SMul POSE POINT]
    (lib : Gtsam σ M POSE POINT NOISE) (s : SLAM σ M POSE POINT NOISE)
    (t : Timestep POSE POINT NOISE) (h : (processTimestep lib s t).2 = none) :
    (processTimestep lib s t).1.latest_pose_key_ =
        s.latest_pose_key_ + (if t.step > 0 then 1 else 0) ∧
      ((∀ i, i ≤ s.latest_pose_key_ → X i ∈ handedKeys s.log) →
        ∀ i, i ≤ (processTimestep lib s t).1.latest_pose_key_ →
          X i ∈ handedKeys (processTimestep lib s t).1.log) := by
  have ha : (t.step > 0 → (addOdom lib s t.odom).2 = none) →
      (afterOdom lib s t).latest_pose_key_ =
        s.latest_pose_key_ + (if t.step > 0 then 1 else 0) ∧
      ((∀ i, i ≤ s.latest_pose_key_ → X i ∈ handedKeys s.log) →
        ∀ i, i ≤ (afterOdom lib s t).latest_pose_key_ →
          X i ∈ handedKeys (afterOdom lib s t).log) := by
    intro hodom
    unfold afterOdom
    by_cases hpos : t.step > 0
    · simp only [hpos, if_true]
      obtain ⟨hk, hx, d, hd⟩ := addOdom_returns lib s t.odom (hodom hpos)
      refine ⟨hk, fun hP i hi => ?_⟩
      rw [hk] at hi
      rcases Nat.lt_or_ge i (s.latest_pose_key_ + 1) with h1 | h1
      · rw [hd, handedKeys_append]
        exact List.mem_append_left _ (hP i (by omega))
      · have : i = s.latest_pose_key_ + 1 := by omega
        subst this
        exact hx
    · simp only [hpos, if_false, Nat.add_zero]
      exact ⟨trivial, fun hP => hP⟩
  rcases processTimestep_cases lib s t with ⟨_, hne, heq⟩ | ⟨hodom, heq⟩
  · rw [heq] at h
    exact absurd h hne
  · obtain ⟨hk, hP⟩ := ha hodom
    rw [heq]
    by_cases hm : t.measurements.length = 0
    · simp only [hm, if_true]
      exact ⟨hk, hP⟩
    · simp only [hm, if_false]
      obtain ⟨d, hd⟩ := processMeasurements_stable
        (stable_log_extends lib (afterOdom lib s t)) (afterOdom lib s t) t ⟨[], by simp⟩
      obtain ⟨hk1, -⟩ := processMeasurements_pose lib (afterOdom lib s t) t
      rw [hk1]
      refine ⟨hk, fun hP0 i hi => ?_⟩
      rw [hd, handedKeys_append]
      exact List.mem_append_left _ (hP hP0 i hi)

/-- A driver loop that returns has advanced the pose key once for each
timestep with `step > 0`. -/
theorem processTimesteps_returns [Mul POSE] [SMul POSE POINT]
    (lib : Gtsam σ M POSE POINT NOISE) (ts : List (Timestep POSE POINT NOISE))
    (s : SLAM σ M POSE POINT NOISE) (h : (processTimesteps lib ts s).2 = none) :
    (processTimesteps lib ts s).1.latest_pose_key_ =
        s.latest_pose_key_ + (ts.filter (fun t => decide (t.step > 0))).length ∧
      ((∀ i, i ≤ s.latest_pose_key_ → X i ∈ handedKeys s.log) →
        ∀ i, i ≤ (processTimesteps lib ts s).1.latest_pose_key_ →
          X i ∈ handedKeys (processTimesteps lib ts s).1.log) := by
  induction ts generalizing s with
  | nil => exact ⟨by simp [processTimesteps], fun hP => hP⟩
  | cons t ts ih =>
    unfold processTimesteps at h ⊢
    rcases hr : processTimestep lib s t with ⟨s1, _ | thrown⟩
    · rw [hr] at h
      simp only at h ⊢
      have hstep := processTimestep_returns lib s t (by rw [hr])
      rw [hr] at hstep
      simp only at hstep
      obtain ⟨hk, hP⟩ := ih s1 h
      refine ⟨?_, fun hP0 => hP (hstep.2 hP0)⟩
      rw [hk, hstep.1]
      by_cases hpos : t.step > 0
      · simp only [hpos, if_true, List.filter_cons, decide_True, List.length_cons]
        omega
      · simp only [hpos, if_false, List.filter_cons, decide_False, Nat.add_zero]
        simp
    · rw [hr] at h
      simp at h

/-- The state `initialize` leaves on a pipeline just constructed: the pose key
is 0 and `X(0)` has been handed to the solver with a value. -/
theorem initializeSLAM_pose_key [One POSE] (lib : Gtsam σ M POSE POINT NOISE) (n : NOISE)
    (da : DataAssociation M POSE POINT NOISE) :
    (initializeSLAM lib (SLAM.new lib) n da).1.latest_pose_key_ = 0 ∧
      X 0 ∈ handedKeys (initializeSLAM lib (SLAM.new lib) n da).1.log := by
  have hfresh : X (SLAM.new lib).latest_pose_key_ ∉
      Values.keys (SLAM.new lib).initial_estimates_ := by
    simp [SLAM.new, Values.keys]
  rw [initializeSLAM_of_fresh lib _ n da hfresh, rethrow_fst, (update_fst_frame lib _).2.1,
    update_log]
  refine ⟨rfl, ?_⟩
  rw [handedKeys_append]
  refine List.mem_append_right _ ?_
  simp [handedKeys, Values.keys, SLAM.new]

/-- The loop of `getTrajectory`: it returns a trajectory exactly when the values
`currentEstimates()` returns hold a pose under each of `X(0)`, ...,
`X(latest_pose_key_ - 1)`, and the trajectory is then these poses in key order:
it has `latest_pose_key_` entries and `X(latest_pose_key_)` is not read. After
`initialize` alone the trajectory is empty although `X(0)` was handed to the
solver with a value; after a run over timesteps with the step indices `0..N`
that returns, the pose key is `N`, the keys `X(0)`, ..., `X(N)` were handed to
the solver with a value, and a trajectory that is returned has `N` entries. -/
theorem getTrajectory_stops_before_current [One POSE] [Mul POSE] [SMul POSE POINT]
    (lib : Gtsam σ M POSE POINT NOISE) :
    (∀ (s : SLAM σ M POSE POINT NOISE) (tr : List POSE),
      getTrajectory s = Except.ok tr ↔
        (List.range s.latest_pose_key_).map
          (fun i => Values.atPose (currentEstimates s) (X i)) = tr.map Except.ok) ∧
    (∀ (s : SLAM σ M POSE POINT NOISE) (tr : List POSE),
      getTrajectory s = Except.ok tr → tr.length = s.latest_pose_key_) ∧
    (∀ (n : NOISE) (da : DataAssociation M POSE POINT NOISE),
      getTrajectory (initializeSLAM lib (SLAM.new lib) n da).1 = Except.ok [] ∧
        X 0 ∈ handedKeys (initializeSLAM lib (SLAM.new lib) n da).1.log) ∧
    (∀ (n : NOISE) (da : DataAssociation M POSE POINT NOISE)
      (ts : List (Timestep POSE POINT NOISE)), ts ≠ [] →
      ts.map (fun t => t.step) = (List.range ts.length).map Int.ofNat →
      (runSLAM lib n da ts).2 = none →
      (runSLAM lib n da ts).1.latest_pose_key_ = ts.length - 1 ∧
        (∀ i, i ≤ ts.length - 1 → X i ∈ handedKeys (runSLAM lib n da ts).1.log) ∧
        ∀ tr, getTrajectory (runSLAM lib n da ts).1 = Except.ok tr →
          tr.length = ts.length - 1) := by
  have hlen : ∀ (s : SLAM σ M POSE POINT NOISE) (tr : List POSE),
      getTrajectory s = Except.ok tr → tr.length = s.latest_pose_key_ := by
    intro s tr h
    have h1 := congrArg List.length ((getTrajectory_eq_ok s tr).mp h)
    simpa using h1.symm
  refine ⟨getTrajectory_eq_ok, hlen, fun n da => ?_, fun n da ts hne hsteps hret => ?_⟩
  · obtain ⟨hk, hx⟩ := initializeSLAM_pose_key lib n da
    refine ⟨?_, hx⟩
    rw [getTrajectory_eq_ok, hk]
    rfl
  · obtain ⟨t0, rest, rfl⟩ := List.exists_cons_of_ne_nil hne
    simp only [List.map_cons, List.length_cons, List.range_succ_eq_map, List.cons.injEq,
      List.map_map] at hsteps
    have h0 : t0.step = 0 := by simpa using hsteps.1
    have hrest := hsteps.2
    have hpos : ∀ t ∈ rest, t.step > 0 := by
      intro t ht
      have : t.step ∈ rest.map (fun t => t.step) := List.mem_map_of_mem _ ht
      rw [hrest] at this
      obtain ⟨i, -, hi⟩ := List.mem_map.mp this
      simp only [Function.comp_apply, Nat.succ_eq_add_one, Int.ofNat_eq_coe] at hi
      omega
    have hcount : ((t0 :: rest).filter (fun t => decide (t.step > 0))).length = rest.length := by
      have hf : rest.filter (fun t => decide (t.step > 0)) = rest :=
        List.filter_eq_self.mpr (fun t ht => by simpa using hpos t ht)
      simp [List.filter_cons, h0, hf]
    obtain ⟨hk0, hx0⟩ := initializeSLAM_pose_key lib n da
    have hrun : (runSLAM lib n da (t0 :: rest)).1.latest_pose_key_ = rest.length ∧
        ∀ i, i ≤ (runSLAM lib n da (t0 :: rest)).1.latest_pose_key_ →
          X i ∈ handedKeys (runSLAM lib n da (t0 :: rest)).1.log := by
      unfold runSLAM at hret ⊢
      rcases hr : initializeSLAM lib (SLAM.new lib) n da with ⟨s1, _ | thrown⟩
      · rw [hr] at hret hk0 hx0
        simp only at hret hk0 hx0 ⊢
        obtain ⟨hk, hP⟩ := processTimesteps_returns lib (t0 :: rest) s1 hret
        refine ⟨by rw [hk, hk0, hcount, Nat.zero_add], hP (fun i hi => ?_)⟩
        have : i = 0 := by omega
        subst this
        exact hx0
      · rw [hr] at hret
        simp at hret
    simp only [List.length_cons, Nat.add_sub_cancel]
    refine ⟨hrun.1, fun i hi => hrun.2 i (by rw [hrun.1]; exact hi), fun tr htr => ?_⟩
    rw [hlen _ tr htr, hrun.1]

/-- With `estimates_` empty, `getTrajectory` throws at `X(0)` as soon as the pose
key is above 0. -/
theorem getTrajectory_of_empty (s : SLAM σ M POSE POINT NOISE) (he : s.estimates_ = [])
    (hk : 0 < s.latest_pose_key_) :
    getTrajectory s = Except.error (.ValuesKeyDoesNotExist (X 0)) := by
  obtain ⟨k, hk1⟩ : ∃ k, s.latest_pose_key_ = k + 1 := ⟨s.latest_pose_key_ - 1, by omega⟩
  unfold getTrajectory currentEstimates
  rw [he, hk1, List.range_succ_eq_map]
  simp [List.foldlM_cons, Values.atPose, bind, Except.bind]

/-- In every run of the driver that has integrated an odometry step,
`getTrajectory` throws at `X(0)`: no member function assigns `estimates_`. -/
theorem getTrajectory_throws_in_runs [One POSE] [Mul POSE] [SMul POSE POINT]
    (lib : Gtsam σ M POSE POINT NOISE) (n : NOISE) (da : DataAssociation M POSE POINT NOISE)
    (ts : List (Timestep POSE POINT NOISE))
    (hk : 0 < (runSLAM lib n da ts).1.latest_pose_key_) :
    getTrajectory (runSLAM lib n da ts).1 = Except.error (.ValuesKeyDoesNotExist (X 0)) :=
  getTrajectory_of_empty _ (runSLAM_stable (stable_unassigned lib [] []) n da ts ⟨rfl, rfl⟩).2 hk

/-- C12: at the failing input, a run over the step indices 0, 1, 2 that
returns, the pose key is 2 and the solver holds a pose for `X(0)` and for
`X(1)`, but `getTrajectory` throws `ValuesKeyDoesNotExist` at `X(0)` where the
claim has it return these two poses. -/
theorem getTrajectory_throws_after_odometry :
    (runSLAM Toy.sound () Toy.allNew
        [Toy.timestep 0 0 0 [Toy.meas 1 0], Toy.timestep 1 1 0 [],
          Toy.timestep 2 0 2 []]).2 = none ∧
      (runSLAM Toy.sound () Toy.allNew
        [Toy.timestep 0 0 0 [Toy.meas 1 0], Toy.timestep 1 1 0 [],
          Toy.timestep 2 0 2 []]).1.latest_pose_key_ = 2 ∧
      Values.atPose (Toy.sound.calculateEstimate (runSLAM Toy.sound () Toy.allNew
        [Toy.timestep 0 0 0 [Toy.meas 1 0], Toy.timestep 1 1 0 [],
          Toy.timestep 2 0 2 []]).1.isam_) (X 0) = Except.ok ⟨0, 0⟩ ∧
      Values.atPose (Toy.sound.calculateEstimate (runSLAM Toy.sound () Toy.allNew
        [Toy.timestep 0 0 0 [Toy.meas 1 0], Toy.timestep 1 1 0 [],
          Toy.timestep 2 0 2 []]).1.isam_) (X 1) = Except.ok ⟨1, 0⟩ ∧
      getTrajectory (runSLAM Toy.sound () Toy.allNew
        [Toy.timestep 0 0 0 [Toy.meas 1 0], Toy.timestep 1 1 0 [],
          Toy.timestep 2 0 2 []]).1 = Except.error (.ValuesKeyDoesNotExist (X 0)) :=
  ⟨by decide, by decide, rfl, rfl, rfl⟩

end Claim12

end slam
